import Mathlib

/-!
# RabbitX Go client: the watchdog of package `bot`, the REST client and the signature

A shallow embedding of `src/bot/strategy.go`, `src/bot/helpers.go`, the subscription
loop of `src/bot/bot.go`, the order and secret calls of `src/client`, and
`PayloadSignature` of `src/auth/auth.go`.

* Go maps (`map[string]string`) are association lists without duplicate keys
  (`AList`); a `range` over the map visits the entries in the order of the list,
  and since every list order is a value of the type, a statement about every
  order book covers every iteration order Go may pick.
* `decimal.Decimal` (shopspring) is an arbitrary-precision decimal whose `Mul`,
  `Abs` and comparisons are exact; its values are modelled by `ℚ`.
* `float64` arithmetic is a parameter (`Arith`): the code is interpreted both in
  IEEE-754 binary64 (`binary64`) and in exact rational arithmetic (`exact`).
* A run of Go code that panics (nil pointer dereference) yields `none`.
* Locks and logging have no effect on the values computed and are left out of the
  operations; the order of locking, calling and sending of each operation is given
  apart, as a list of events.
* HTTP, JSON decoding and the hash functions are parameters: a statement about every
  reply, every decoder and every hash covers what the libraries do.
* Unsigned and signed machine words are natural numbers and integers; the conversion
  between them is explicit, modulo `2^64`.
-/

namespace RabbitX

/-! ## `src/model/constants.go` -/

def LONG : String := "long"
def LIMIT : String := "limit"

def UNKNOWN : String := "unknown"
def PROCESSING : String := "processing"
def PLACED : String := "placed"
def OPEN : String := "open"
def CLOSED : String := "closed"
def REJECTED : String := "rejected"
def CANCELED : String := "canceled"
def CANCELING : String := "canceling"
def AMENDING : String := "amending"
def CANCELINGALL : String := "cancelingall"

/-! ## `src/model/model.go`, `src/client/reqres.go`: the fields the watchdog reads -/

/-- Values of `decimal.Decimal`: exact decimal numbers, taken as rationals. -/
abbrev Decimal := ℚ

/-- The decimal `Abs` of shopspring. -/
def Decimal.Abs (d : Decimal) : Decimal := |d|

/-- The decimal comparison `GreaterThan`. -/
def Decimal.GreaterThan (d d2 : Decimal) : Bool := decide (d2 < d)

/-- The decimal comparison `LessThanOrEqual`. -/
def Decimal.LessThanOrEqual (d d2 : Decimal) : Bool := decide (d ≤ d2)

/-- The decimal product `Mul`. -/
def Decimal.Mul (d d2 : Decimal) : Decimal := d * d2

/-- The constant `decimal.Zero`. -/
def Decimal.Zero : Decimal := 0

/-- An order as the watchdog sees it (`model.OrderData`): the bot reads `OrderId`
and `Status` only. -/
structure OrderData where
  OrderId : String
  Status : String
deriving DecidableEq, Repr

/-- The payload of a `market` event (`model.MarketData`): `BestBid` and `BestAsk`
are pointers, `none` when the field is absent or null. -/
structure MarketData where
  BestBid : Option Decimal
  BestAsk : Option Decimal
deriving DecidableEq

/-- The payload of an `account` event (`model.ProfileData`): `Orders` is a slice
of pointers (`[]*OrderData`), a JSON `null` element decodes to a nil pointer. -/
structure ProfileData where
  Orders : List (Option OrderData)
deriving DecidableEq

/-- The request of `ListOrders` (`client.OrderListRequest`). -/
structure OrderListRequest where
  MarketId : String
  TimeStamp : Nat := 0
  EndTime : Nat := 0
  Status : List String := []
  OrderId : String := ""
  ClientOrderId : String := ""
  OrderType : List String := []
deriving DecidableEq, Repr

/-- The request of `CreateOrder` (`client.OrderCreateRequest`), over the type `α`
of floating-point numbers; the pointer fields are `none` when nil. -/
structure OrderCreateRequest (α : Type) where
  MarketId : String
  Type_ : String
  Side : String
  Price : Option α
  Size : Option α
  ClientOrderId : Option String := none
  TriggerPrice : Option α := none
  SizePercent : Option α := none
  TimeInForce : Option String := none

/-- The fields of `client.OrderCreateResponse` that the watchdog reads. -/
structure OrderCreateResponse where
  OrderId : String
  Status : String
deriving DecidableEq, Repr

/-- What a call of a collaborator that returns `(*T, error)` can do: panic,
return an error, or return a pointer (nil for `none`) and no error. -/
inductive CallResult (T : Type) where
  | panicked : CallResult T
  | failed (err : String) : CallResult T
  | returned (res : Option T) : CallResult T

/-! ## `src/bot/strategy.go`: state -/

/-- The type of `WatchDog.orders`, a Go `map[string]string` from order id to status. -/
abbrev OrderBook := AList (fun _ : String => String)

/-- The event envelope `EventData`; `Data` holds the raw bytes of the payload. -/
structure EventData where
  WsChannel : String
  Data : List UInt8
deriving DecidableEq

/-- The mutable state of `WatchDog`. The client, the channels and the locks are
not part of the value: collaborators are arguments of the operations. -/
structure WatchDog where
  marketId : String
  orders : OrderBook
  bestBid : Decimal
  bestAsk : Decimal

/-- The function `NewWatchDog`: an empty order book and zero decimals. -/
def NewWatchDog (marketId : String) : WatchDog :=
  { marketId := marketId, orders := ∅, bestBid := 0, bestAsk := 0 }

/-- A buffered Go channel of strings: the queued values and the capacity. -/
structure Chan where
  buf : List String
  cap : Nat
deriving DecidableEq, Repr

/-- A send on a buffered channel: appends when there is room, and blocks
(`none`) when the buffer is full. -/
def Chan.send (ch : Chan) (v : String) : Option Chan :=
  if ch.buf.length < ch.cap then some { ch with buf := ch.buf ++ [v] } else none

/-- The decoder `json.Unmarshal` at payload type `T`: `none` is a decode error. -/
abbrev Unmarshal (T : Type) := List UInt8 → Option T

/-! ## `src/bot/helpers.go` -/

/-- The function `decodeAndPrintData`: nil (`none`) when decoding fails, the
decoded value otherwise; `doShow` only controls logging. -/
def decodeAndPrintData {T : Type} (unmarshal : Unmarshal T) (_channel : String)
    (data : List UInt8) (_doShow : Bool) : Option T :=
  match unmarshal data with
  | none => none
  | some t => some t

/-! ## `src/bot/strategy.go`: operations on the order book and the market state -/

/-- The method `loadOrders`: the error of `ListOrders` is returned, otherwise every
listed order whose status is `OPEN` is written into the order book. -/
def loadOrders (ListOrders : OrderListRequest → Except String (List OrderData))
    (wd : WatchDog) : Except String WatchDog :=
  match ListOrders { MarketId := wd.marketId } with
  | .error err => .error err
  | .ok orders =>
    .ok (orders.foldl
      (fun w order =>
        if order.Status = OPEN then
          { w with orders := w.orders.insert order.OrderId order.Status }
        else w)
      wd)

/-- The method `checkOrders`: ranges over the order book and sends the id of every
entry whose status is `OPEN` or `CANCELING` on `cancelCh`. The result is the
watchdog (only read) and the channel, `none` when a send blocks on a full buffer. -/
def checkOrders (wd : WatchDog) (cancelCh : Chan) : WatchDog × Option Chan :=
  (wd, wd.orders.entries.foldlM
    (fun ch e => if e.2 = OPEN ∨ e.2 = CANCELING then ch.send e.1 else some ch)
    cancelCh)

/-- The method `cleanOrders`: ranges over the order book and deletes every entry
whose status is `CANCELED`. -/
def cleanOrders (wd : WatchDog) : WatchDog :=
  let swept : OrderBook := wd.orders.entries.foldl
    (fun m e => if e.2 = CANCELED then m.erase e.1 else m) wd.orders
  { wd with orders := swept }

/-- The method `handleMarketData`: a payload that does not decode changes nothing;
otherwise `bestAsk`, then `bestBid`, is overwritten when the reported pointer is
not nil and the absolute value of the reported decimal is greater than zero. -/
def handleMarketData (unmarshal : Unmarshal MarketData) (wd : WatchDog)
    (data : EventData) (doShow : Bool) : WatchDog :=
  match decodeAndPrintData unmarshal data.WsChannel data.Data doShow with
  | none => wd
  | some res =>
    let wd1 :=
      match res.BestAsk with
      | some ask => if Decimal.GreaterThan (Decimal.Abs ask) Decimal.Zero then { wd with bestAsk := ask }
        else wd
      | none => wd
    match res.BestBid with
    | some bid => if Decimal.GreaterThan (Decimal.Abs bid) Decimal.Zero then { wd1 with bestBid := bid }
      else wd1
    | none => wd1

/-- The method `handleAccountData`: a payload that does not decode changes nothing;
otherwise every order of the payload, in order, overwrites the status stored under
its id. Reading `order.OrderId` through a nil pointer panics (`none`). -/
def handleAccountData (unmarshal : Unmarshal ProfileData) (wd : WatchDog)
    (data : EventData) (doShow : Bool) : Option WatchDog :=
  match decodeAndPrintData unmarshal data.WsChannel data.Data doShow with
  | none => some wd
  | some res =>
    res.Orders.foldlM
      (fun w o =>
        match o with
        | none => none
        | some order => some { w with orders := w.orders.insert order.OrderId order.Status })
      wd

/-! ## Floating-point arithmetic

`roundToNearestTick` computes in `float64`. The operations it uses are the fields
of `Arith`; `binary64` interprets them in IEEE-754 double precision with
round-to-nearest-even, `exact` in the rationals without rounding error. -/

/-- The arithmetic used by the helpers: the conversion of a decimal (a constant
of the source or `InexactFloat64`), the comparison, the quotient, the product and
`math.Round`. -/
structure Arith (α : Type) where
  ofDecimal : ℚ → α
  le : α → α → Bool
  div : α → α → α
  mul : α → α → α
  round : α → α

/-- The function `math.Trunc` on exact numbers: the integer part, towards zero. -/
def truncExact (x : ℚ) : ℤ := if 0 ≤ x then ⌊x⌋ else ⌈x⌉

/-- The function `math.Round` on exact numbers, as the Go library documents it:
`t := Trunc(x); if Abs(x-t) >= 0.5 then t + Copysign(1, x) else t`. -/
def roundExact (x : ℚ) : ℚ :=
  let t : ℚ := truncExact x
  if 1 / 2 ≤ |x - t| then t + (if 0 ≤ x then 1 else -1) else t

/-- Exact rational arithmetic. -/
def exact : Arith ℚ where
  ofDecimal := fun q => q
  le := fun a b => decide (a ≤ b)
  div := fun a b => a / b
  mul := fun a b => a * b
  round := roundExact

/-- The number of binary digits of `n`, by recursion on the fuel. -/
def bitLenAux : Nat → Nat → Nat
  | 0, _ => 0
  | fuel + 1, n => if n = 0 then 0 else bitLenAux fuel (n / 2) + 1

/-- The number of binary digits of `n`: `2 ^ (bitLen n - 1) ≤ n < 2 ^ bitLen n`
when `0 < n`. -/
def bitLen (n : Nat) : Nat := bitLenAux n n

/-- The integer nearest to `n / d`, a tie going to the even one. -/
def roundHalfEven (n d : Nat) : Nat :=
  let q := n / d
  let r := n % d
  if 2 * r < d then q else if d < 2 * r then q + 1 else if q % 2 = 0 then q else q + 1

/-- The values of `float64`: NaN, the two infinities, and the finite values
`(-1) ^ neg * m * 2 ^ e` (both zeros included). -/
inductive F64 where
  | nan : F64
  | inf (neg : Bool) : F64
  | fin (neg : Bool) (m : Nat) (e : Int) : F64
deriving DecidableEq, Repr

namespace F64

/-- The `float64` nearest to the fraction `n / d` (`0 < d`) with sign `neg`: the
quotient is rounded to 53 significant bits, to a multiple of `2 ^ (-1074)` in the
subnormal range, ties to even, and overflows to an infinity from `2 ^ 1024` on. -/
def ofFrac (neg : Bool) (n d : Nat) : F64 :=
  if n = 0 then fin neg 0 0 else
  let k0 : Int := (bitLen n : Int) - (bitLen d : Int)
  let k : Int :=
    if 0 ≤ k0 then (if d * 2 ^ k0.toNat ≤ n then k0 else k0 - 1)
    else (if d ≤ n * 2 ^ (-k0).toNat then k0 else k0 - 1)
  let e : Int := if k - 52 < -1074 then -1074 else k - 52
  let m : Nat :=
    if 0 ≤ e then roundHalfEven n (d * 2 ^ e.toNat) else roundHalfEven (n * 2 ^ (-e).toNat) d
  if 971 < e ∨ (e = 971 ∧ m = 2 ^ 53) then inf neg else fin neg m e

/-- The `float64` nearest to a rational. -/
def ofRat (q : ℚ) : F64 := ofFrac (decide (q < 0)) q.num.natAbs q.den

/-- The product of two `float64`, correctly rounded. -/
def mul : F64 → F64 → F64
  | nan, _ => nan
  | _, nan => nan
  | inf s, inf s2 => inf (xor s s2)
  | inf s, fin s2 m2 _ => if m2 = 0 then nan else inf (xor s s2)
  | fin s m _, inf s2 => if m = 0 then nan else inf (xor s s2)
  | fin s m e, fin s2 m2 e2 =>
    let x := e + e2
    if 0 ≤ x then ofFrac (xor s s2) (m * m2 * 2 ^ x.toNat) 1
    else ofFrac (xor s s2) (m * m2) (2 ^ (-x).toNat)

/-- The quotient of two `float64`, correctly rounded. -/
def div : F64 → F64 → F64
  | nan, _ => nan
  | _, nan => nan
  | inf _, inf _ => nan
  | inf s, fin s2 _ _ => inf (xor s s2)
  | fin s _ _, inf s2 => fin (xor s s2) 0 0
  | fin s m e, fin s2 m2 e2 =>
    if m2 = 0 then (if m = 0 then nan else inf (xor s s2))
    else
      let x := e - e2
      if 0 ≤ x then ofFrac (xor s s2) (m * 2 ^ x.toNat) m2
      else ofFrac (xor s s2) m (m2 * 2 ^ (-x).toNat)

/-- The function `math.Round`: the nearest integer, halfway cases away from zero;
NaN, the infinities and the integers are returned as they are. -/
def round : F64 → F64
  | nan => nan
  | inf s => inf s
  | fin s m e =>
    if 0 ≤ e then fin s m e
    else
      let d := 2 ^ (-e).toNat
      fin s (if d ≤ 2 * (m % d) then m / d + 1 else m / d) 0

/-- The signed numerator of the finite value `(-1) ^ neg * m * 2 ^ e` over the
denominator `2 ^ (-x)`, for `x ≤ e`. -/
def scaled (neg : Bool) (m : Nat) (e x : Int) : Int :=
  let a : Int := (m * 2 ^ (e - x).toNat : Nat)
  if neg then -a else a

/-- The comparison `<=` of `float64`: false when an operand is NaN. -/
def le : F64 → F64 → Bool
  | nan, _ => false
  | _, nan => false
  | inf s, inf s2 => s || !s2
  | inf s, fin _ _ _ => s
  | fin _ _ _, inf s2 => !s2
  | fin s m e, fin s2 m2 e2 =>
    let x := if e ≤ e2 then e else e2
    decide (scaled s m e x ≤ scaled s2 m2 e2 x)

/-- The comparison `==` of `float64`: equality of the values, false when an
operand is NaN. -/
def eq : F64 → F64 → Bool
  | nan, _ => false
  | _, nan => false
  | inf s, inf s2 => s == s2
  | inf _, fin _ _ _ => false
  | fin _ _ _, inf _ => false
  | fin s m e, fin s2 m2 e2 =>
    let x := if e ≤ e2 then e else e2
    decide (scaled s m e x = scaled s2 m2 e2 x)

end F64

/-- IEEE-754 double precision arithmetic, the arithmetic of Go on `float64`. -/
def binary64 : Arith F64 where
  ofDecimal := F64.ofRat
  le := F64.le
  div := F64.div
  mul := F64.mul
  round := F64.round

/-! ## The parts of `F64.ofFrac` and of `F64.round`, named -/

/-- The integer `k` that `F64.ofFrac` computes: `2 ^ k ≤ n / d < 2 ^ (k + 1)`. -/
def F64.floorLog2 (n d : Nat) : Int :=
  let k0 : Int := (bitLen n : Int) - (bitLen d : Int)
  if 0 ≤ k0 then (if d * 2 ^ k0.toNat ≤ n then k0 else k0 - 1)
  else (if d ≤ n * 2 ^ (-k0).toNat then k0 else k0 - 1)

/-- The exponent that `F64.ofFrac` picks for `n / d`. -/
def F64.exponent (n d : Nat) : Int :=
  if F64.floorLog2 n d - 52 < -1074 then -1074 else F64.floorLog2 n d - 52

/-- The significand that `F64.ofFrac` computes for `n / d`. -/
def F64.significand (n d : Nat) : Nat :=
  if 0 ≤ F64.exponent n d then roundHalfEven n (d * 2 ^ (F64.exponent n d).toNat)
  else roundHalfEven (n * 2 ^ (-F64.exponent n d).toNat) d

/-- The integer nearest to `m / d`, a tie going away from zero, as `F64.round`
computes it on the magnitude of a value with a negative exponent. -/
def nearestAway (m d : Nat) : Nat := if d ≤ 2 * (m % d) then m / d + 1 else m / d

/-! ## `src/bot/helpers.go`, `src/bot/strategy.go`: rounding and quoting -/

/-- The constant `DEFAULT_PRICE_TICK = 0.1`. -/
def DEFAULT_PRICE_TICK : ℚ := 1 / 10

/-- The constant `DEFAULT_SIZE_TICK = 0.001`. -/
def DEFAULT_SIZE_TICK : ℚ := 1 / 1000

/-- The function `roundToNearestTick`: `size` itself when `tick <= 0`, otherwise
`math.Round(size / tick) * tick`. -/
def roundToNearestTick {α : Type} (A : Arith α) (size tick : α) : α :=
  if A.le tick (A.ofDecimal 0) then size
  else
    let numTicks := A.round (A.div size tick)
    A.mul numTicks tick

/-- The decimal `decimal.NewFromFloat(0.94)`. -/
def quoteFactor : Decimal := 94 / 100

/-- The method `placeOrder`: the create requests issued and the watchdog after the
call (`none` when the call panics or a nil order is dereferenced). No request is
issued when `bestBid * 0.94 <= 0`; a failed call leaves the order book as it is; a
returned order is written into the order book. -/
def placeOrder {α : Type} (A : Arith α)
    (CreateOrder : OrderCreateRequest α → CallResult OrderCreateResponse)
    (wd : WatchDog) : List (OrderCreateRequest α) × Option WatchDog :=
  let price := Decimal.Mul wd.bestBid quoteFactor
  if Decimal.LessThanOrEqual price Decimal.Zero then ([], some wd)
  else
    let req : OrderCreateRequest α :=
      { MarketId := wd.marketId
        Type_ := LIMIT
        Side := LONG
        Price := some (roundToNearestTick A (A.ofDecimal price) (A.ofDecimal DEFAULT_PRICE_TICK))
        Size := some (roundToNearestTick A (A.ofDecimal DEFAULT_SIZE_TICK)
          (A.ofDecimal DEFAULT_SIZE_TICK)) }
    match CreateOrder req with
    | .panicked => ([req], none)
    | .failed _ => ([req], some wd)
    | .returned none => ([req], none)
    | .returned (some order) =>
      ([req], some { wd with orders := wd.orders.insert order.OrderId order.Status })

/-! ## `src/bot/strategy.go`: the dispatcher, the cancel worker and `Run` -/

/-- The payload of an `orderbook` event (`model.OrderbookData`). -/
structure OrderbookData where
  MarketID : String
  Bids : List (List Decimal)
  Asks : List (List Decimal)
  Sequence : Nat
  Timestamp : Int

/-- The payload of a `trade` event (`model.TradeData`). -/
structure TradeData where
  TradeId : String
  MarketId : String
  Timestamp : Nat
  Price : Decimal
  Size : Decimal
  Liquidation : Bool
  TakerSide : String

/-- The request of `CancelOrder` (`client.OrderCancelRequest`). -/
structure OrderCancelRequest where
  OrderId : String
  MarketId : String
  ClientOrderId : String := ""
deriving DecidableEq, Repr

/-- The fields of `client.OrderCancelResponse` that the watchdog reads. -/
structure OrderCancelResponse where
  OrderId : String
  Status : String
deriving DecidableEq, Repr

/-- The function `strings.Contains` for a separator of one character (the source
uses `"@"` and `":"`). -/
def stringsContains (s : String) (sep : Char) : Bool := decide (sep ∈ s.data)

/-- The function `strings.Split` on the characters of a string, for a separator of
one character: the pieces between the occurrences of the separator. -/
def splitChars (sep : Char) : List Char → List (List Char)
  | [] => [[]]
  | c :: cs =>
    if c = sep then [] :: splitChars sep cs
    else
      match splitChars sep cs with
      | [] => [[c]]
      | p :: ps => (c :: p) :: ps

/-- The function `strings.Split` for a separator of one character. -/
def stringsSplit (s : String) (sep : Char) : List String :=
  (splitChars sep s.data).map String.mk

/-- The decoders `json.Unmarshal` at the four payload types of the stream. -/
structure Decoders where
  market : Unmarshal MarketData
  account : Unmarshal ProfileData
  orderbook : Unmarshal OrderbookData
  trade : Unmarshal TradeData

/-- The handlers and decoders that `handleData` can invoke: `handleMarketData`,
`handleAccountData`, and `decodeAndPrintData` at `model.OrderbookData` and at
`model.TradeData`. -/
inductive Handler where
  | market : Handler
  | account : Handler
  | orderbook : Handler
  | trade : Handler
deriving DecidableEq, Repr

/-- The `switch` of `handleData` on the routing key `channel`: the handlers invoked
and the watchdog afterwards (`none` when the handler panics). The results of the
`orderbook` and `trade` decoders are dropped. -/
def dispatchChannel (dec : Decoders) (wd : WatchDog) (data : EventData)
    (display : List String) (channel : String) : List Handler × Option WatchDog :=
  let doShow : Bool := decide (channel ∈ display)
  if channel = "market" then
    ([Handler.market], some (handleMarketData dec.market wd data doShow))
  else if channel = "account" then
    ([Handler.account], handleAccountData dec.account wd data doShow)
  else if channel = "orderbook" then
    match decodeAndPrintData dec.orderbook channel data.Data doShow with
    | _ => ([Handler.orderbook], some wd)
  else if channel = "trade" then
    match decodeAndPrintData dec.trade channel data.Data doShow with
    | _ => ([Handler.trade], some wd)
  else ([], some wd)

/-- The method `handleData`: the routing key is the first piece of the channel name
split at `@` when the name contains `@`, else the first piece of the name split at
`:` when it contains `:`; a name with neither is logged and dropped. Indexing the
pieces at `0` panics (`none`) on an empty slice. -/
def handleData (dec : Decoders) (wd : WatchDog) (data : EventData)
    (display : List String) : List Handler × Option WatchDog :=
  if stringsContains data.WsChannel '@' then
    match (stringsSplit data.WsChannel '@')[0]? with
    | none => ([], none)
    | some channel => dispatchChannel dec wd data display channel
  else if stringsContains data.WsChannel ':' then
    match (stringsSplit data.WsChannel ':')[0]? with
    | none => ([], none)
    | some channel => dispatchChannel dec wd data display channel
  else ([], some wd)

/-- The method `cancelOrder`: the cancel requests issued and the watchdog after the
call (`none` when the call panics or a nil order is dereferenced). A failed call
leaves the order book as it is; a returned order is written into the order book. -/
def cancelOrder (CancelOrder : OrderCancelRequest → CallResult OrderCancelResponse)
    (wd : WatchDog) (oid : String) : List OrderCancelRequest × Option WatchDog :=
  let req : OrderCancelRequest := { OrderId := oid, MarketId := wd.marketId }
  match CancelOrder req with
  | .panicked => ([req], none)
  | .failed _ => ([req], some wd)
  | .returned none => ([req], none)
  | .returned (some order) =>
    ([req], some { wd with orders := wd.orders.insert order.OrderId order.Status })

/-- One turn of the loop of `cancelOrders` on the case `oid := <-cancelCh`: the
oldest queued id is received and `cancelOrder` is called on it. The result is the
requests issued, the watchdog and the channel afterwards; `none` when the channel is
empty and the receive blocks. -/
def cancelOrdersStep (CancelOrder : OrderCancelRequest → CallResult OrderCancelResponse)
    (wd : WatchDog) (cancelCh : Chan) :
    Option (List OrderCancelRequest × Option WatchDog × Chan) :=
  match cancelCh.buf with
  | [] => none
  | oid :: rest =>
    some ((cancelOrder CancelOrder wd oid).1, (cancelOrder CancelOrder wd oid).2,
      { cancelCh with buf := rest })

/-- The goroutines that `Run` starts: `listener` with its display list, `strategy`
(the quoting loop and the cancel worker) and `monitorOrders` (the scanner and the
cleanup), both on the channel `cancelCh`. -/
inductive Activity where
  | listener (display : List String) : Activity
  | strategy (cancelCh : Chan) : Activity
  | monitorOrders (cancelCh : Chan) : Activity
deriving DecidableEq, Repr

/-- What `Run` leaves: the error returned (`none` for nil), the watchdog, and the
goroutines started, in order. -/
structure RunOutcome where
  err : Option String
  wd : WatchDog
  started : List Activity

/-- The method `Run`: the error of `loadOrders` is returned at once; otherwise the
listener, the strategy and the monitor are started on a fresh channel of capacity
10000 and nil is returned. -/
def Run (ListOrders : OrderListRequest → Except String (List OrderData))
    (wd : WatchDog) : RunOutcome :=
  match loadOrders ListOrders wd with
  | .error err => { err := some err, wd := wd, started := [] }
  | .ok wd1 =>
    let cancelCh : Chan := { buf := [], cap := 10000 }
    { err := none, wd := wd1,
      started := [Activity.listener ["account"], Activity.strategy cancelCh,
        Activity.monitorOrders cancelCh] }

/-! ## The bodies of the loops, and the words of the specification -/

/-- One step of the loop of `loadOrders`. -/
def loadStep (w : WatchDog) (order : OrderData) : WatchDog :=
  if order.Status = OPEN then
    { w with orders := w.orders.insert order.OrderId order.Status }
  else w

/-- One step of the loop of `cleanOrders`. -/
def cleanStep (m : OrderBook) (e : Sigma fun _ : String => String) : OrderBook :=
  if e.2 = CANCELED then m.erase e.1 else m

/-- The status of the last occurrence of `id` in a list of orders, `none` when `id`
does not occur (the words of the specification). -/
def lastStatus : List OrderData → String → Option String
  | [], _ => none
  | o :: rest, id =>
    match lastStatus rest id with
    | some s => some s
    | none => if o.OrderId = id then some o.Status else none

/-- The scenario "bootstrap, one account event, cleanup": `loadOrders`, then
`handleAccountData`, then `cleanOrders`; `none` when the listing fails or the
handler panics. -/
def bootstrapEventCleanup (ListOrders : OrderListRequest → Except String (List OrderData))
    (unmarshal : Unmarshal ProfileData) (wd : WatchDog) (data : EventData) : Option WatchDog :=
  match loadOrders ListOrders wd with
  | .error _ => none
  | .ok wd1 =>
    match handleAccountData unmarshal wd1 data false with
    | none => none
    | some wd2 => some (cleanOrders wd2)

/-- One step of the loop of `handleAccountData` on an order that is not nil. -/
def accountStep (w : WatchDog) (order : OrderData) : WatchDog :=
  { w with orders := w.orders.insert order.OrderId order.Status }

/-- The request that `placeOrder` builds from the market state. -/
def quoteRequest {α : Type} (A : Arith α) (wd : WatchDog) : OrderCreateRequest α :=
  { MarketId := wd.marketId
    Type_ := LIMIT
    Side := LONG
    Price := some (roundToNearestTick A (A.ofDecimal (wd.bestBid * (94 / 100)))
      (A.ofDecimal (1 / 10)))
    Size := some (roundToNearestTick A (A.ofDecimal (1 / 1000)) (A.ofDecimal (1 / 1000))) }

/-- The routing key of a channel name, in the words of the specification: the part
before the first `@` when the name contains `@`, else the part before the first `:`
when it contains `:`, else none. -/
def routingKey (ws : String) : Option String :=
  if '@' ∈ ws.data then some (String.mk (ws.data.takeWhile (fun c => c ≠ '@')))
  else if ':' ∈ ws.data then some (String.mk (ws.data.takeWhile (fun c => c ≠ ':')))
  else none

/-- The loop of `handleAccountData` with the state in which it stops: after the last
order (`true`), or at the first nil order, where it panics (`false`). -/
def accountLoop : List (Option OrderData) → WatchDog → WatchDog × Bool
  | [], w => (w, true)
  | none :: _, w => (w, false)
  | some order :: rest, w => accountLoop rest (accountStep w order)

/-! ## `src/bot/bot.go`: the channels that `DummyBot.Run` subscribes to -/

/-- The variable `channelPrefix`. -/
def channelPrefix : List String := ["market:", "orderbook:", "trade:", "account@"]

/-- The function `strings.HasPrefix`. -/
def stringsHasPrefix (s pre : String) : Bool := pre.data.isPrefixOf s.data

/-- The conversions `int64(u)` and, on a 64-bit platform, `int(u)` of an unsigned
word: the value modulo `2^64`, read in two's complement. -/
def int64OfUint (u : Nat) : Int :=
  if u % 2 ^ 64 < 2 ^ 63 then ((u % 2 ^ 64 : Nat) : Int)
  else ((u % 2 ^ 64 : Nat) : Int) - 2 ^ 64

/-- The function `strconv.FormatInt(i, 10)`, which is also `strconv.Itoa`: the
decimal digits, after a minus sign when the number is negative. -/
def strconvFormatInt (i : Int) : String :=
  match i with
  | Int.ofNat n => Nat.repr n
  | Int.negSucc n => "-" ++ Nat.repr (n + 1)

/-- The channel names that the loop of `DummyBot.Run` over `channelPrefix` subscribes
to, in order: the entry that starts with `account@` is followed by
`strconv.Itoa(int(profileID))`, the others by the market id. -/
def subscriptionChannels (marketId : String) (profileID : Nat) : List String :=
  channelPrefix.map fun p =>
    if stringsHasPrefix p "account@" then p ++ strconvFormatInt (int64OfUint profileID)
    else p ++ marketId

/-! ## `src/client`: the REST client -/

/-- The envelope `Response[T]` of `src/client/reqres.go`. -/
structure Response (T : Type) where
  Success : Bool
  Error : String
  Result : List T

/-- The type `model.APISecret`; `ProfileID` and `Expiration` are unsigned words. -/
structure APISecret where
  Key : String
  ProfileID : Nat
  Secret : String
  Tag : String
  Expiration : Nat
  Status : String
deriving DecidableEq, Repr

/-- The fields of `model.Secret` that the client reads; `APISecret` is a pointer. -/
structure Secret where
  APISecret : Option APISecret
  JwtPrivate : String
  RefreshToken : String
deriving DecidableEq, Repr

/-- What `httpClient.Do` and the read of the body yield: the error of `Do`, or a
response with its status code, its status line, the bytes read from its body and the
error of `io.ReadAll` (`none` for nil). -/
inductive HttpReply where
  | transportError (err : String) : HttpReply
  | response (StatusCode : Nat) (Status : String) (data : List UInt8)
      (readErr : Option String) : HttpReply

/-- One request as the client sees it: the request built by `json.Marshal` and
`http.NewRequest` (or their error), the result of `setSignatureHeaders`, and what the
HTTP round trip yields. -/
structure Exchange where
  request : Except String (List UInt8)
  signature : Except String String
  reply : HttpReply

/-- The constant `http.StatusOK`. -/
def StatusOK : Nat := 200

/-- The method `doRequest`: the error of `setSignatureHeaders`, then the error of
`httpClient.Do`, is returned; a status code other than `http.StatusOK` is the error
`fmt.Errorf(resp.Status)`; otherwise the body and the error of reading it are
returned. -/
def RbClient.doRequest (signature : Except String String) (reply : HttpReply) :
    Except String (List UInt8) :=
  match signature with
  | .error err => .error err
  | .ok _ =>
    match reply with
    | .transportError err => .error err
    | .response code status data readErr =>
      if code ≠ StatusOK then .error status
      else
        match readErr with
        | some err => .error err
        | none => .ok data

/-- The method `post`: the error of building the request is returned, otherwise the
result of `doRequest`. -/
def RbClient.post (x : Exchange) : Except String (List UInt8) :=
  match x.request with
  | .error err => .error err
  | .ok _ => RbClient.doRequest x.signature x.reply

/-- The method `delete`: as `post`, with the method `DELETE`. -/
def RbClient.delete (x : Exchange) : Except String (List UInt8) :=
  match x.request with
  | .error err => .error err
  | .ok _ => RbClient.doRequest x.signature x.reply

/-- The error text of a `json.Unmarshal` that fails; the decoder of the model reports
only that it failed. -/
def unmarshalError : String := "json: cannot unmarshal"

/-- What a call of `GetSecrets` can do: panic (inside `RefreshSecrets` or on a nil
secret), return an error, or return the key, the secret and the token. -/
inductive SecretsResult where
  | panicked : SecretsResult
  | failed (err : String) : SecretsResult
  | returned (apiKey apiSecret jwtPrivate : String) : SecretsResult

/-- The method `CreateOrder`: a panic of `GetSecrets` is a panic of the method; the
errors of `GetSecrets`, of `post` and of `json.Unmarshal` are returned; a response with
`success` false is the error `errors.New(resp.Error)`; otherwise `resp.Result[0]` is
returned, and indexing an empty `Result` panics. -/
def RbClient.CreateOrder {α : Type} (GetSecrets : SecretsResult)
    (venue : OrderCreateRequest α → Exchange)
    (unmarshal : Unmarshal (Response (Option OrderCreateResponse)))
    (data : OrderCreateRequest α) : CallResult OrderCreateResponse :=
  match GetSecrets with
  | .panicked => .panicked
  | .failed err => .failed err
  | .returned _ _ _ =>
    match RbClient.post (venue data) with
    | .error err => .failed err
    | .ok respBody =>
      match unmarshal respBody with
      | none => .failed unmarshalError
      | some resp =>
        if !resp.Success then .failed resp.Error
        else
          match resp.Result[0]? with
          | none => .panicked
          | some res => .returned res

/-- The method `CancelOrder`: as `CreateOrder`, with `delete` and a
`Response[*OrderCancelResponse]`. -/
def RbClient.CancelOrder (GetSecrets : SecretsResult)
    (venue : OrderCancelRequest → Exchange)
    (unmarshal : Unmarshal (Response (Option OrderCancelResponse)))
    (data : OrderCancelRequest) : CallResult OrderCancelResponse :=
  match GetSecrets with
  | .panicked => .panicked
  | .failed err => .failed err
  | .returned _ _ _ =>
    match RbClient.delete (venue data) with
    | .error err => .failed err
    | .ok respBody =>
      match unmarshal respBody with
      | none => .failed unmarshalError
      | some resp =>
        if !resp.Success then .failed resp.Error
        else
          match resp.Result[0]? with
          | none => .panicked
          | some res => .returned res

/-- The method `RefreshSecrets`: the errors of `post` and of `json.Unmarshal` are
returned; then `len(resp.Result) <= 0` panics; then a response with `success` false is
the error `errors.New(resp.Error)`; otherwise `resp.Result[0]` is returned. -/
def RbClient.RefreshSecrets (x : Exchange) (unmarshal : Unmarshal (Response (Option Secret))) :
    CallResult Secret :=
  match RbClient.post x with
  | .error err => .failed err
  | .ok respBody =>
    match unmarshal respBody with
    | none => .failed unmarshalError
    | some resp =>
      if resp.Result.length ≤ 0 then .panicked
      else if !resp.Success then .failed resp.Error
      else
        match resp.Result[0]? with
        | none => .panicked
        | some res => .returned res

/-- The function `isApiSecretExpired` at the Unix time `now` that `time.Now().Unix()`
returns: true for a nil secret, and true when `int64(apiSecret.Expiration) <= now`. -/
def isApiSecretExpired (apiSecret : Option APISecret) (now : Int) : Bool :=
  match apiSecret with
  | none => true
  | some s => if int64OfUint s.Expiration ≤ now then true else false

/-! ## `src/auth/auth.go` -/

/-- The library functions that `PayloadSignature` calls: `hexutil.Decode`,
`hexutil.Encode`, `sha256.Sum256`, and the HMAC of `hmac.New(sha256.New, key)` on a
message. -/
structure Crypto where
  hexutilDecode : String → Except String (List UInt8)
  hexutilEncode : List UInt8 → String
  sha256Sum256 : List UInt8 → List UInt8
  hmacSha256 : List UInt8 → List UInt8 → List UInt8

/-- The conversion `[]byte(s)`: the UTF-8 bytes of the string. -/
def bytesOf (s : String) : List UInt8 := s.data.flatMap String.utf8EncodeChar

/-- The order `<=` of Go strings, on the characters of the two strings: Go compares the
UTF-8 bytes lexicographically, which is the lexicographic order of the code points. -/
def lexLE : List Char → List Char → Bool
  | [], _ => true
  | _ :: _, [] => false
  | a :: as, b :: bs =>
    if a.toNat < b.toNat then true
    else if b.toNat < a.toNat then false
    else lexLE as bs

/-- The order `<=` of Go strings. -/
def stringLE (x y : String) : Prop := lexLE x.data y.data = true

instance stringLE.decidable : DecidableRel stringLE :=
  fun x y => inferInstanceAs (Decidable (lexLE x.data y.data = true))

/-- The function `sort.Strings`: the strings in increasing order. -/
def sortStrings (a : List String) : List String := a.insertionSort stringLE

/-- A payload, a Go `map[string]string`; the order of the entries is the order in
which `range` visits them. -/
abbrev Payload := AList (fun _ : String => String)

/-- The bytes that `PayloadSignature` hashes: for the keys in sorted order,
`fmt.Sprintf("%s=%s", k, payload[k])` appended to `message`, then the bytes of
`message` followed by the bytes of `strconv.FormatInt(timestamp, 10)`. -/
def signedInput (payload : Payload) (timestamp : Int) : List UInt8 :=
  let sortedKeys := sortStrings payload.keys
  let message := sortedKeys.foldl
    (fun message k => message ++ (k ++ "=" ++ (payload.lookup k).getD "")) ""
  let timestampStr := strconvFormatInt timestamp
  bytesOf message ++ bytesOf timestampStr

/-- The function `PayloadSignature`: the error of `hexutil.Decode(secret)` is returned;
otherwise the hex encoding of the HMAC-SHA256, under the decoded secret, of the SHA-256
hash of the signed input. -/
def PayloadSignature (C : Crypto) (payload : Payload) (secret : String) (timestamp : Int) :
    Except String String :=
  match C.hexutilDecode secret with
  | .error err => .error err
  | .ok secretBytes =>
    let hash := C.sha256Sum256 (signedInput payload timestamp)
    let signature := C.hmacSha256 secretBytes hash
    .ok (C.hexutilEncode signature)

/-! ## `src/bot/strategy.go`: locks, calls and sends in program order -/

/-- The two mutexes of `WatchDog`: `muOrder` guards the order book, `muMarket` the
market state. -/
inductive Mutex where
  | muOrder : Mutex
  | muMarket : Mutex
deriving DecidableEq, Repr

/-- The external calls of the watchdog: `ListOrders`, `CreateOrder`, `CancelOrder`. -/
inductive Collaborator where
  | ListOrders : Collaborator
  | CreateOrder : Collaborator
  | CancelOrder : Collaborator
deriving DecidableEq, Repr

/-- What an operation does to the mutexes, the collaborators and the cancel channel, in
program order. A `wait` is a send on a full channel, at which the goroutine stops; a
`panic` ends the operation. -/
inductive Event where
  | Lock (m : Mutex) : Event
  | Unlock (m : Mutex) : Event
  | RLock (m : Mutex) : Event
  | RUnlock (m : Mutex) : Event
  | call (c : Collaborator) : Event
  | send (oid : String) : Event
  | wait (oid : String) : Event
  | panic : Event
deriving DecidableEq, Repr

/-- The events of `loadOrders`: the call of `ListOrders`, then, when it returns no
error, `muOrder.Lock()` and the deferred `muOrder.Unlock()` around the loop. -/
def loadOrdersEvents (ListOrders : OrderListRequest → Except String (List OrderData))
    (wd : WatchDog) : List Event :=
  Event.call Collaborator.ListOrders ::
    match ListOrders { MarketId := wd.marketId } with
    | .error _ => []
    | .ok _ => [Event.Lock Mutex.muOrder, Event.Unlock Mutex.muOrder]

/-- The events of `placeOrder`: `muMarket.RLock()` and `muMarket.RUnlock()` around the
read of `bestBid`; then, when the price is greater than zero, the call of
`CreateOrder`; then, when it returns no error, `muOrder.Lock()`, the write (a panic on
a nil order) and `muOrder.Unlock()`. -/
def placeOrderEvents {α : Type} (A : Arith α)
    (CreateOrder : OrderCreateRequest α → CallResult OrderCreateResponse)
    (wd : WatchDog) : List Event :=
  let price := Decimal.Mul wd.bestBid quoteFactor
  [Event.RLock Mutex.muMarket, Event.RUnlock Mutex.muMarket] ++
    if Decimal.LessThanOrEqual price Decimal.Zero then []
    else
      let req : OrderCreateRequest α :=
        { MarketId := wd.marketId
          Type_ := LIMIT
          Side := LONG
          Price := some (roundToNearestTick A (A.ofDecimal price)
            (A.ofDecimal DEFAULT_PRICE_TICK))
          Size := some (roundToNearestTick A (A.ofDecimal DEFAULT_SIZE_TICK)
            (A.ofDecimal DEFAULT_SIZE_TICK)) }
      Event.call Collaborator.CreateOrder ::
        match CreateOrder req with
        | .panicked => [Event.panic]
        | .failed _ => []
        | .returned none => [Event.Lock Mutex.muOrder, Event.panic]
        | .returned (some _) => [Event.Lock Mutex.muOrder, Event.Unlock Mutex.muOrder]

/-- The events of `cancelOrder`: the call of `CancelOrder`; then, when it returns no
error, `muOrder.Lock()`, the write (a panic on a nil order) and `muOrder.Unlock()`. -/
def cancelOrderEvents (CancelOrder : OrderCancelRequest → CallResult OrderCancelResponse)
    (wd : WatchDog) (oid : String) : List Event :=
  Event.call Collaborator.CancelOrder ::
    match CancelOrder { OrderId := oid, MarketId := wd.marketId } with
    | .panicked => [Event.panic]
    | .failed _ => []
    | .returned none => [Event.Lock Mutex.muOrder, Event.panic]
    | .returned (some _) => [Event.Lock Mutex.muOrder, Event.Unlock Mutex.muOrder]

/-- The events of the loop of `checkOrders` on the entries that remain: a send for
every entry whose status is `OPEN` or `CANCELING`, a wait at the first send on a full
channel, and the deferred `muOrder.RUnlock()` when the loop ends. -/
def scanEvents : List (Sigma fun _ : String => String) → Chan → List Event
  | [], _ => [Event.RUnlock Mutex.muOrder]
  | e :: rest, ch =>
    if e.2 = OPEN ∨ e.2 = CANCELING then
      match ch.send e.1 with
      | none => [Event.wait e.1]
      | some ch2 => Event.send e.1 :: scanEvents rest ch2
    else scanEvents rest ch

/-- The events of `checkOrders`: `muOrder.RLock()`, then the loop. -/
def checkOrdersEvents (wd : WatchDog) (cancelCh : Chan) : List Event :=
  Event.RLock Mutex.muOrder :: scanEvents wd.orders.entries cancelCh

/-- The events of `cleanOrders`: `muOrder.Lock()` and the deferred `muOrder.Unlock()`
around the loop. -/
def cleanOrdersEvents (_wd : WatchDog) : List Event :=
  [Event.Lock Mutex.muOrder, Event.Unlock Mutex.muOrder]

/-- The events of `handleMarketData`: none when the payload does not decode, otherwise
`muMarket.Lock()` and the deferred `muMarket.Unlock()` around the writes. -/
def handleMarketDataEvents (unmarshal : Unmarshal MarketData) (data : EventData) :
    List Event :=
  match unmarshal data.Data with
  | none => []
  | some _ => [Event.Lock Mutex.muMarket, Event.Unlock Mutex.muMarket]

/-- The events of `handleAccountData`: none when the payload does not decode, otherwise
`muOrder.Lock()` and the deferred `muOrder.Unlock()` around the loop, which panics on a
nil order. -/
def handleAccountDataEvents (unmarshal : Unmarshal ProfileData) (data : EventData) :
    List Event :=
  match unmarshal data.Data with
  | none => []
  | some res =>
    if none ∈ res.Orders then
      [Event.Lock Mutex.muOrder, Event.panic, Event.Unlock Mutex.muOrder]
    else [Event.Lock Mutex.muOrder, Event.Unlock Mutex.muOrder]

/-- Whether the event is an external collaborator call. -/
def Event.isCall : Event → Bool
  | Event.call _ => true
  | _ => false

/-- Whether the event is a wait. -/
def Event.isWait : Event → Bool
  | Event.wait _ => true
  | _ => false

/-- Whether no event that `blocking` picks occurs while a mutex is held, in a sequence
of events that starts with the mutexes `held` (the words of the specification). -/
def quietUnderLock (blocking : Event → Bool) : List Mutex → List Event → Bool
  | _, [] => true
  | held, Event.Lock m :: rest => quietUnderLock blocking (m :: held) rest
  | held, Event.RLock m :: rest => quietUnderLock blocking (m :: held) rest
  | held, Event.Unlock m :: rest => quietUnderLock blocking (held.erase m) rest
  | held, Event.RUnlock m :: rest => quietUnderLock blocking (held.erase m) rest
  | held, e :: rest =>
    (held.isEmpty || !blocking e) && quietUnderLock blocking held rest

/-! ## Reachable states, and the words of the specification -/

/-- The ten order statuses of `src/model/constants.go`. -/
def orderStatuses : List String :=
  [UNKNOWN, PROCESSING, PLACED, OPEN, CLOSED, REJECTED, CANCELED, CANCELING, AMENDING,
    CANCELINGALL]

/-- The states of the watchdog that are reachable from an empty order book by
`loadOrders`, `placeOrder`, `cancelOrder`, `handleData` and `cleanOrders`, when every
status that the venue reports, in the order returned by a create or a cancel call and
in the orders of an account payload, satisfies `V`. -/
inductive Reachable (V : String → Prop) : WatchDog → Prop where
  | start (wd : WatchDog) (hempty : wd.orders = ∅) : Reachable V wd
  | load (ListOrders : OrderListRequest → Except String (List OrderData))
      (wd wd2 : WatchDog) (hwd : Reachable V wd) (hok : loadOrders ListOrders wd = .ok wd2) :
      Reachable V wd2
  | place {α : Type} (A : Arith α)
      (CreateOrder : OrderCreateRequest α → CallResult OrderCreateResponse)
      (wd wd2 : WatchDog) (hwd : Reachable V wd)
      (hvenue : ∀ req order, CreateOrder req = .returned (some order) → V order.Status)
      (hok : (placeOrder A CreateOrder wd).2 = some wd2) : Reachable V wd2
  | cancel (CancelOrder : OrderCancelRequest → CallResult OrderCancelResponse)
      (wd wd2 : WatchDog) (oid : String) (hwd : Reachable V wd)
      (hvenue : ∀ req order, CancelOrder req = .returned (some order) → V order.Status)
      (hok : (cancelOrder CancelOrder wd oid).2 = some wd2) : Reachable V wd2
  | handle (dec : Decoders) (wd wd2 : WatchDog) (data : EventData) (display : List String)
      (hwd : Reachable V wd)
      (hvenue : ∀ res order, dec.account data.Data = some res → some order ∈ res.Orders →
        V order.Status)
      (hok : (handleData dec wd data display).2 = some wd2) : Reachable V wd2
  | clean (wd : WatchDog) (hwd : Reachable V wd) : Reachable V (cleanOrders wd)

/-- The text `fmt.Sprintf("%s=%s", k, payload[k])`; a key that is not in the map reads
as the empty string. -/
def keyValue (payload : Payload) (k : String) : String :=
  k ++ "=" ++ (payload.lookup k).getD ""

/-- The concatenation of `key=value` over the keys `ks`, in the words of the
specification. -/
def concatPairs (ks : List String) (payload : Payload) : String :=
  (ks.map (keyValue payload)).foldr (fun s acc => s ++ acc) ""

/-- The canonical message, in the words of the specification: the concatenation of
`key=value` over the keys in increasing order, followed by the decimal rendering of
the timestamp. -/
def canonicalMessage (payload : Payload) (timestamp : Int) : String :=
  concatPairs (sortStrings payload.keys) payload ++ strconvFormatInt timestamp

/-- The number that a list of decimal digits denotes. -/
def digitsValue (cs : List Char) : Nat := cs.foldl (fun a c => 10 * a + (c.toNat - 48)) 0

/-! ## Sample inputs -/

/-- A watchdog on `ETH-USD` whose market state has `bestBid = 5` and `bestAsk = 6`. -/
def wdFive : WatchDog := { marketId := "ETH-USD", orders := ∅, bestBid := 5, bestAsk := 6 }

/-- The bytes of the market payload that is the JSON object with `"best_bid":-1`. -/
def negativeBidPayload : List UInt8 :=
  [123, 34, 98, 101, 115, 116, 95, 98, 105, 100, 34, 58, 45, 49, 125]

/-- The bytes of the market payload that is the JSON object with
`"best_bid":0,"best_ask":0`. -/
def zeroQuotePayload : List UInt8 :=
  [123, 34, 98, 101, 115, 116, 95, 98, 105, 100, 34, 58, 48, 44, 34, 98, 101, 115, 116, 95,
    97, 115, 107, 34, 58, 48, 125]

/-- What `json.Unmarshal` returns at `model.MarketData` on the two sample payloads;
other payloads are treated as decode errors. -/
def sampleMarketUnmarshal : Unmarshal MarketData := fun data =>
  if data = negativeBidPayload then some { BestBid := some (-1), BestAsk := none }
  else if data = zeroQuotePayload then some { BestBid := some 0, BestAsk := some 0 }
  else none

/-- The bytes of the account payload that is the JSON object with `"orders":[null]`. -/
def nullOrderPayload : List UInt8 :=
  [123, 34, 111, 114, 100, 101, 114, 115, 34, 58, 91, 110, 117, 108, 108, 93, 125]

/-- The bytes of the account payload whose `orders` array holds the order with id `1`
and status `canceled`, then the order with id `2` and status `open`. -/
def scenarioPayload : List UInt8 :=
  [123, 34, 111, 114, 100, 101, 114, 115, 34, 58, 91, 123, 34, 105, 100, 34, 58, 34, 49, 34,
    44, 34, 115, 116, 97, 116, 117, 115, 34, 58, 34, 99, 97, 110, 99, 101, 108, 101, 100, 34,
    125, 44, 123, 34, 105, 100, 34, 58, 34, 50, 34, 44, 34, 115, 116, 97, 116, 117, 115, 34,
    58, 34, 111, 112, 101, 110, 34, 125, 93, 125]

/-- What `json.Unmarshal` returns at `model.ProfileData` on the two sample payloads: a
JSON `null` in the array of pointers is a nil pointer; other payloads are treated as
decode errors. -/
def sampleAccountUnmarshal : Unmarshal ProfileData := fun data =>
  if data = nullOrderPayload then some { Orders := [none] }
  else if data = scenarioPayload then
    some { Orders := [some ⟨"1", CANCELED⟩, some ⟨"2", OPEN⟩] }
  else none

/-- The snapshot with statuses `open`, `closed`, `canceled`, `open`. -/
def sampleSnapshot : List OrderData :=
  [⟨"1", OPEN⟩, ⟨"2", CLOSED⟩, ⟨"3", CANCELED⟩, ⟨"4", OPEN⟩]

/-- The order book `a: canceled, b: open, c: canceled`. -/
def sampleCleanBook : OrderBook :=
  ((((∅ : OrderBook).insert "a" CANCELED).insert "b" OPEN).insert "c" CANCELED)

/-- The order book `a: open, b: canceling, c: closed, d: rejected`. -/
def sampleScanBook : OrderBook :=
  (((((∅ : OrderBook).insert "d" REJECTED).insert "c" CLOSED).insert "b" CANCELING).insert
    "a" OPEN)

/-- The decoders on the sample payloads; no sample payload is an orderbook or a
trade payload. -/
def sampleDecoders : Decoders :=
  { market := sampleMarketUnmarshal
    account := sampleAccountUnmarshal
    orderbook := fun _ => none
    trade := fun _ => none }

/-- A watchdog on `ETH-USD` that tracks order `1` as `open`, with `bestBid = 5`. -/
def wdTracking : WatchDog :=
  { marketId := "ETH-USD", orders := (∅ : OrderBook).insert "1" OPEN, bestBid := 5, bestAsk := 6 }

/-- A watchdog on `ETH-USD` whose market state has `bestBid = 0.01`. -/
def wdCent : WatchDog := { marketId := "ETH-USD", orders := ∅, bestBid := 1 / 100, bestAsk := 0 }

/-- The bytes of the account payload whose `orders` array holds the order with id `1`
and status `filled`. -/
def filledPayload : List UInt8 :=
  [123, 34, 111, 114, 100, 101, 114, 115, 34, 58, 91, 123, 34, 105, 100, 34, 58, 34, 49, 34,
    44, 34, 115, 116, 97, 116, 117, 115, 34, 58, 34, 102, 105, 108, 108, 101, 100, 34, 125,
    93, 125]

/-- The decoders on the payload with the status `filled`; other payloads are treated
as decode errors. -/
def filledDecoders : Decoders :=
  { market := fun _ => none
    account := fun data =>
      if data = filledPayload then some { Orders := [some ⟨"1", "filled"⟩] } else none
    orderbook := fun _ => none
    trade := fun _ => none }

/-- The watchdog on `ETH-USD` after the account event with the status `filled`. -/
def wdFilled : WatchDog :=
  { marketId := "ETH-USD", orders := (∅ : OrderBook).insert "1" "filled", bestBid := 0,
    bestAsk := 0 }

/-- The watchdog on `ETH-USD` after the account event of the scenario: order `1` is
`canceled` and order `2` is `open`. -/
def wdScenario : WatchDog :=
  { marketId := "ETH-USD",
    orders := ((∅ : OrderBook).insert "1" CANCELED).insert "2" OPEN, bestBid := 0,
    bestAsk := 0 }

/-- The result of a `GetSecrets` that returns a key, a secret and a token. -/
def sampleSecrets : SecretsResult := .returned "key" "0x01" "jwt"

/-- The exchange in which the request is built and signed and the venue answers with
the status `200 OK` and the body `data`. -/
def okExchange (data : List UInt8) : Exchange :=
  { request := .ok [], signature := .ok "0x", reply := .response 200 "200 OK" data none }

/-- The bytes of the response body that is the JSON object with `"success":true` and
`"result":[]`. -/
def emptyResultBody : List UInt8 :=
  [123, 34, 115, 117, 99, 99, 101, 115, 115, 34, 58, 116, 114, 117, 101, 44, 34, 114, 101,
    115, 117, 108, 116, 34, 58, 91, 93, 125]

/-- The bytes of the response body that is the JSON object with `"success":true` and
`"result":[null]`. -/
def nullResultBody : List UInt8 :=
  [123, 34, 115, 117, 99, 99, 101, 115, 115, 34, 58, 116, 114, 117, 101, 44, 34, 114, 101,
    115, 117, 108, 116, 34, 58, 91, 110, 117, 108, 108, 93, 125]

/-- The bytes of the response body that is the JSON object with `"success":false`,
`"error":"invalid refresh token"` and `"result":[]`. -/
def refusedBody : List UInt8 :=
  [123, 34, 115, 117, 99, 99, 101, 115, 115, 34, 58, 102, 97, 108, 115, 101, 44, 34, 101,
    114, 114, 111, 114, 34, 58, 34, 105, 110, 118, 97, 108, 105, 100, 32, 114, 101, 102, 114,
    101, 115, 104, 32, 116, 111, 107, 101, 110, 34, 44, 34, 114, 101, 115, 117, 108, 116, 34,
    58, 91, 93, 125]

/-- What `json.Unmarshal` returns at `Response[*T]` on the three sample bodies: a JSON
`null` in the array of pointers is a nil pointer; other bodies are treated as decode
errors. -/
def sampleResponseUnmarshal (T : Type) : Unmarshal (Response (Option T)) := fun data =>
  if data = emptyResultBody then some { Success := true, Error := "", Result := [] }
  else if data = nullResultBody then some { Success := true, Error := "", Result := [none] }
  else if data = refusedBody then
    some { Success := false, Error := "invalid refresh token", Result := [] }
  else none

/-- A secret that is not nil, with `Expiration = 2^63`. -/
def farSecret : APISecret :=
  { Key := "key", ProfileID := 7, Secret := "0x01", Tag := "", Expiration := 2 ^ 63,
    Status := "active" }

/-- The payload with `a = 1` and `b = 2` of a `POST` on `/orders`, visited in the
order `path`, `method`, `b`, `a`. -/
def payloadSplit : Payload :=
  ((((∅ : Payload).insert "a" "1").insert "b" "2").insert "method" "POST").insert "path"
    "/orders"

/-- The same map as `payloadSplit`, visited in the order `a`, `b`, `method`, `path`. -/
def payloadSplitOther : Payload :=
  ((((∅ : Payload).insert "path" "/orders").insert "method" "POST").insert "b" "2").insert "a"
    "1"

/-- The payload with `a = 1b=2` of a `POST` on `/orders`. -/
def payloadJoined : Payload :=
  (((∅ : Payload).insert "a" "1b=2").insert "method" "POST").insert "path" "/orders"

/-- The payload whose only entry is `a = 1`. -/
def payloadOne : Payload := (∅ : Payload).insert "a" "1"

/-- The payload whose only entry is `a = 12`. -/
def payloadTwelve : Payload := (∅ : Payload).insert "a" "12"

/-- Stand-ins for the library functions, for evaluation: every secret decodes to the
bytes `[1]`, the hash is the input, the MAC is the key followed by the message, and
the encoding maps bytes to characters. -/
def toyCrypto : Crypto :=
  { hexutilDecode := fun _ => .ok [1]
    hexutilEncode := fun bs => String.mk (bs.map fun b => Char.ofNat b.toNat)
    sha256Sum256 := fun bs => bs
    hmacSha256 := fun key msg => key ++ msg }

/-- A cancel channel of capacity 10000 that is full. -/
def fullChan : Chan := { buf := List.replicate 10000 "0", cap := 10000 }

/-! ## Theorems -/

theorem decodeAndPrintData_eq {T : Type} (unmarshal : Unmarshal T) (channel : String)
    (data : List UInt8) (doShow : Bool) :
    decodeAndPrintData unmarshal channel data doShow = unmarshal data := by
  unfold decodeAndPrintData
  cases unmarshal data <;> rfl

theorem greaterThan_abs_zero (d : Decimal) :
    Decimal.GreaterThan (Decimal.Abs d) Decimal.Zero = decide (d ≠ 0) := by
  simp [Decimal.GreaterThan, Decimal.Abs, Decimal.Zero]

/-- The value of `bestBid` after `handleMarketData` on a payload that decodes. -/
theorem handleMarketData_bestBid (unmarshal : Unmarshal MarketData) (wd : WatchDog)
    (data : EventData) (doShow : Bool) (res : MarketData) (hdec : unmarshal data.Data = some res) :
    (handleMarketData unmarshal wd data doShow).bestBid =
      match res.BestBid with
      | some bid => if bid ≠ 0 then bid else wd.bestBid
      | none => wd.bestBid := by
  unfold handleMarketData
  rw [decodeAndPrintData_eq, hdec]
  rcases res with ⟨bid, ask⟩
  cases bid <;> cases ask <;> simp [greaterThan_abs_zero] <;> split_ifs <;> simp_all

/-- The value of `bestAsk` after `handleMarketData` on a payload that decodes. -/
theorem handleMarketData_bestAsk (unmarshal : Unmarshal MarketData) (wd : WatchDog)
    (data : EventData) (doShow : Bool) (res : MarketData) (hdec : unmarshal data.Data = some res) :
    (handleMarketData unmarshal wd data doShow).bestAsk =
      match res.BestAsk with
      | some ask => if ask ≠ 0 then ask else wd.bestAsk
      | none => wd.bestAsk := by
  unfold handleMarketData
  rw [decodeAndPrintData_eq, hdec]
  rcases res with ⟨bid, ask⟩
  cases bid <;> cases ask <;> simp [greaterThan_abs_zero] <;> split_ifs <;> simp_all

/-- C1 (as the code has it): for every market state and every market event that
decodes, a `best_bid` equal to zero leaves `bestBid` unchanged and a `best_ask`
equal to zero leaves `bestAsk` unchanged, while a negative `best_bid` or `best_ask`
has a non-zero absolute value and is stored. -/
theorem C1_zero_value_keeps_negative_value_overwrites (unmarshal : Unmarshal MarketData)
    (wd : WatchDog) (data : EventData) (doShow : Bool) (res : MarketData)
    (hdec : unmarshal data.Data = some res) :
    (res.BestBid = some 0 → (handleMarketData unmarshal wd data doShow).bestBid = wd.bestBid) ∧
    (res.BestAsk = some 0 → (handleMarketData unmarshal wd data doShow).bestAsk = wd.bestAsk) ∧
    (∀ bid, res.BestBid = some bid → bid < 0 →
      (handleMarketData unmarshal wd data doShow).bestBid = bid) ∧
    (∀ ask, res.BestAsk = some ask → ask < 0 →
      (handleMarketData unmarshal wd data doShow).bestAsk = ask) := by
  refine ⟨fun h => ?_, fun h => ?_, fun bid h hneg => ?_, fun ask h hneg => ?_⟩
  · rw [handleMarketData_bestBid unmarshal wd data doShow res hdec, h]; simp
  · rw [handleMarketData_bestAsk unmarshal wd data doShow res hdec, h]; simp
  · rw [handleMarketData_bestBid unmarshal wd data doShow res hdec, h]; simp [hneg.ne]
  · rw [handleMarketData_bestAsk unmarshal wd data doShow res hdec, h]; simp [hneg.ne]

/-- C1, at `bestBid = 5`, `bestAsk = 6` and the event `best_bid = 0`, `best_ask = 0`:
both fields keep their values. -/
theorem C1_witness :
    sampleMarketUnmarshal zeroQuotePayload = some { BestBid := some 0, BestAsk := some 0 } ∧
    (handleMarketData sampleMarketUnmarshal wdFive
      { WsChannel := "market:ETH-USD", Data := zeroQuotePayload } false).bestBid = 5 ∧
    (handleMarketData sampleMarketUnmarshal wdFive
      { WsChannel := "market:ETH-USD", Data := zeroQuotePayload } false).bestAsk = 6 :=
  have hdec : sampleMarketUnmarshal zeroQuotePayload =
      some { BestBid := some 0, BestAsk := some 0 } := by decide
  have h := C1_zero_value_keeps_negative_value_overwrites sampleMarketUnmarshal wdFive
    { WsChannel := "market:ETH-USD", Data := zeroQuotePayload } false
    { BestBid := some 0, BestAsk := some 0 } hdec
  ⟨hdec, h.1 rfl, h.2.1 rfl⟩

/-- C1 fails as stated: with `bestBid = 5`, the event `best_bid = -1` decodes and
`handleMarketData` stores `-1`, so `bestBid` is not left unchanged. -/
theorem C1_counterexample :
    sampleMarketUnmarshal negativeBidPayload = some { BestBid := some (-1), BestAsk := none } ∧
    wdFive.bestBid = 5 ∧
    (handleMarketData sampleMarketUnmarshal wdFive
      { WsChannel := "market:ETH-USD", Data := negativeBidPayload } false).bestBid = -1 ∧
    (handleMarketData sampleMarketUnmarshal wdFive
      { WsChannel := "market:ETH-USD", Data := negativeBidPayload } false).bestBid ≠
      wdFive.bestBid := by
  have hdec : sampleMarketUnmarshal negativeBidPayload =
      some { BestBid := some (-1), BestAsk := none } := by decide
  have h := handleMarketData_bestBid sampleMarketUnmarshal wdFive
    { WsChannel := "market:ETH-USD", Data := negativeBidPayload } false _ hdec
  refine ⟨hdec, rfl, ?_, ?_⟩
  · rw [h]; norm_num
  · rw [h]; norm_num [wdFive]

/-! ### Bootstrap, cleanup and the scanner -/

theorem loadOrders_ok (ListOrders : OrderListRequest → Except String (List OrderData))
    (wd : WatchDog) (snapshot : List OrderData)
    (hlist : ListOrders { MarketId := wd.marketId } = .ok snapshot) :
    loadOrders ListOrders wd = .ok (snapshot.foldl loadStep wd) := by
  unfold loadOrders
  rw [hlist]
  rfl

/-- The order book after the loop of `loadOrders`: an id listed as `OPEN` maps to
`OPEN`, every other id keeps its entry. -/
theorem lookup_foldl_loadStep (snapshot : List OrderData) (wd : WatchDog) (id : String) :
    (snapshot.foldl loadStep wd).orders.lookup id =
      if ∃ o ∈ snapshot, o.OrderId = id ∧ o.Status = OPEN then some OPEN
      else wd.orders.lookup id := by
  induction snapshot generalizing wd with
  | nil => simp
  | cons o rest ih =>
    rw [List.foldl_cons, ih]
    by_cases hrest : ∃ o2 ∈ rest, o2.OrderId = id ∧ o2.Status = OPEN
    · have : ∃ o2 ∈ o :: rest, o2.OrderId = id ∧ o2.Status = OPEN := by
        obtain ⟨o2, h2, h3⟩ := hrest
        exact ⟨o2, List.mem_cons_of_mem _ h2, h3⟩
      rw [if_pos hrest, if_pos this]
    · rw [if_neg hrest]
      by_cases ho : o.OrderId = id ∧ o.Status = OPEN
      · have : ∃ o2 ∈ o :: rest, o2.OrderId = id ∧ o2.Status = OPEN :=
          ⟨o, List.mem_cons_self _ _, ho⟩
        rw [if_pos this]
        unfold loadStep
        rw [if_pos ho.2, ho.2, ← ho.1]
        exact AList.lookup_insert _
      · have : ¬ ∃ o2 ∈ o :: rest, o2.OrderId = id ∧ o2.Status = OPEN := by
          rintro ⟨o2, h2, h3⟩
          rcases List.mem_cons.mp h2 with h | h
          · exact ho (h ▸ h3)
          · exact hrest ⟨o2, h, h3⟩
        rw [if_neg this]
        unfold loadStep
        by_cases hs : o.Status = OPEN
        · rw [if_pos hs]
          have hne : id ≠ o.OrderId := fun h => ho ⟨h.symm, hs⟩
          exact AList.lookup_insert_ne hne
        · rw [if_neg hs]

/-- C2: when the listing succeeds and the order book is empty before, `loadOrders`
succeeds and the ids of the order book afterwards are exactly the ids of the listed
orders whose status is `open`, each mapped to `open`; an id listed only with other
statuses is absent. -/
theorem C2_loadOrders_keeps_exactly_open
    (ListOrders : OrderListRequest → Except String (List OrderData))
    (wd : WatchDog) (snapshot : List OrderData)
    (hlist : ListOrders { MarketId := wd.marketId } = .ok snapshot)
    (hempty : wd.orders = ∅) :
    ∃ wd2, loadOrders ListOrders wd = .ok wd2 ∧
      (∀ id, id ∈ wd2.orders ↔ ∃ o ∈ snapshot, o.OrderId = id ∧ o.Status = OPEN) ∧
      (∀ id, id ∈ wd2.orders → wd2.orders.lookup id = some OPEN) ∧
      (∀ id, (∀ o ∈ snapshot, o.OrderId = id → o.Status ≠ OPEN) →
        wd2.orders.lookup id = none) := by
  refine ⟨snapshot.foldl loadStep wd, loadOrders_ok ListOrders wd snapshot hlist, ?_, ?_, ?_⟩
  · intro id
    rw [← AList.lookup_isSome, lookup_foldl_loadStep, hempty]
    by_cases h : ∃ o ∈ snapshot, o.OrderId = id ∧ o.Status = OPEN
    · simp [h]
    · simp only [if_neg h, AList.lookup_empty, Option.isSome_none, Bool.false_eq_true, false_iff]
      exact h
  · intro id hid
    rw [← AList.lookup_isSome, lookup_foldl_loadStep, hempty] at hid
    rw [lookup_foldl_loadStep]
    by_cases h : ∃ o ∈ snapshot, o.OrderId = id ∧ o.Status = OPEN
    · rw [if_pos h]
    · rw [if_neg h] at hid
      simp at hid
  · intro id hid
    rw [lookup_foldl_loadStep, hempty]
    have h : ¬ ∃ o ∈ snapshot, o.OrderId = id ∧ o.Status = OPEN := by
      rintro ⟨o, h1, h2, h3⟩
      exact hid o h1 h2 h3
    rw [if_neg h]
    rfl

/-- C2 at the snapshot with statuses `[open, closed, canceled, open]`: the order book
holds the ids `1` and `4`, both `open`, and neither `2` nor `3`. -/
theorem C2_witness :
    ∃ wd2, loadOrders (fun _ => .ok sampleSnapshot) (NewWatchDog "ETH-USD") = .ok wd2 ∧
      wd2.orders.lookup "1" = some OPEN ∧ wd2.orders.lookup "4" = some OPEN ∧
      wd2.orders.lookup "2" = none ∧ wd2.orders.lookup "3" = none := by
  obtain ⟨wd2, h, hmem, hopen, hnone⟩ :=
    C2_loadOrders_keeps_exactly_open (fun _ => .ok sampleSnapshot) (NewWatchDog "ETH-USD")
      sampleSnapshot rfl rfl
  refine ⟨wd2, h, ?_, ?_, ?_, ?_⟩
  · exact hopen _ ((hmem "1").2 ⟨⟨"1", OPEN⟩, by decide, rfl, rfl⟩)
  · exact hopen _ ((hmem "4").2 ⟨⟨"4", OPEN⟩, by decide, rfl, rfl⟩)
  · exact hnone "2" (by decide)
  · exact hnone "3" (by decide)

/-- The order book after the loop of `cleanOrders` over the entries `l`. -/
theorem lookup_foldl_cleanStep (l : List (Sigma fun _ : String => String)) (m : OrderBook)
    (id : String) :
    (l.foldl cleanStep m).lookup id =
      if ∃ e ∈ l, e.1 = id ∧ e.2 = CANCELED then none else m.lookup id := by
  induction l generalizing m with
  | nil => simp
  | cons e rest ih =>
    rw [List.foldl_cons, ih]
    by_cases hrest : ∃ e2 ∈ rest, e2.1 = id ∧ e2.2 = CANCELED
    · have : ∃ e2 ∈ e :: rest, e2.1 = id ∧ e2.2 = CANCELED := by
        obtain ⟨e2, h2, h3⟩ := hrest
        exact ⟨e2, List.mem_cons_of_mem _ h2, h3⟩
      rw [if_pos hrest, if_pos this]
    · rw [if_neg hrest]
      by_cases he : e.1 = id ∧ e.2 = CANCELED
      · have : ∃ e2 ∈ e :: rest, e2.1 = id ∧ e2.2 = CANCELED :=
          ⟨e, List.mem_cons_self _ _, he⟩
        rw [if_pos this]
        unfold cleanStep
        rw [if_pos he.2, he.1]
        exact AList.lookup_erase _ _
      · have : ¬ ∃ e2 ∈ e :: rest, e2.1 = id ∧ e2.2 = CANCELED := by
          rintro ⟨e2, h2, h3⟩
          rcases List.mem_cons.mp h2 with h | h
          · exact he (h ▸ h3)
          · exact hrest ⟨e2, h, h3⟩
        rw [if_neg this]
        unfold cleanStep
        by_cases hs : e.2 = CANCELED
        · rw [if_pos hs]
          have hne : id ≠ e.1 := fun h => he ⟨h.symm, hs⟩
          exact AList.lookup_erase_ne hne
        · rw [if_neg hs]

/-- An entry `(id, CANCELED)` is among the entries exactly when `id` maps to `CANCELED`. -/
theorem exists_entry_iff_lookup (m : OrderBook) (id st : String) :
    (∃ e ∈ m.entries, e.1 = id ∧ e.2 = st) ↔ m.lookup id = some st := by
  constructor
  · rintro ⟨⟨k, v⟩, hmem, hk, hv⟩
    simp only at hk hv
    subst hk hv
    exact AList.mem_lookup_iff.mpr hmem
  · intro h
    exact ⟨⟨id, st⟩, AList.mem_lookup_iff.mp h, rfl, rfl⟩

/-- The order book after `cleanOrders`. -/
theorem lookup_cleanOrders (wd : WatchDog) (id : String) :
    (cleanOrders wd).orders.lookup id =
      if wd.orders.lookup id = some CANCELED then none else wd.orders.lookup id := by
  have h := lookup_foldl_cleanStep wd.orders.entries wd.orders id
  simp only [exists_entry_iff_lookup] at h
  exact h

/-- C3: after `cleanOrders` an id is absent when it was mapped to `canceled`, and maps
to what it mapped to before otherwise (absent ids stay absent): every `canceled`
entry is removed and no other entry is removed or changed. -/
theorem C3_cleanOrders_removes_exactly_canceled (wd : WatchDog) (id : String) :
    (cleanOrders wd).orders.lookup id =
      if wd.orders.lookup id = some CANCELED then none else wd.orders.lookup id :=
  lookup_cleanOrders wd id

/-- C3 at the order book `a: canceled, b: open, c: canceled`: the cleanup leaves
exactly `b: open`. -/
theorem C3_witness :
    (cleanOrders { wdFive with orders := sampleCleanBook }).orders.entries = [⟨"b", OPEN⟩] ∧
    (cleanOrders { wdFive with orders := sampleCleanBook }).orders.lookup "a" = none ∧
    (cleanOrders { wdFive with orders := sampleCleanBook }).orders.lookup "b" = some OPEN ∧
    (cleanOrders { wdFive with orders := sampleCleanBook }).orders.lookup "c" = none :=
  ⟨by decide,
    (C3_cleanOrders_removes_exactly_canceled _ "a").trans (by decide),
    (C3_cleanOrders_removes_exactly_canceled _ "b").trans (by decide),
    (C3_cleanOrders_removes_exactly_canceled _ "c").trans (by decide)⟩

/-- The loop of `checkOrders` over the entries `l`: when the buffer has room for
every candidate, each candidate id is appended, in the order of the entries. -/
theorem foldlM_send (l : List (Sigma fun _ : String => String)) (ch : Chan)
    (hroom : ch.buf.length +
      (l.filter (fun e => decide (e.2 = OPEN ∨ e.2 = CANCELING))).length ≤ ch.cap) :
    l.foldlM (fun ch e => if e.2 = OPEN ∨ e.2 = CANCELING then ch.send e.1 else some ch) ch =
      some { ch with buf := ch.buf ++
        (l.filter (fun e => decide (e.2 = OPEN ∨ e.2 = CANCELING))).map (fun e => e.1) } := by
  induction l generalizing ch with
  | nil => simp
  | cons e rest ih =>
    rw [List.foldlM_cons]
    by_cases he : e.2 = OPEN ∨ e.2 = CANCELING
    · have hf : (e :: rest).filter (fun e => decide (e.2 = OPEN ∨ e.2 = CANCELING)) =
          e :: rest.filter (fun e => decide (e.2 = OPEN ∨ e.2 = CANCELING)) := by
        rw [List.filter_cons_of_pos]; simpa using he
      rw [hf] at hroom ⊢
      simp only [List.length_cons] at hroom
      have hlt : ch.buf.length < ch.cap := by omega
      have hs : ch.send e.1 = some { ch with buf := ch.buf ++ [e.1] } := by
        unfold Chan.send
        rw [if_pos hlt]
      rw [if_pos he, hs]
      simp only [Option.some_bind, Option.bind_eq_bind]
      rw [ih]
      · simp
      · simp only [List.length_append, List.length_singleton]
        omega
    · have hf : (e :: rest).filter (fun e => decide (e.2 = OPEN ∨ e.2 = CANCELING)) =
          rest.filter (fun e => decide (e.2 = OPEN ∨ e.2 = CANCELING)) := by
        rw [List.filter_cons_of_neg]; simpa using he
      rw [hf] at hroom ⊢
      rw [if_neg he]
      simp only [Option.some_bind, Option.bind_eq_bind]
      exact ih ch hroom

/-- C4: when the work queue has room for every candidate, `checkOrders` appends to
the queue a list of ids without repetition whose members are exactly the ids mapped
to `open` or `canceling`, and returns the watchdog, order book included, unchanged. -/
theorem C4_checkOrders_enqueues_exactly_candidates (wd : WatchDog) (cancelCh : Chan)
    (hroom : cancelCh.buf.length +
      (wd.orders.entries.filter (fun e => decide (e.2 = OPEN ∨ e.2 = CANCELING))).length
        ≤ cancelCh.cap) :
    ∃ ids : List String,
      checkOrders wd cancelCh = (wd, some { cancelCh with buf := cancelCh.buf ++ ids }) ∧
      ids.Nodup ∧
      ∀ id, id ∈ ids ↔
        (wd.orders.lookup id = some OPEN ∨ wd.orders.lookup id = some CANCELING) := by
  refine ⟨(wd.orders.entries.filter (fun e => decide (e.2 = OPEN ∨ e.2 = CANCELING))).map
    (fun e => e.1), ?_, ?_, ?_⟩
  · unfold checkOrders
    rw [foldlM_send wd.orders.entries cancelCh hroom]
  · have hnd : (wd.orders.entries.map (fun e => e.1)).Nodup := AList.keys_nodup wd.orders
    exact (List.Sublist.map _ (List.filter_sublist _)).nodup hnd
  · intro id
    rw [← exists_entry_iff_lookup, ← exists_entry_iff_lookup]
    simp only [List.mem_map, List.mem_filter, decide_eq_true_eq]
    constructor
    · rintro ⟨e, ⟨hmem, hst⟩, rfl⟩
      rcases hst with h | h
      · exact Or.inl ⟨e, hmem, rfl, h⟩
      · exact Or.inr ⟨e, hmem, rfl, h⟩
    · rintro (⟨e, hmem, hid, hst⟩ | ⟨e, hmem, hid, hst⟩)
      · exact ⟨e, ⟨hmem, Or.inl hst⟩, hid⟩
      · exact ⟨e, ⟨hmem, Or.inr hst⟩, hid⟩

/-- C4 at the order book `a: open, b: canceling, c: closed, d: rejected` and an empty
queue of capacity 10000: the ids enqueued are `a` and `b`, not `c` and not `d`. -/
theorem C4_witness :
    ∃ ids : List String,
      checkOrders { wdFive with orders := sampleScanBook } ⟨[], 10000⟩ =
        ({ wdFive with orders := sampleScanBook }, some ⟨[] ++ ids, 10000⟩) ∧
      ids.Nodup ∧ "a" ∈ ids ∧ "b" ∈ ids ∧ "c" ∉ ids ∧ "d" ∉ ids := by
  obtain ⟨ids, h1, h2, h3⟩ := C4_checkOrders_enqueues_exactly_candidates
    { wdFive with orders := sampleScanBook } ⟨[], 10000⟩ (by decide)
  refine ⟨ids, h1, h2, (h3 "a").2 (by decide), (h3 "b").2 (by decide), ?_, ?_⟩
  · exact fun h => absurd ((h3 "c").1 h) (by decide)
  · exact fun h => absurd ((h3 "d").1 h) (by decide)

/-! ### Quoting -/

/-- C5: `placeOrder` issues a create call exactly when `bestBid * 0.94` is strictly
positive, never more than one, and when `bestBid * 0.94 <= 0` (in particular when
`bestBid` is zero or negative) it issues none and returns the watchdog, order book
included, unchanged. -/
theorem C5_placeOrder_calls_iff_positive {α : Type} (A : Arith α)
    (CreateOrder : OrderCreateRequest α → CallResult OrderCreateResponse) (wd : WatchDog) :
    ((placeOrder A CreateOrder wd).1 ≠ [] ↔ 0 < wd.bestBid * (94 / 100)) ∧
    (placeOrder A CreateOrder wd).1.length ≤ 1 ∧
    (wd.bestBid * (94 / 100) ≤ 0 → placeOrder A CreateOrder wd = ([], some wd)) ∧
    (wd.bestBid ≤ 0 → placeOrder A CreateOrder wd = ([], some wd)) := by
  have hskip : wd.bestBid * (94 / 100) ≤ 0 → placeOrder A CreateOrder wd = ([], some wd) := by
    intro h
    unfold placeOrder
    simp [Decimal.LessThanOrEqual, Decimal.Mul, Decimal.Zero, quoteFactor, h]
  refine ⟨?_, ?_, hskip, ?_⟩
  · by_cases h : wd.bestBid * (94 / 100) ≤ 0
    · rw [hskip h]
      simp only [ne_eq, not_true_eq_false, false_iff, not_lt]
      exact h
    · have hpos : 0 < wd.bestBid * (94 / 100) := not_le.mp h
      simp only [hpos, iff_true]
      unfold placeOrder
      simp only [Decimal.LessThanOrEqual, Decimal.Mul, Decimal.Zero, quoteFactor, h,
        decide_False, Bool.false_eq_true, if_false]
      split <;> simp
  · by_cases h : wd.bestBid * (94 / 100) ≤ 0
    · rw [hskip h]; simp
    · unfold placeOrder
      simp only [Decimal.LessThanOrEqual, Decimal.Mul, Decimal.Zero, quoteFactor, h,
        decide_False, Bool.false_eq_true, if_false]
      split <;> simp
  · intro h
    apply hskip
    have : (0 : ℚ) ≤ 94 / 100 := by norm_num
    exact mul_nonpos_of_nonpos_of_nonneg h this

/-- C5 at `bestBid = 0`, in binary64 and with a venue that would accept every order:
no create call is issued and the watchdog is unchanged. -/
theorem C5_witness :
    placeOrder binary64 (fun _ => .returned (some ⟨"1", OPEN⟩)) (NewWatchDog "ETH-USD") =
      ([], some (NewWatchDog "ETH-USD")) :=
  (C5_placeOrder_calls_iff_positive binary64 (fun _ => .returned (some ⟨"1", OPEN⟩))
    (NewWatchDog "ETH-USD")).2.2.2 (le_refl _)

/-! ### The account stream -/

/-- On orders none of which is nil the loop of `handleAccountData` does not panic. -/
theorem foldlM_account_some (L : List OrderData) (wd : WatchDog) :
    (L.map some).foldlM
      (fun w o =>
        match o with
        | none => none
        | some order => some { w with orders := w.orders.insert order.OrderId order.Status })
      wd = some (L.foldl accountStep wd) := by
  induction L generalizing wd with
  | nil => rfl
  | cons o rest ih =>
    simp only [List.map_cons, List.foldlM_cons, Option.some_bind, Option.bind_eq_bind,
      List.foldl_cons]
    exact ih _

theorem lastStatus_cons (o : OrderData) (rest : List OrderData) (id : String) :
    lastStatus (o :: rest) id =
      match lastStatus rest id with
      | some s => some s
      | none => if o.OrderId = id then some o.Status else none := rfl

/-- The order book after the loop of `handleAccountData`: an id of the list maps to
the status of its last occurrence, every other id keeps its entry. -/
theorem lookup_foldl_accountStep (L : List OrderData) (wd : WatchDog) (id : String) :
    (L.foldl accountStep wd).orders.lookup id =
      match lastStatus L id with
      | some s => some s
      | none => wd.orders.lookup id := by
  induction L generalizing wd with
  | nil => rfl
  | cons o rest ih =>
    rw [List.foldl_cons, ih, lastStatus_cons]
    cases lastStatus rest id with
    | some s => rfl
    | none =>
      simp only
      by_cases ho : o.OrderId = id
      · rw [if_pos ho]
        unfold accountStep
        simp only
        rw [← ho]
        exact AList.lookup_insert _
      · rw [if_neg ho]
        unfold accountStep
        exact AList.lookup_insert_ne (fun h => ho h.symm)

/-- C6 on account events without a nil order: from an empty order book, bootstrap,
event and cleanup leave exactly the ids whose latest status is not `canceled`, mapped
to that status, the latest status of an id being that of its last occurrence in the
event and otherwise `open` when the snapshot lists it as `open`. -/
theorem bootstrapEventCleanup_of_orders
    (ListOrders : OrderListRequest → Except String (List OrderData))
    (unmarshal : Unmarshal ProfileData) (wd : WatchDog) (data : EventData)
    (snapshot L : List OrderData)
    (hlist : ListOrders { MarketId := wd.marketId } = .ok snapshot)
    (hdec : unmarshal data.Data = some { Orders := L.map some })
    (hempty : wd.orders = ∅) :
    ∃ wd3, bootstrapEventCleanup ListOrders unmarshal wd data = some wd3 ∧
      ∀ id, wd3.orders.lookup id =
        (let latest : Option String :=
          match lastStatus L id with
          | some s => some s
          | none => if ∃ o ∈ snapshot, o.OrderId = id ∧ o.Status = OPEN then some OPEN else none
        if latest = some CANCELED then none else latest) := by
  refine ⟨cleanOrders (L.foldl accountStep (snapshot.foldl loadStep wd)), ?_, ?_⟩
  · unfold bootstrapEventCleanup
    rw [loadOrders_ok ListOrders wd snapshot hlist]
    simp only
    unfold handleAccountData
    rw [decodeAndPrintData_eq, hdec]
    simp only
    rw [foldlM_account_some]
  · intro id
    rw [lookup_cleanOrders, lookup_foldl_accountStep,
      lookup_foldl_loadStep, hempty]
    rfl

/-- The scenario of the specification: the snapshot lists order `1` as `open`, the
account event reports `1` as `canceled` and `2` as `open`; after the cleanup the
order book holds `2: open` and nothing under `1`. -/
theorem bootstrapEventCleanup_scenario :
    ∃ wd3, bootstrapEventCleanup (fun _ => .ok [⟨"1", OPEN⟩]) sampleAccountUnmarshal
        (NewWatchDog "ETH-USD") ⟨"account@7", scenarioPayload⟩ = some wd3 ∧
      wd3.orders.lookup "1" = none ∧ wd3.orders.lookup "2" = some OPEN := by
  obtain ⟨wd3, h, hl⟩ := bootstrapEventCleanup_of_orders (fun _ => .ok [⟨"1", OPEN⟩])
    sampleAccountUnmarshal (NewWatchDog "ETH-USD") ⟨"account@7", scenarioPayload⟩
    [⟨"1", OPEN⟩] [⟨"1", CANCELED⟩, ⟨"2", OPEN⟩] rfl (by decide) rfl
  refine ⟨wd3, h, ?_, ?_⟩
  · rw [hl]; decide
  · rw [hl]; decide

/-- C6 fails on a decodable account event whose `orders` array holds `null`: after
the bootstrap from the snapshot that lists order `1` as `open`, `handleAccountData`
reads `order.OrderId` through the nil pointer and panics, so the scenario yields no
order book. -/
theorem C6_nil_order_panics :
    sampleAccountUnmarshal nullOrderPayload = some { Orders := [none] } ∧
    bootstrapEventCleanup (fun _ => .ok [⟨"1", OPEN⟩]) sampleAccountUnmarshal
      (NewWatchDog "ETH-USD") ⟨"account@7", nullOrderPayload⟩ = none :=
  ⟨by decide, by rfl⟩

/-! ### The arithmetic of `float64` -/

theorem F64.ofFrac_eq (neg : Bool) (n d : Nat) :
    F64.ofFrac neg n d =
      if n = 0 then F64.fin neg 0 0
      else if 971 < F64.exponent n d ∨ (F64.exponent n d = 971 ∧ F64.significand n d = 2 ^ 53)
        then F64.inf neg
      else F64.fin neg (F64.significand n d) (F64.exponent n d) := by
  rfl

theorem bitLenAux_spec (fuel n : Nat) (hfuel : n ≤ fuel) (hn : 0 < n) :
    2 ^ (bitLenAux fuel n - 1) ≤ n ∧ n < 2 ^ bitLenAux fuel n ∧ 1 ≤ bitLenAux fuel n := by
  induction fuel generalizing n with
  | zero => omega
  | succ fuel ih =>
    unfold bitLenAux
    rw [if_neg (by omega)]
    by_cases h2 : n / 2 = 0
    · have h1 : n = 1 := by omega
      subst h1
      have : bitLenAux fuel (1 / 2) = 0 := by
        cases fuel with
        | zero => rfl
        | succ f => rfl
      rw [this]
      simp
    · obtain ⟨ha, hb, hc⟩ := ih (n / 2) (by omega) (by omega)
      refine ⟨?_, ?_, by omega⟩
      · have : bitLenAux fuel (n / 2) + 1 - 1 = (bitLenAux fuel (n / 2) - 1) + 1 := by omega
        rw [this, pow_succ]
        omega
      · rw [pow_succ]
        omega

theorem bitLen_spec (n : Nat) (hn : 0 < n) :
    2 ^ (bitLen n - 1) ≤ n ∧ n < 2 ^ bitLen n ∧ 1 ≤ bitLen n :=
  bitLenAux_spec n n (le_refl n) hn

theorem cast_two_pow_toNat (e : Int) (h : 0 ≤ e) : ((2 ^ e.toNat : Nat) : ℚ) = (2 : ℚ) ^ e := by
  rw [Nat.cast_pow, ← zpow_natCast, Int.toNat_of_nonneg h]
  norm_num

theorem roundHalfEven_near (a b : Nat) (hb : 0 < b) :
    |(roundHalfEven a b : ℚ) - (a : ℚ) / b| ≤ 1 / 2 := by
  have hbq : (0 : ℚ) < b := by exact_mod_cast hb
  have hdm : (a : ℚ) = b * (a / b : Nat) + (a % b : Nat) := by
    exact_mod_cast (Nat.div_add_mod a b).symm
  have hmod : (a % b : Nat) < b := Nat.mod_lt a hb
  have hmodq : ((a % b : Nat) : ℚ) < b := by exact_mod_cast hmod
  have hmod0 : (0 : ℚ) ≤ ((a % b : Nat) : ℚ) := Nat.cast_nonneg _
  have hq : (a : ℚ) / b = (a / b : Nat) + ((a % b : Nat) : ℚ) / b := by
    rw [hdm, add_div, mul_div_cancel_left₀ _ hbq.ne']
  unfold roundHalfEven
  simp only []
  rw [hq, abs_le]
  by_cases h1 : 2 * (a % b) < b
  · rw [if_pos h1]
    have h1q : 2 * ((a % b : Nat) : ℚ) < b := by exact_mod_cast h1
    have : ((a % b : Nat) : ℚ) / b < 1 / 2 := by
      rw [div_lt_iff₀ hbq]; linarith
    have : 0 ≤ ((a % b : Nat) : ℚ) / b := by positivity
    constructor <;> linarith
  · rw [if_neg h1]
    by_cases h2 : b < 2 * (a % b)
    · rw [if_pos h2]
      have h2q : (b : ℚ) < 2 * ((a % b : Nat) : ℚ) := by exact_mod_cast h2
      have h3 : 1 / 2 < ((a % b : Nat) : ℚ) / b := by
        rw [lt_div_iff₀ hbq]; linarith
      have h4 : ((a % b : Nat) : ℚ) / b < 1 := by
        rw [div_lt_iff₀ hbq]; linarith
      push_cast
      constructor <;> linarith
    · rw [if_neg h2]
      have heq : 2 * (a % b) = b := by omega
      have heqq : 2 * ((a % b : Nat) : ℚ) = b := by exact_mod_cast heq
      have h3 : ((a % b : Nat) : ℚ) / b = 1 / 2 := by
        rw [div_eq_iff hbq.ne']; linarith
      rw [h3]
      by_cases h5 : a / b % 2 = 0
      · rw [if_pos h5]
        constructor <;> linarith
      · rw [if_neg h5]
        push_cast
        constructor <;> linarith

theorem roundHalfEven_exact (a b N : Nat) (hb : 0 < b) (h : (a : ℚ) / b = N) :
    roundHalfEven a b = N := by
  have hbq : (0 : ℚ) < b := by exact_mod_cast hb
  have ha : a = N * b := by
    have : (a : ℚ) = N * b := by rw [div_eq_iff hbq.ne'] at h; exact h
    exact_mod_cast this
  unfold roundHalfEven
  simp only []
  have hdiv : a / b = N := by rw [ha]; exact Nat.mul_div_cancel N hb
  have hmod : a % b = 0 := by rw [ha]; exact Nat.mul_mod_left N b
  rw [hmod, hdiv, if_pos (by omega)]

theorem cast_two_pow_pred (a : Nat) (ha : 1 ≤ a) :
    ((2 ^ (a - 1) : Nat) : ℚ) = (2 : ℚ) ^ ((a : Int) - 1) := by
  rw [Nat.cast_pow, ← zpow_natCast]
  congr 1
  omega

theorem F64.floorLog2_spec (n d : Nat) (hn : 0 < n) (hd : 0 < d) :
    (2 : ℚ) ^ F64.floorLog2 n d ≤ (n : ℚ) / d ∧ (n : ℚ) / d < (2 : ℚ) ^ (F64.floorLog2 n d + 1) := by
  obtain ⟨hn1, hn2, hn3⟩ := bitLen_spec n hn
  obtain ⟨hd1, hd2, hd3⟩ := bitLen_spec d hd
  have hdq : (0 : ℚ) < d := by exact_mod_cast hd
  have h2 : (0 : ℚ) < 2 := by norm_num
  have hn1q : (2 : ℚ) ^ ((bitLen n : Int) - 1) ≤ n := by
    rw [← cast_two_pow_pred _ hn3]; exact_mod_cast hn1
  have hn2q : (n : ℚ) < (2 : ℚ) ^ (bitLen n : Int) := by
    rw [zpow_natCast]; exact_mod_cast hn2
  have hd1q : (2 : ℚ) ^ ((bitLen d : Int) - 1) ≤ d := by
    rw [← cast_two_pow_pred _ hd3]; exact_mod_cast hd1
  have hd2q : (d : ℚ) < (2 : ℚ) ^ (bitLen d : Int) := by
    rw [zpow_natCast]; exact_mod_cast hd2
  have hB : (n : ℚ) / d < (2 : ℚ) ^ ((bitLen n : Int) - (bitLen d : Int) + 1) := by
    rw [div_lt_iff₀ hdq]
    have hs : (2 : ℚ) ^ (bitLen n : Int) =
        (2 : ℚ) ^ ((bitLen n : Int) - (bitLen d : Int) + 1) * (2 : ℚ) ^ ((bitLen d : Int) - 1) := by
      rw [← zpow_add₀ h2.ne']
      congr 1
      ring
    have hp : (0 : ℚ) < (2 : ℚ) ^ ((bitLen n : Int) - (bitLen d : Int) + 1) := zpow_pos h2 _
    calc (n : ℚ) < (2 : ℚ) ^ (bitLen n : Int) := hn2q
      _ = _ := hs
      _ ≤ _ := mul_le_mul_of_nonneg_left hd1q hp.le
  have hA : (2 : ℚ) ^ ((bitLen n : Int) - (bitLen d : Int) - 1) ≤ (n : ℚ) / d := by
    rw [le_div_iff₀ hdq]
    have hs : (2 : ℚ) ^ ((bitLen n : Int) - 1) =
        (2 : ℚ) ^ ((bitLen n : Int) - (bitLen d : Int) - 1) * (2 : ℚ) ^ (bitLen d : Int) := by
      rw [← zpow_add₀ h2.ne']
      congr 1
      ring
    have hp : (0 : ℚ) < (2 : ℚ) ^ ((bitLen n : Int) - (bitLen d : Int) - 1) := zpow_pos h2 _
    calc (2 : ℚ) ^ ((bitLen n : Int) - (bitLen d : Int) - 1) * d
        ≤ (2 : ℚ) ^ ((bitLen n : Int) - (bitLen d : Int) - 1) * (2 : ℚ) ^ (bitLen d : Int) :=
          mul_le_mul_of_nonneg_left hd2q.le hp.le
      _ = (2 : ℚ) ^ ((bitLen n : Int) - 1) := hs.symm
      _ ≤ n := hn1q
  unfold F64.floorLog2
  simp only []
  generalize (bitLen n : Int) - (bitLen d : Int) = k0 at hA hB ⊢
  have hsub : k0 - 1 + 1 = k0 := by ring
  by_cases hk : 0 ≤ k0
  · rw [if_pos hk]
    have hc : ((2 ^ k0.toNat : Nat) : ℚ) = (2 : ℚ) ^ k0 := cast_two_pow_toNat k0 hk
    by_cases ht : d * 2 ^ k0.toNat ≤ n
    · rw [if_pos ht]
      refine ⟨?_, hB⟩
      rw [le_div_iff₀ hdq, ← hc, mul_comm]
      exact_mod_cast ht
    · rw [if_neg ht, hsub]
      refine ⟨hA, ?_⟩
      rw [div_lt_iff₀ hdq, ← hc, mul_comm]
      exact_mod_cast not_le.mp ht
  · rw [if_neg hk]
    have hk' : 0 ≤ -k0 := by omega
    have hc : ((2 ^ (-k0).toNat : Nat) : ℚ) = (2 : ℚ) ^ (-k0) := cast_two_pow_toNat (-k0) hk'
    have hinv : (2 : ℚ) ^ k0 * (2 : ℚ) ^ (-k0) = 1 := by
      rw [← zpow_add₀ h2.ne']
      simp
    have hpn : (0 : ℚ) < (2 : ℚ) ^ (-k0) := zpow_pos h2 _
    have hpk : (0 : ℚ) < (2 : ℚ) ^ k0 := zpow_pos h2 _
    by_cases ht : d ≤ n * 2 ^ (-k0).toNat
    · rw [if_pos ht]
      refine ⟨?_, hB⟩
      rw [le_div_iff₀ hdq]
      have htq : (d : ℚ) ≤ n * (2 : ℚ) ^ (-k0) := by
        rw [← hc]; exact_mod_cast ht
      calc (2 : ℚ) ^ k0 * d ≤ (2 : ℚ) ^ k0 * (n * (2 : ℚ) ^ (-k0)) :=
            mul_le_mul_of_nonneg_left htq hpk.le
        _ = n * ((2 : ℚ) ^ k0 * (2 : ℚ) ^ (-k0)) := by ring
        _ = n := by rw [hinv, mul_one]
    · rw [if_neg ht, hsub]
      refine ⟨hA, ?_⟩
      rw [div_lt_iff₀ hdq]
      have htq : (n : ℚ) * (2 : ℚ) ^ (-k0) < d := by
        rw [← hc]; exact_mod_cast not_le.mp ht
      calc (n : ℚ) = (2 : ℚ) ^ k0 * (n * (2 : ℚ) ^ (-k0)) := by
            rw [mul_comm (n : ℚ), ← mul_assoc, hinv, one_mul]
        _ < (2 : ℚ) ^ k0 * d := mul_lt_mul_of_pos_left htq hpk

theorem F64.exponent_spec (n d : Nat) :
    -1074 ≤ F64.exponent n d ∧ F64.floorLog2 n d - 52 ≤ F64.exponent n d ∧
      (F64.exponent n d = -1074 ∨ F64.exponent n d = F64.floorLog2 n d - 52) := by
  unfold F64.exponent
  by_cases h : F64.floorLog2 n d - 52 < -1074
  · rw [if_pos h]
    refine ⟨le_refl _, by omega, Or.inl rfl⟩
  · rw [if_neg h]
    refine ⟨by omega, le_refl _, Or.inr rfl⟩

/-- The significand is the quotient `n / d / 2 ^ e`, rounded to an integer. -/
theorem F64.significand_quotient (n d : Nat) (hd : 0 < d) :
    ∃ a b : Nat, 0 < b ∧ F64.significand n d = roundHalfEven a b ∧
      (a : ℚ) / b = (n : ℚ) / d / (2 : ℚ) ^ F64.exponent n d := by
  have hdq : (0 : ℚ) < d := by exact_mod_cast hd
  have h2 : (0 : ℚ) < 2 := by norm_num
  unfold F64.significand
  by_cases he : 0 ≤ F64.exponent n d
  · rw [if_pos he]
    refine ⟨n, d * 2 ^ (F64.exponent n d).toNat, Nat.mul_pos hd (Nat.pow_pos (by norm_num)), rfl, ?_⟩
    rw [Nat.cast_mul, cast_two_pow_toNat _ he, div_div]
  · rw [if_neg he]
    have he' : 0 ≤ -F64.exponent n d := by omega
    refine ⟨n * 2 ^ (-F64.exponent n d).toNat, d, hd, rfl, ?_⟩
    rw [Nat.cast_mul, cast_two_pow_toNat _ he', zpow_neg]
    have hp : (0 : ℚ) < (2 : ℚ) ^ F64.exponent n d := zpow_pos h2 _
    field_simp
    left
    ring

theorem F64.significand_near (n d : Nat) (hd : 0 < d) :
    |(F64.significand n d : ℚ) * (2 : ℚ) ^ F64.exponent n d - (n : ℚ) / d| ≤
      (2 : ℚ) ^ F64.exponent n d / 2 := by
  obtain ⟨a, b, hb, hs, hab⟩ := F64.significand_quotient n d hd
  have hp : (0 : ℚ) < (2 : ℚ) ^ F64.exponent n d := zpow_pos (by norm_num) _
  have hnear := roundHalfEven_near a b hb
  rw [hab, ← hs] at hnear
  have heq : (F64.significand n d : ℚ) * (2 : ℚ) ^ F64.exponent n d - (n : ℚ) / d =
      ((F64.significand n d : ℚ) - (n : ℚ) / d / (2 : ℚ) ^ F64.exponent n d) *
        (2 : ℚ) ^ F64.exponent n d := by
    field_simp
    ring
  rw [heq, abs_mul, abs_of_pos hp]
  calc _ ≤ 1 / 2 * (2 : ℚ) ^ F64.exponent n d := mul_le_mul_of_nonneg_right hnear hp.le
    _ = _ := by ring

theorem F64.significand_exact (n d N : Nat) (hd : 0 < d)
    (h : (n : ℚ) / d = N * (2 : ℚ) ^ F64.exponent n d) : F64.significand n d = N := by
  obtain ⟨a, b, hb, hs, hab⟩ := F64.significand_quotient n d hd
  have hp : (0 : ℚ) < (2 : ℚ) ^ F64.exponent n d := zpow_pos (by norm_num) _
  rw [hs]
  apply roundHalfEven_exact a b N hb
  rw [hab, h]
  field_simp

/-- What `ofFrac` returns on a positive fraction `q = n / d`: an infinity, only when
`q ≥ 2 ^ 1023`, or a finite value `m * 2 ^ e` with `e ≥ -1074`, at most half a unit
`2 ^ e` from `q`, where `q < 2 ^ (e + 53)` and, unless `e = -1074`,
`2 ^ (e + 52) ≤ q`; the value is `q` itself when `q` is a multiple of `2 ^ e`. -/
theorem F64.ofFrac_spec (neg : Bool) (n d : Nat) (hn : 0 < n) (hd : 0 < d) :
    (F64.ofFrac neg n d = F64.inf neg ∧ (2 : ℚ) ^ (1023 : Int) ≤ (n : ℚ) / d) ∨
    ∃ m e, F64.ofFrac neg n d = F64.fin neg m e ∧ -1074 ≤ e ∧
      |(m : ℚ) * (2 : ℚ) ^ e - (n : ℚ) / d| ≤ (2 : ℚ) ^ e / 2 ∧
      (e = -1074 ∨ (2 : ℚ) ^ (e + 52) ≤ (n : ℚ) / d) ∧
      (n : ℚ) / d < (2 : ℚ) ^ (e + 53) ∧
      (∀ N : Nat, (n : ℚ) / d = N * (2 : ℚ) ^ e → m = N) := by
  obtain ⟨hk1, hk2⟩ := F64.floorLog2_spec n d hn hd
  obtain ⟨he1, he2, he3⟩ := F64.exponent_spec n d
  have h2 : (1 : ℚ) < 2 := by norm_num
  have hlow : F64.exponent n d = -1074 ∨ (2 : ℚ) ^ (F64.exponent n d + 52) ≤ (n : ℚ) / d := by
    rcases he3 with h | h
    · exact Or.inl h
    · right
      have : F64.exponent n d + 52 = F64.floorLog2 n d := by omega
      rw [this]
      exact hk1
  have hup : (n : ℚ) / d < (2 : ℚ) ^ (F64.exponent n d + 53) :=
    lt_of_lt_of_le hk2 (zpow_le_zpow_right₀ h2.le (by omega))
  rw [F64.ofFrac_eq, if_neg (by omega)]
  by_cases hov : 971 < F64.exponent n d ∨
      (F64.exponent n d = 971 ∧ F64.significand n d = 2 ^ 53)
  · rw [if_pos hov]
    left
    refine ⟨rfl, ?_⟩
    have hk : 1023 ≤ F64.floorLog2 n d := by
      rcases he3 with h | h
      · rcases hov with h' | h' <;> omega
      · rcases hov with h' | h' <;> omega
    exact le_trans (zpow_le_zpow_right₀ h2.le hk) hk1
  · rw [if_neg hov]
    right
    exact ⟨_, _, rfl, he1, F64.significand_near n d hd, hlow, hup,
      fun N hN => F64.significand_exact n d N hd hN⟩

theorem F64.ofFrac_zero (neg : Bool) (d : Nat) : F64.ofFrac neg 0 d = F64.fin neg 0 0 := by
  rfl

theorem F64.round_of_neg (s : Bool) (m : Nat) (e : Int) (he : e < 0) :
    F64.round (F64.fin s m e) = F64.fin s (nearestAway m (2 ^ (-e).toNat)) 0 := by
  have hn : ¬ (0 ≤ e) := by omega
  simp only [F64.round, hn, if_false, nearestAway]

theorem F64.round_of_nonneg (s : Bool) (m : Nat) (e : Int) (he : 0 ≤ e) :
    F64.round (F64.fin s m e) = F64.fin s m e := by
  simp only [F64.round, he, if_true]

theorem nearestAway_near (m d : Nat) (hd : 0 < d) :
    |(nearestAway m d : ℚ) - (m : ℚ) / d| ≤ 1 / 2 := by
  have hdq : (0 : ℚ) < d := by exact_mod_cast hd
  have hdm : (m : ℚ) = d * (m / d : Nat) + (m % d : Nat) := by
    exact_mod_cast (Nat.div_add_mod m d).symm
  have hmod : (m % d : Nat) < d := Nat.mod_lt m hd
  have hmodq : ((m % d : Nat) : ℚ) < d := by exact_mod_cast hmod
  have hmod0 : (0 : ℚ) ≤ ((m % d : Nat) : ℚ) := Nat.cast_nonneg _
  have hq : (m : ℚ) / d = (m / d : Nat) + ((m % d : Nat) : ℚ) / d := by
    rw [hdm, add_div, mul_div_cancel_left₀ _ hdq.ne']
  have hr1 : ((m % d : Nat) : ℚ) / d < 1 := by rw [div_lt_iff₀ hdq]; linarith
  have hr0 : 0 ≤ ((m % d : Nat) : ℚ) / d := by positivity
  unfold nearestAway
  rw [hq, abs_le]
  by_cases h1 : d ≤ 2 * (m % d)
  · rw [if_pos h1]
    have h1q : (d : ℚ) ≤ 2 * ((m % d : Nat) : ℚ) := by exact_mod_cast h1
    have : 1 / 2 ≤ ((m % d : Nat) : ℚ) / d := by rw [le_div_iff₀ hdq]; linarith
    push_cast
    constructor <;> linarith
  · rw [if_neg h1]
    have h1q : 2 * ((m % d : Nat) : ℚ) < d := by exact_mod_cast not_le.mp h1
    have : ((m % d : Nat) : ℚ) / d < 1 / 2 := by rw [div_lt_iff₀ hdq]; linarith
    constructor <;> linarith

/-- An integer that is less than one half away from `m / d` is what `nearestAway`
returns. -/
theorem nearestAway_eq_of_near (m d k : Nat) (hd : 0 < d)
    (h : |(m : ℚ) / d - k| < 1 / 2) : nearestAway m d = k := by
  have hdq : (0 : ℚ) < d := by exact_mod_cast hd
  have hnear := nearestAway_near m d hd
  have hlt : |(nearestAway m d : ℚ) - k| < 1 := by
    have : (nearestAway m d : ℚ) - k =
        ((nearestAway m d : ℚ) - (m : ℚ) / d) + ((m : ℚ) / d - k) := by ring
    rw [this]
    calc _ ≤ |(nearestAway m d : ℚ) - (m : ℚ) / d| + |(m : ℚ) / d - k| := abs_add _ _
      _ < 1 := by linarith
  rw [abs_lt] at hlt
  have h1 : (nearestAway m d : Int) < k + 1 := by
    have : (nearestAway m d : ℚ) < (k : ℚ) + 1 := by linarith [hlt.2]
    exact_mod_cast this
  have h2 : (k : Int) < nearestAway m d + 1 := by
    have : (k : ℚ) < (nearestAway m d : ℚ) + 1 := by linarith [hlt.1]
    exact_mod_cast this
  omega

/-- On a halfway case `nearestAway` takes the integer above. -/
theorem nearestAway_half (m d j : Nat) (hd : 0 < d) (h : (m : ℚ) / d = j + 1 / 2) :
    nearestAway m d = j + 1 := by
  have hdq : (0 : ℚ) < d := by exact_mod_cast hd
  have h2 : 2 * m = (2 * j + 1) * d := by
    have : (2 : ℚ) * m = (2 * j + 1) * d := by
      rw [div_eq_iff hdq.ne'] at h
      rw [h]; ring
    exact_mod_cast this
  have hdiv : m / d = j := by
    apply Nat.div_eq_of_lt_le
    · nlinarith
    · nlinarith
  have hmod : 2 * (m % d) = d := by
    have := Nat.div_add_mod m d
    rw [hdiv] at this
    nlinarith
  unfold nearestAway
  rw [if_pos (by omega), hdiv]

/-- The product of two finite values is `ofFrac` of the exact product. -/
theorem F64.mul_fin (s s2 : Bool) (m m2 : Nat) (e e2 : Int) :
    ∃ n d : Nat, 0 < d ∧
      F64.mul (F64.fin s m e) (F64.fin s2 m2 e2) = F64.ofFrac (xor s s2) n d ∧
      (n : ℚ) / d = (m : ℚ) * (2 : ℚ) ^ e * ((m2 : ℚ) * (2 : ℚ) ^ e2) := by
  have h2 : (2 : ℚ) ≠ 0 := by norm_num
  by_cases hx : 0 ≤ e + e2
  · refine ⟨m * m2 * 2 ^ (e + e2).toNat, 1, Nat.one_pos, ?_, ?_⟩
    · simp only [F64.mul, hx, if_true]
    · rw [Nat.cast_mul, Nat.cast_mul, cast_two_pow_toNat _ hx, zpow_add₀ h2]
      simp only [Nat.cast_one, div_one]
      ring
  · refine ⟨m * m2, 2 ^ (-(e + e2)).toNat, Nat.pow_pos (by norm_num), ?_, ?_⟩
    · simp only [F64.mul, hx, if_false]
    · rw [Nat.cast_mul, cast_two_pow_toNat _ (by omega), zpow_neg, zpow_add₀ h2]
      field_simp
      ring

/-- The quotient of two finite values, the divisor not zero, is `ofFrac` of the exact
quotient. -/
theorem F64.div_fin (s s2 : Bool) (m m2 : Nat) (e e2 : Int) (hm2 : m2 ≠ 0) :
    ∃ n d : Nat, 0 < d ∧
      F64.div (F64.fin s m e) (F64.fin s2 m2 e2) = F64.ofFrac (xor s s2) n d ∧
      (n : ℚ) / d = (m : ℚ) * (2 : ℚ) ^ e / ((m2 : ℚ) * (2 : ℚ) ^ e2) := by
  have h2 : (2 : ℚ) ≠ 0 := by norm_num
  have hm2q : (m2 : ℚ) ≠ 0 := by exact_mod_cast hm2
  have hp2 : (2 : ℚ) ^ e2 ≠ 0 := zpow_ne_zero _ h2
  by_cases hx : 0 ≤ e - e2
  · refine ⟨m * 2 ^ (e - e2).toNat, m2, Nat.pos_of_ne_zero hm2, ?_, ?_⟩
    · simp only [F64.div, hm2, hx, if_true, if_false]
    · rw [Nat.cast_mul, cast_two_pow_toNat _ hx, zpow_sub₀ h2]
      field_simp
      left
      ring
  · refine ⟨m, m2 * 2 ^ (-(e - e2)).toNat,
      Nat.mul_pos (Nat.pos_of_ne_zero hm2) (Nat.pow_pos (by norm_num)), ?_, ?_⟩
    · simp only [F64.div, hm2, hx, if_false]
    · rw [Nat.cast_mul, cast_two_pow_toNat _ (by omega), zpow_neg, zpow_sub₀ h2]
      field_simp

/-- On a fraction from `2 ^ (-1074)` on, `ofFrac` returns an infinity or a finite
value that is not zero. -/
theorem F64.ofFrac_pos (neg : Bool) (n d : Nat) (hd : 0 < d)
    (hq : (2 : ℚ) ^ (-1074 : Int) ≤ (n : ℚ) / d) :
    F64.ofFrac neg n d = F64.inf neg ∨ ∃ m e, F64.ofFrac neg n d = F64.fin neg m e ∧ 0 < m := by
  have hdq : (0 : ℚ) < d := by exact_mod_cast hd
  have h2 : (1 : ℚ) < 2 := by norm_num
  have hpos : (0 : ℚ) < (n : ℚ) / d := lt_of_lt_of_le (zpow_pos (by norm_num) _) hq
  have hn : 0 < n := by
    rcases Nat.eq_zero_or_pos n with h | h
    · rw [h] at hpos; simp at hpos
    · exact h
  rcases F64.ofFrac_spec neg n d hn hd with ⟨h, _⟩ | ⟨m, e, h, he, hnear, hlow, hup, hex⟩
  · exact Or.inl h
  · right
    refine ⟨m, e, h, ?_⟩
    rcases Nat.eq_zero_or_pos m with hm | hm
    · exfalso
      rw [hm] at hnear
      simp only [Nat.cast_zero, zero_mul, zero_sub, abs_neg, abs_of_pos hpos] at hnear
      have hpe : (0 : ℚ) < (2 : ℚ) ^ e := zpow_pos (by norm_num) _
      have hle : (2 : ℚ) ^ e ≤ (n : ℚ) / d := by
        rcases hlow with h1 | h1
        · rw [h1]; exact hq
        · exact le_trans (zpow_le_zpow_right₀ h2.le (by omega)) h1
      linarith
    · exact hm

/-- A finite value that is not zero, with the sign bit clear, and the positive
infinity do not compare `<= 0`. -/
theorem F64.le_zero_of_pos (m : Nat) (e : Int) (hm : 0 < m) :
    F64.le (F64.fin false m e) (F64.fin false 0 0) = false ∧
      F64.le (F64.inf false) (F64.fin false 0 0) = false := by
  refine ⟨?_, rfl⟩
  simp only [F64.le, F64.scaled, if_false, Nat.zero_mul, Bool.false_eq_true]
  rw [decide_eq_false_iff_not, not_le]
  have : 0 < m * 2 ^ (e - if e ≤ 0 then e else 0).toNat := Nat.mul_pos hm (Nat.pow_pos (by norm_num))
  exact_mod_cast this

/-- A significand at most half a unit from a fraction in the normal range has 53
bits. -/
theorem F64.significand_ge (m : Nat) (e : Int) (q : ℚ)
    (hnear : |(m : ℚ) * (2 : ℚ) ^ e - q| ≤ (2 : ℚ) ^ e / 2)
    (hlow : (2 : ℚ) ^ (e + 52) ≤ q) : 2 ^ 52 ≤ m := by
  have hpe : (0 : ℚ) < (2 : ℚ) ^ e := zpow_pos (by norm_num) _
  have hs : (2 : ℚ) ^ (e + 52) = (2 : ℚ) ^ e * 2 ^ 52 := by
    rw [zpow_add₀ (by norm_num : (2 : ℚ) ≠ 0)]
    norm_num
  rw [abs_le] at hnear
  have h1 : (2 : ℚ) ^ e * (2 ^ 52 - 1 / 2) ≤ (2 : ℚ) ^ e * m := by
    have := hnear.1
    rw [hs] at hlow
    linarith
  have h2 : (2 : ℚ) ^ 52 - 1 / 2 ≤ m := le_of_mul_le_mul_left h1 hpe
  have h3 : ((2 ^ 52 - 1 : Nat) : ℚ) < m := by
    push_cast
    linarith
  have h4 : 2 ^ 52 - 1 < m := by exact_mod_cast h3
  omega

/-- The `float64` of a positive rational is `ofFrac` of it, with the sign bit clear. -/
theorem F64.ofRat_of_pos (p : ℚ) (hp : 0 < p) :
    ∃ n d : Nat, 0 < n ∧ 0 < d ∧ F64.ofRat p = F64.ofFrac false n d ∧ (n : ℚ) / d = p := by
  have hnum : 0 < p.num := Rat.num_pos.mpr hp
  refine ⟨p.num.natAbs, p.den, Int.natAbs_pos.mpr hnum.ne', p.den_pos, ?_, ?_⟩
  · unfold F64.ofRat
    rw [decide_eq_false (not_lt.mpr hp.le)]
  · rw [Nat.cast_natAbs, abs_of_nonneg hnum.le]
    exact Rat.num_div_den p

theorem nearestAway_pos (m d : Nat) (hd : 0 < d) (h : d ≤ 2 * m) : 1 ≤ nearestAway m d := by
  unfold nearestAway
  by_cases hmd : m < d
  · have hmod : m % d = m := Nat.mod_eq_of_lt hmd
    rw [hmod, if_pos h]
    exact Nat.le_add_left 1 _
  · have h1 : 1 ≤ m / d := (Nat.one_le_div_iff hd).mpr (not_lt.mp hmd)
    split
    · exact Nat.le_add_left 1 _
    · exact h1

/-- In `float64`, rounding a price of at least `0.05` to the tick `0.1` gives a result
that is positive: the positive infinity, or a finite value that is not zero with the
sign bit clear. -/
theorem roundToNearestTick_binary64_tenth (p : ℚ) (hp : 1 / 20 ≤ p) :
    roundToNearestTick binary64 (binary64.ofDecimal p) (binary64.ofDecimal (1 / 10)) =
        F64.inf false ∨
      ∃ m e, roundToNearestTick binary64 (binary64.ofDecimal p) (binary64.ofDecimal (1 / 10)) =
        F64.fin false m e ∧ 0 < m := by
  have ht : binary64.ofDecimal (1 / 10) = F64.fin false 7205759403792794 (-56) := by decide!
  have h0 : binary64.ofDecimal 0 = F64.fin false 0 0 := by decide!
  have hle : F64.le (F64.fin false 7205759403792794 (-56)) (F64.fin false 0 0) = false := by
    decide!
  have h2 : (1 : ℚ) < 2 := by norm_num
  have h20 : (2 : ℚ) ≠ 0 := by norm_num
  have hT : (0 : ℚ) < (7205759403792794 : ℚ) * (2 : ℚ) ^ (-56 : Int) := by positivity
  have hTlow : (2 : ℚ) ^ (-1074 : Int) ≤ (7205759403792794 : ℚ) * (2 : ℚ) ^ (-56 : Int) := by
    have h1 : (2 : ℚ) ^ (-1074 : Int) ≤ (2 : ℚ) ^ (-56 : Int) :=
      zpow_le_zpow_right₀ h2.le (by norm_num)
    have h3 : (0 : ℚ) < (2 : ℚ) ^ (-56 : Int) := zpow_pos (by norm_num) _
    nlinarith
  have hfinal : ∀ (k : Nat) (ek : Int), 0 < k → 0 ≤ ek →
      F64.mul (F64.fin false k ek) (F64.fin false 7205759403792794 (-56)) = F64.inf false ∨
      ∃ m e, F64.mul (F64.fin false k ek) (F64.fin false 7205759403792794 (-56)) =
        F64.fin false m e ∧ 0 < m := by
    intro k ek hk hek
    obtain ⟨n, d, hd, hmul, hval⟩ := F64.mul_fin false false k 7205759403792794 ek (-56)
    rw [hmul]
    apply F64.ofFrac_pos _ n d hd
    rw [hval]
    have hk1 : (1 : ℚ) ≤ k := by exact_mod_cast hk
    have hek1 : (1 : ℚ) ≤ (2 : ℚ) ^ ek := one_le_zpow₀ h2.le hek
    have hkk : (1 : ℚ) ≤ (k : ℚ) * (2 : ℚ) ^ ek := by nlinarith
    push_cast
    calc (2 : ℚ) ^ (-1074 : Int) ≤ 1 * ((7205759403792794 : ℚ) * (2 : ℚ) ^ (-56 : Int)) := by
          rw [one_mul]; exact hTlow
      _ ≤ (k : ℚ) * (2 : ℚ) ^ ek * ((7205759403792794 : ℚ) * (2 : ℚ) ^ (-56 : Int)) :=
          mul_le_mul_of_nonneg_right hkk hT.le
  have hinf : F64.mul (F64.round (F64.div (F64.inf false)
      (F64.fin false 7205759403792794 (-56)))) (F64.fin false 7205759403792794 (-56)) =
      F64.inf false := by decide
  unfold roundToNearestTick
  rw [ht, h0]
  show (if F64.le (F64.fin false 7205759403792794 (-56)) (F64.fin false 0 0) = true then _
    else _) = _ ∨ ∃ m e, (if F64.le (F64.fin false 7205759403792794 (-56)) (F64.fin false 0 0) =
      true then _ else _) = _ ∧ _
  rw [hle]
  simp only [Bool.false_eq_true, if_false]
  show F64.mul (F64.round (F64.div (F64.ofRat p) _)) _ = _ ∨
    ∃ m e, F64.mul (F64.round (F64.div (F64.ofRat p) _)) _ = _ ∧ _
  have hp0 : 0 < p := by linarith
  obtain ⟨n, d, hn, hd, hX, hnd⟩ := F64.ofRat_of_pos p hp0
  rw [hX]
  rcases F64.ofFrac_spec false n d hn hd with ⟨hxi, _⟩ | ⟨m, e, hxf, he, hnear, hlow, hup, _⟩
  · rw [hxi, hinf]
    exact Or.inl rfl
  · rw [hxf]
    rw [hnd] at hnear hlow hup
    have hpe : (0 : ℚ) < (2 : ℚ) ^ e := zpow_pos (by norm_num) _
    have he57 : -57 ≤ e := by
      by_contra hc
      have h1 : (2 : ℚ) ^ (e + 53) ≤ (2 : ℚ) ^ (-5 : Int) :=
        zpow_le_zpow_right₀ h2.le (by omega)
      have h3 : (2 : ℚ) ^ (-5 : Int) < 1 / 20 := by norm_num
      exact lt_asymm h3 (lt_of_lt_of_le (lt_of_le_of_lt hp hup) h1)
    have hXval : (7205759403792794 : ℚ) * (2 : ℚ) ^ (-57 : Int) ≤ (m : ℚ) * (2 : ℚ) ^ e := by
      by_cases he56 : -56 ≤ e
      · have hlow' : (2 : ℚ) ^ (e + 52) ≤ p := by
          rcases hlow with h | h
          · omega
          · exact h
        have hm := F64.significand_ge m e p hnear hlow'
        have hmq : (2 : ℚ) ^ 52 ≤ m := by exact_mod_cast hm
        have h56 : (2 : ℚ) ^ (-56 : Int) ≤ (2 : ℚ) ^ e := zpow_le_zpow_right₀ h2.le he56
        have h3 : (7205759403792794 : ℚ) * (2 : ℚ) ^ (-57 : Int) ≤
            (2 : ℚ) ^ 52 * (2 : ℚ) ^ (-56 : Int) := by norm_num
        have h4 : (2 : ℚ) ^ 52 * (2 : ℚ) ^ (-56 : Int) ≤ (m : ℚ) * (2 : ℚ) ^ e :=
          mul_le_mul hmq h56 (zpow_pos (by norm_num) _).le (by positivity)
        linarith
      · have hee : e = -57 := by omega
        subst hee
        rw [abs_le] at hnear
        have h1 : (1 : ℚ) / 20 - (2 : ℚ) ^ (-57 : Int) / 2 ≤ (m : ℚ) * (2 : ℚ) ^ (-57 : Int) := by
          linarith [hnear.1]
        have h3 : ((7205759403792793 : Nat) : ℚ) < m := by
          have hv : (2 : ℚ) ^ (-57 : Int) = 1 / 144115188075855872 := by norm_num
          rw [hv] at h1
          push_cast
          linarith
        have h4 : 7205759403792793 < m := by exact_mod_cast h3
        have h5 : (7205759403792794 : ℚ) ≤ m := by exact_mod_cast h4
        exact mul_le_mul_of_nonneg_right h5 (zpow_pos (by norm_num) _).le
    obtain ⟨n1, d1, hd1, hdiv, hq1⟩ := F64.div_fin false false m 7205759403792794 e (-56)
      (by norm_num)
    rw [hdiv]
    have hQ : (1 : ℚ) / 2 ≤ (n1 : ℚ) / d1 := by
      rw [hq1]
      push_cast
      rw [le_div_iff₀ hT]
      have hv : (1 : ℚ) / 2 * ((7205759403792794 : ℚ) * (2 : ℚ) ^ (-56 : Int)) =
          (7205759403792794 : ℚ) * (2 : ℚ) ^ (-57 : Int) := by norm_num
      rw [hv]
      exact hXval
    have hn1 : 0 < n1 := by
      rcases Nat.eq_zero_or_pos n1 with h | h
      · rw [h] at hQ; norm_num at hQ
      · exact h
    rcases F64.ofFrac_spec (xor false false) n1 d1 hn1 hd1 with
      ⟨hqi, _⟩ | ⟨m1, e1, hqf, he1, hnear1, hlow1, hup1, _⟩
    · rw [hqi]
      exact Or.inl (by decide)
    · rw [hqf]
      have he53 : -53 ≤ e1 := by
        by_contra hc
        have h1 : (2 : ℚ) ^ (e1 + 53) ≤ (2 : ℚ) ^ (-1 : Int) :=
          zpow_le_zpow_right₀ h2.le (by omega)
        have h3 : (2 : ℚ) ^ (-1 : Int) = 1 / 2 := by norm_num
        rw [h3] at h1
        exact absurd (lt_of_lt_of_le (lt_of_le_of_lt hQ hup1) h1) (lt_irrefl _)
      have hlow1' : (2 : ℚ) ^ (e1 + 52) ≤ (n1 : ℚ) / d1 := by
        rcases hlow1 with h | h
        · omega
        · exact h
      have hm1 := F64.significand_ge m1 e1 _ hnear1 hlow1'
      by_cases hneg : e1 < 0
      · rw [F64.round_of_neg _ _ _ hneg]
        apply hfinal _ 0 _ (le_refl 0)
        apply nearestAway_pos _ _ (Nat.pow_pos (by norm_num))
        have hle53 : (-e1).toNat ≤ 53 := by omega
        have : 2 ^ (-e1).toNat ≤ 2 ^ 53 := Nat.pow_le_pow_right (by norm_num) hle53
        omega
      · rw [F64.round_of_nonneg _ _ _ (by omega)]
        exact hfinal m1 e1 (by omega) (by omega)

/-- The function `math.Round` of the model on a finite value: the sign is kept, the
magnitude of the result is an integer at most one half from the magnitude of the
argument, and a halfway case `j + 1/2` gives `j + 1`. -/
theorem F64.round_fin_nearest (s : Bool) (m : Nat) (e : Int) :
    ∃ m2 e2, F64.round (F64.fin s m e) = F64.fin s m2 e2 ∧
      (∃ K : Nat, (m2 : ℚ) * (2 : ℚ) ^ e2 = K) ∧
      |(m2 : ℚ) * (2 : ℚ) ^ e2 - (m : ℚ) * (2 : ℚ) ^ e| ≤ 1 / 2 ∧
      (∀ j : Nat, (m : ℚ) * (2 : ℚ) ^ e = j + 1 / 2 → (m2 : ℚ) * (2 : ℚ) ^ e2 = j + 1) := by
  by_cases he : 0 ≤ e
  · refine ⟨m, e, F64.round_of_nonneg s m e he, ⟨m * 2 ^ e.toNat, ?_⟩, ?_, ?_⟩
    · rw [Nat.cast_mul, cast_two_pow_toNat e he]
    · rw [sub_self, abs_zero]
      norm_num
    · intro j hj
      exfalso
      rw [← cast_two_pow_toNat e he] at hj
      have h2 : ((2 * (m * 2 ^ e.toNat) : Nat) : ℚ) = ((2 * j + 1 : Nat) : ℚ) := by
        push_cast at hj ⊢
        linarith
      have h3 : 2 * (m * 2 ^ e.toNat) = 2 * j + 1 := by exact_mod_cast h2
      omega
  · have hneg : e < 0 := by omega
    have hd : 0 < 2 ^ (-e).toNat := Nat.pow_pos (by norm_num)
    have hval : (m : ℚ) * (2 : ℚ) ^ e = (m : ℚ) / ((2 ^ (-e).toNat : Nat) : ℚ) := by
      rw [cast_two_pow_toNat (-e) (by omega), zpow_neg, div_eq_mul_inv, inv_inv]
    refine ⟨nearestAway m (2 ^ (-e).toNat), 0, F64.round_of_neg s m e hneg,
      ⟨nearestAway m (2 ^ (-e).toNat), by simp⟩, ?_, ?_⟩
    · rw [hval, zpow_zero, mul_one]
      exact nearestAway_near m _ hd
    · intro j hj
      rw [hval] at hj
      rw [nearestAway_half m _ j hd hj, zpow_zero, mul_one]
      push_cast
      ring

theorem roundToNearestTick_binary64_of_pos (x t : F64)
    (ht : F64.le t (F64.fin false 0 0) = false) :
    roundToNearestTick binary64 x t = F64.mul (F64.round (F64.div x t)) t := by
  have h0 : binary64.ofDecimal 0 = F64.fin false 0 0 := by decide!
  unfold roundToNearestTick
  rw [h0]
  show (if F64.le t (F64.fin false 0 0) = true then x else _) = _
  rw [ht]
  rfl

/-- A finite tick that does not compare `<= 0` has the sign bit clear and is not
zero. -/
theorem F64.pos_of_not_le (s : Bool) (m : Nat) (e : Int)
    (h : F64.le (F64.fin s m e) (F64.fin false 0 0) = false) : s = false ∧ 0 < m := by
  simp only [F64.le, F64.scaled, if_false, Nat.zero_mul, Bool.false_eq_true,
    decide_eq_false_iff_not, not_le] at h
  cases s with
  | true =>
    exfalso
    simp only [if_true] at h
    have : (0 : Int) ≤ ((m * 2 ^ (e - if e ≤ 0 then e else 0).toNat : Nat) : Int) :=
      Int.ofNat_nonneg _
    omega
  | false =>
    refine ⟨rfl, ?_⟩
    rcases Nat.eq_zero_or_pos m with hm | hm
    · exfalso
      rw [hm] at h
      simp at h
    · exact hm

theorem F64.div_zero_fin (s s2 : Bool) (m2 : Nat) (e e2 : Int) (hm2 : m2 ≠ 0) :
    F64.div (F64.fin s 0 e) (F64.fin s2 m2 e2) = F64.fin (xor s s2) 0 0 := by
  simp only [F64.div, hm2, if_false, Nat.zero_mul]
  split <;> rfl

theorem F64.mul_zero_fin (s s2 : Bool) (m2 : Nat) (e e2 : Int) :
    F64.mul (F64.fin s 0 e) (F64.fin s2 m2 e2) = F64.fin (xor s s2) 0 0 := by
  simp only [F64.mul, Nat.zero_mul]
  split <;> rfl

/-- The relative error of a value in the normal range is at most `2 ^ (-53)`. -/
theorem F64.rel_error (m : Nat) (e : Int) (q : ℚ)
    (hnear : |(m : ℚ) * (2 : ℚ) ^ e - q| ≤ (2 : ℚ) ^ e / 2)
    (hlow : (2 : ℚ) ^ (e + 52) ≤ q) :
    |(m : ℚ) * (2 : ℚ) ^ e - q| ≤ q / 2 ^ 53 := by
  have hs : (2 : ℚ) ^ (e + 52) = (2 : ℚ) ^ e * 2 ^ 52 := by
    rw [zpow_add₀ (by norm_num : (2 : ℚ) ≠ 0)]
    norm_num
  rw [hs] at hlow
  have : (2 : ℚ) ^ e / 2 ≤ q / 2 ^ 53 := by
    rw [div_le_div_iff₀ (by norm_num) (by norm_num)]
    nlinarith
  linarith

/-- The second pass of tick rounding: the product of a number of ticks `k` below
`2 ^ 51` and the tick is sent back to itself. -/
theorem F64.second_pass (s : Bool) (k mt : Nat) (et : Int) (hk : 0 < k) (hk51 : k < 2 ^ 51)
    (hmt : 0 < mt) (het : -1074 ≤ et) :
    F64.mul (F64.round (F64.div (F64.mul (F64.fin s k 0) (F64.fin false mt et))
      (F64.fin false mt et))) (F64.fin false mt et) =
      F64.mul (F64.fin s k 0) (F64.fin false mt et) := by
  have h2 : (1 : ℚ) < 2 := by norm_num
  have h20 : (2 : ℚ) ≠ 0 := by norm_num
  have hkq : (1 : ℚ) ≤ k := by exact_mod_cast hk
  have hkq51 : (k : ℚ) ≤ 2 ^ 51 - 1 := by
    have : k ≤ 2 ^ 51 - 1 := by omega
    have h := (Nat.cast_le (α := ℚ)).mpr this
    push_cast at h
    linarith
  have hmtq : (0 : ℚ) < mt := by exact_mod_cast hmt
  have hpt : (0 : ℚ) < (2 : ℚ) ^ et := zpow_pos (by norm_num) _
  have hT : (0 : ℚ) < (mt : ℚ) * (2 : ℚ) ^ et := mul_pos hmtq hpt
  obtain ⟨n, d, hd, hmul, hval⟩ := F64.mul_fin s false k mt 0 et
  rw [zpow_zero, mul_one] at hval
  have hs : xor s false = s := by cases s <;> rfl
  rw [hs] at hmul
  have hQ : (0 : ℚ) < (n : ℚ) / d := by rw [hval]; positivity
  have hn : 0 < n := by
    rcases Nat.eq_zero_or_pos n with h | h
    · rw [h] at hQ; simp at hQ
    · exact h
  rw [hmul]
  rcases F64.ofFrac_spec s n d hn hd with ⟨hyi, _⟩ | ⟨m2, e2, hyf, he2, hnear, hlow, hup, hex⟩
  · rw [hyi]
    simp only [F64.div, F64.round, F64.mul, hs, hmt.ne', if_false]
  · rw [hyf]
    rw [hval] at hnear hlow hex
    -- the product is within a relative error of 2^-53
    have hrel : |(m2 : ℚ) * (2 : ℚ) ^ e2 - (k : ℚ) * ((mt : ℚ) * (2 : ℚ) ^ et)| ≤
        (k : ℚ) * ((mt : ℚ) * (2 : ℚ) ^ et) / 2 ^ 53 := by
      rcases hlow with h | h
      · have hx : 0 ≤ et - e2 := by omega
        have hN : (k : ℚ) * ((mt : ℚ) * (2 : ℚ) ^ et) =
            ((k * mt * 2 ^ (et - e2).toNat : Nat) : ℚ) * (2 : ℚ) ^ e2 := by
          rw [Nat.cast_mul, Nat.cast_mul, cast_two_pow_toNat _ hx, zpow_sub₀ h20]
          field_simp
          ring
        have hm2 := hex _ hN
        rw [hm2, ← hN, sub_self, abs_zero]
        positivity
      · exact F64.rel_error m2 e2 _ hnear h
    obtain ⟨n3, d3, hd3, hdiv, hval3⟩ := F64.div_fin s false m2 mt e2 et hmt.ne'
    rw [hs] at hdiv
    rw [hdiv]
    -- the quotient is within a relative error of 2^-53 of k
    have hQ3 : |(n3 : ℚ) / d3 - k| ≤ (k : ℚ) / 2 ^ 53 := by
      rw [hval3]
      have : (m2 : ℚ) * (2 : ℚ) ^ e2 / ((mt : ℚ) * (2 : ℚ) ^ et) - k =
          ((m2 : ℚ) * (2 : ℚ) ^ e2 - (k : ℚ) * ((mt : ℚ) * (2 : ℚ) ^ et)) /
            ((mt : ℚ) * (2 : ℚ) ^ et) := by
        field_simp
        ring
      rw [this, abs_div, abs_of_pos hT, div_le_iff₀ hT]
      calc _ ≤ (k : ℚ) * ((mt : ℚ) * (2 : ℚ) ^ et) / 2 ^ 53 := hrel
        _ = (k : ℚ) / 2 ^ 53 * ((mt : ℚ) * (2 : ℚ) ^ et) := by ring
    rw [abs_le] at hQ3
    have hQ3lo : (1 : ℚ) / 2 ≤ (n3 : ℚ) / d3 := by
      have : (k : ℚ) - (k : ℚ) / 2 ^ 53 ≤ (n3 : ℚ) / d3 := by linarith [hQ3.1]
      have h1 : (1 : ℚ) / 2 ≤ (k : ℚ) - (k : ℚ) / 2 ^ 53 := by
        have : (k : ℚ) - (k : ℚ) / 2 ^ 53 = (k : ℚ) * (1 - 1 / 2 ^ 53) := by ring
        rw [this]
        have h3 : (1 : ℚ) / 2 ≤ 1 - 1 / 2 ^ 53 := by norm_num
        nlinarith
      linarith
    have hQ3hi : (n3 : ℚ) / d3 < 2 ^ 51 := by
      have : (n3 : ℚ) / d3 ≤ (k : ℚ) + (k : ℚ) / 2 ^ 53 := by linarith [hQ3.2]
      have h1 : (k : ℚ) + (k : ℚ) / 2 ^ 53 < 2 ^ 51 := by
        have : (k : ℚ) + (k : ℚ) / 2 ^ 53 = (k : ℚ) * (1 + 1 / 2 ^ 53) := by ring
        rw [this]
        have h3 : ((2 : ℚ) ^ 51 - 1) * (1 + 1 / 2 ^ 53) < 2 ^ 51 := by norm_num
        have h4 : (0 : ℚ) < 1 + 1 / 2 ^ 53 := by norm_num
        nlinarith
      linarith
    have hn3 : 0 < n3 := by
      rcases Nat.eq_zero_or_pos n3 with h | h
      · rw [h] at hQ3lo; norm_num at hQ3lo
      · exact h
    rcases F64.ofFrac_spec s n3 d3 hn3 hd3 with
      ⟨_, hbig⟩ | ⟨m3, e3, hqf, he3, hnear3, hlow3, hup3, _⟩
    · exfalso
      have h1 : (2 : ℚ) ^ (51 : Int) ≤ (2 : ℚ) ^ (1023 : Int) :=
        zpow_le_zpow_right₀ h2.le (by norm_num)
      have h3 : (2 : ℚ) ^ (51 : Int) = 2 ^ 51 := by norm_num
      rw [h3] at h1
      linarith
    · rw [hqf]
      have he53 : -53 ≤ e3 := by
        by_contra hc
        have h1 : (2 : ℚ) ^ (e3 + 53) ≤ (2 : ℚ) ^ (-1 : Int) :=
          zpow_le_zpow_right₀ h2.le (by omega)
        have h3 : (2 : ℚ) ^ (-1 : Int) = 1 / 2 := by norm_num
        rw [h3] at h1
        exact absurd (lt_of_lt_of_le (lt_of_le_of_lt hQ3lo hup3) h1) (lt_irrefl _)
      have hlow3' : (2 : ℚ) ^ (e3 + 52) ≤ (n3 : ℚ) / d3 := by
        rcases hlow3 with h | h
        · omega
        · exact h
      have hneg : e3 < 0 := by
        by_contra hc
        have h1 : (2 : ℚ) ^ (52 : Int) ≤ (2 : ℚ) ^ (e3 + 52) :=
          zpow_le_zpow_right₀ h2.le (by omega)
        have h3 : (2 : ℚ) ^ (52 : Int) = 2 ^ 52 := by norm_num
        rw [h3] at h1
        have h4 : (2 : ℚ) ^ 51 < 2 ^ 52 := by norm_num
        linarith
      have hrel3 := F64.rel_error m3 e3 _ hnear3 hlow3'
      rw [abs_le] at hrel3
      have hd0 : 0 < 2 ^ (-e3).toNat := Nat.pow_pos (by norm_num)
      have hval : (m3 : ℚ) * (2 : ℚ) ^ e3 = (m3 : ℚ) / ((2 ^ (-e3).toNat : Nat) : ℚ) := by
        rw [cast_two_pow_toNat (-e3) (by omega), zpow_neg, div_eq_mul_inv, inv_inv]
      have hk3 : nearestAway m3 (2 ^ (-e3).toNat) = k := by
        apply nearestAway_eq_of_near _ _ _ hd0
        rw [← hval, abs_lt]
        have hc1 : (k : ℚ) / 2 ^ 53 ≤ (2 ^ 51 - 1) / 2 ^ 53 :=
          div_le_div_of_nonneg_right hkq51 (by norm_num)
        have hc2 : (n3 : ℚ) / d3 / 2 ^ 53 ≤ ((k : ℚ) + (k : ℚ) / 2 ^ 53) / 2 ^ 53 :=
          div_le_div_of_nonneg_right (by linarith [hQ3.2]) (by norm_num)
        have hc3 : ((k : ℚ) + (k : ℚ) / 2 ^ 53) / 2 ^ 53 =
            (k : ℚ) / 2 ^ 53 * (1 + 1 / 2 ^ 53) := by ring
        have hc4 : (k : ℚ) / 2 ^ 53 * (1 + 1 / 2 ^ 53) ≤
            (2 ^ 51 - 1) / 2 ^ 53 * (1 + 1 / 2 ^ 53) :=
          mul_le_mul_of_nonneg_right hc1 (by norm_num)
        have hc5 : ((2 : ℚ) ^ 51 - 1) / 2 ^ 53 * (1 + 1 / 2 ^ 53) + (2 ^ 51 - 1) / 2 ^ 53 <
            1 / 2 := by norm_num
        constructor
        · linarith [hrel3.1, hQ3.1]
        · linarith [hrel3.2, hQ3.2]
      rw [F64.round_of_neg s m3 e3 hneg, hk3, hmul, hyf]

theorem F64.div_nan (y : F64) : F64.div y F64.nan = F64.nan := by
  cases y <;> rfl

theorem F64.mul_nan (y : F64) : F64.mul y F64.nan = F64.nan := by
  cases y <;> rfl

/-- With an infinite tick the result of tick rounding is NaN. -/
theorem F64.tick_inf (x : F64) :
    F64.mul (F64.round (F64.div x (F64.inf false))) (F64.inf false) = F64.nan := by
  cases x <;> simp [F64.div, F64.round, F64.mul]

/-- In `float64`, tick rounding is idempotent as long as the number of ticks of the
first pass is below `2 ^ 51`: for every size and every tick that does not compare
`<= 0` (the exponent of a finite tick being at least `-1074`, as it is for every
`float64`), rounding the rounded size again returns it unchanged. -/
theorem roundToNearestTick_binary64_idempotent (x t : F64)
    (ht : F64.le t (F64.fin false 0 0) = false)
    (hexp : ∀ s m e, t = F64.fin s m e → -1074 ≤ e)
    (hticks : ∀ s m e, F64.round (F64.div x t) = F64.fin s m e → m * 2 ^ e.toNat < 2 ^ 51) :
    roundToNearestTick binary64 (roundToNearestTick binary64 x t) t =
      roundToNearestTick binary64 x t := by
  rw [roundToNearestTick_binary64_of_pos _ t ht, roundToNearestTick_binary64_of_pos x t ht]
  cases t with
  | nan => rw [F64.mul_nan, F64.mul_nan]
  | inf st =>
    have hst : st = false := by
      cases st with
      | true => exact absurd ht (by decide)
      | false => rfl
    subst hst
    rw [F64.tick_inf, F64.tick_inf]
  | fin st mt et =>
    obtain ⟨hst, hmt⟩ := F64.pos_of_not_le st mt et ht
    subst hst
    have het := hexp false mt et rfl
    have hxor : ∀ s : Bool, xor s false = s := by intro s; cases s <;> rfl
    have hzero : ∀ (s : Bool) (e : Int),
        F64.mul (F64.round (F64.div (F64.fin s 0 e) (F64.fin false mt et))) (F64.fin false mt et) =
          F64.fin s 0 0 := by
      intro s e
      rw [F64.div_zero_fin s false mt e et hmt.ne', F64.round_of_nonneg _ _ _ (le_refl 0),
        F64.mul_zero_fin, hxor, hxor]
    have hinf : ∀ s : Bool,
        F64.mul (F64.round (F64.div (F64.inf s) (F64.fin false mt et))) (F64.fin false mt et) =
          F64.inf s := by
      intro s
      simp only [F64.div, F64.round, F64.mul, hxor, hmt.ne', if_false]
    cases x with
    | nan => simp only [F64.div, F64.round, F64.mul]
    | inf s => rw [hinf, hinf]
    | fin s m e =>
      rcases Nat.eq_zero_or_pos m with hm | hm
      · subst hm
        rw [hzero, hzero]
      · obtain ⟨n, d, hd, hdiv, hval⟩ := F64.div_fin s false m mt e et hmt.ne'
        rw [hxor] at hdiv
        have hQ : (0 : ℚ) < (n : ℚ) / d := by
          rw [hval]
          have h1 : (0 : ℚ) < m := by exact_mod_cast hm
          have h3 : (0 : ℚ) < mt := by exact_mod_cast hmt
          have h4 : (0 : ℚ) < (2 : ℚ) ^ e := zpow_pos (by norm_num) _
          have h5 : (0 : ℚ) < (2 : ℚ) ^ et := zpow_pos (by norm_num) _
          positivity
        have hn : 0 < n := by
          rcases Nat.eq_zero_or_pos n with h | h
          · rw [h] at hQ; simp at hQ
          · exact h
        rw [hdiv] at hticks ⊢
        rcases F64.ofFrac_spec s n d hn hd with
          ⟨hqi, _⟩ | ⟨m1, e1, hqf, he1, hnear, hlow, hup, _⟩
        · rw [hqi]
          have hr : F64.round (F64.inf s) = F64.inf s := rfl
          have hm2 : F64.mul (F64.inf s) (F64.fin false mt et) = F64.inf s := by
            simp only [F64.mul, hxor, hmt.ne', if_false]
          rw [hr, hm2, hinf]
        · rw [hqf] at hticks ⊢
          by_cases hneg : e1 < 0
          · rw [F64.round_of_neg s m1 e1 hneg] at hticks ⊢
            have hk := hticks s _ 0 rfl
            rw [Int.toNat_zero, pow_zero, mul_one] at hk
            rcases Nat.eq_zero_or_pos (nearestAway m1 (2 ^ (-e1).toNat)) with hk0 | hk0
            · rw [hk0, F64.mul_zero_fin, hxor, hzero]
            · exact F64.second_pass s _ mt et hk0 hk hmt het
          · exfalso
            have he0 : 0 ≤ e1 := by omega
            rw [F64.round_of_nonneg s m1 e1 he0] at hticks
            have hk := hticks s m1 e1 rfl
            have hlow' : (2 : ℚ) ^ (e1 + 52) ≤ (n : ℚ) / d := by
              rcases hlow with h | h
              · omega
              · exact h
            have hm1 := F64.significand_ge m1 e1 _ hnear hlow'
            have hp : 1 ≤ 2 ^ e1.toNat := Nat.one_le_two_pow
            have : 2 ^ 52 ≤ m1 * 2 ^ e1.toNat := by
              calc 2 ^ 52 ≤ m1 := hm1
                _ = m1 * 1 := (Nat.mul_one m1).symm
                _ ≤ m1 * 2 ^ e1.toNat := Nat.mul_le_mul_left m1 hp
            omega

/-! ### Tick rounding -/

theorem roundToNearestTick_exact_of_pos (x t : ℚ) (ht : 0 < t) :
    roundToNearestTick exact x t = roundExact (x / t) * t := by
  unfold roundToNearestTick
  simp [exact, not_le.mpr ht]

/-- On exact numbers `math.Round` is `⌊x + 1/2⌋` from zero upwards and `⌈x - 1/2⌉`
below zero. -/
theorem roundExact_eq (x : ℚ) :
    roundExact x = if 0 ≤ x then ((⌊x + 1 / 2⌋ : ℤ) : ℚ) else ((⌈x - 1 / 2⌉ : ℤ) : ℚ) := by
  unfold roundExact truncExact
  by_cases hx : 0 ≤ x
  · simp only [hx, if_true]
    have h1 : ((⌊x⌋ : ℤ) : ℚ) ≤ x := Int.floor_le x
    have h2 : x < ((⌊x⌋ : ℤ) : ℚ) + 1 := Int.lt_floor_add_one x
    rw [abs_of_nonneg (by linarith)]
    by_cases hh : 1 / 2 ≤ x - ((⌊x⌋ : ℤ) : ℚ)
    · rw [if_pos hh]
      have : ⌊x + 1 / 2⌋ = ⌊x⌋ + 1 := by
        rw [Int.floor_eq_iff]
        push_cast
        constructor <;> linarith
      rw [this]; push_cast; ring
    · rw [if_neg hh]
      have : ⌊x + 1 / 2⌋ = ⌊x⌋ := by
        rw [Int.floor_eq_iff]
        constructor <;> linarith
      rw [this]
  · simp only [hx, if_false]
    have h1 : x ≤ ((⌈x⌉ : ℤ) : ℚ) := Int.le_ceil x
    have h2 : ((⌈x⌉ : ℤ) : ℚ) < x + 1 := Int.ceil_lt_add_one x
    rw [abs_of_nonpos (by linarith)]
    by_cases hh : 1 / 2 ≤ -(x - ((⌈x⌉ : ℤ) : ℚ))
    · rw [if_pos hh]
      have : ⌈x - 1 / 2⌉ = ⌈x⌉ - 1 := by
        rw [Int.ceil_eq_iff]
        push_cast
        constructor <;> linarith
      rw [this]; push_cast; ring
    · rw [if_neg hh]
      have : ⌈x - 1 / 2⌉ = ⌈x⌉ := by
        rw [Int.ceil_eq_iff]
        constructor <;> linarith
      rw [this]

/-- The result of `math.Round` on an exact number is an integer at distance at most
one half. -/
theorem roundExact_near (x : ℚ) : ∃ k : ℤ, roundExact x = k ∧ |(k : ℚ) - x| ≤ 1 / 2 := by
  rw [roundExact_eq]
  by_cases hx : 0 ≤ x
  · refine ⟨⌊x + 1 / 2⌋, by rw [if_pos hx], ?_⟩
    have h1 : ((⌊x + 1 / 2⌋ : ℤ) : ℚ) ≤ x + 1 / 2 := Int.floor_le _
    have h2 : x + 1 / 2 < ((⌊x + 1 / 2⌋ : ℤ) : ℚ) + 1 := Int.lt_floor_add_one _
    rw [abs_le]
    constructor <;> linarith
  · refine ⟨⌈x - 1 / 2⌉, by rw [if_neg hx], ?_⟩
    have h1 : x - 1 / 2 ≤ ((⌈x - 1 / 2⌉ : ℤ) : ℚ) := Int.le_ceil _
    have h2 : ((⌈x - 1 / 2⌉ : ℤ) : ℚ) < x - 1 / 2 + 1 := Int.ceil_lt_add_one _
    rw [abs_le]
    constructor <;> linarith

/-- On exact numbers `math.Round` leaves an integer as it is. -/
theorem roundExact_intCast (k : ℤ) : roundExact (k : ℚ) = k := by
  rw [roundExact_eq]
  by_cases hk : (0 : ℚ) ≤ k
  · rw [if_pos hk]
    have : ⌊(k : ℚ) + 1 / 2⌋ = k := by
      rw [Int.floor_eq_iff]
      constructor <;> linarith
    rw [this]
  · rw [if_neg hk]
    have : ⌈(k : ℚ) - 1 / 2⌉ = k := by
      rw [Int.ceil_eq_iff]
      constructor <;> linarith
    rw [this]

/-- In exact arithmetic the result of tick rounding is an integer number of ticks,
at most half a tick away from the size. -/
theorem roundToNearestTick_exact_near (x t : ℚ) (ht : 0 < t) :
    ∃ k : ℤ, roundToNearestTick exact x t = k * t ∧ |(k : ℚ) * t - x| ≤ t / 2 := by
  obtain ⟨k, hk, hnear⟩ := roundExact_near (x / t)
  refine ⟨k, by rw [roundToNearestTick_exact_of_pos x t ht, hk], ?_⟩
  have hx : x = x / t * t := by field_simp
  have : (k : ℚ) * t - x = ((k : ℚ) - x / t) * t := by rw [sub_mul, ← hx]
  rw [this, abs_mul, abs_of_pos ht]
  calc |(k : ℚ) - x / t| * t ≤ 1 / 2 * t := mul_le_mul_of_nonneg_right hnear ht.le
    _ = t / 2 := by ring

/-- In exact arithmetic, for every size `x` and every tick `t > 0`, rounding a rounded
size again to the same tick returns it unchanged. -/
theorem roundToNearestTick_exact_idempotent (x t : ℚ) (ht : 0 < t) :
    roundToNearestTick exact (roundToNearestTick exact x t) t = roundToNearestTick exact x t := by
  obtain ⟨k, hk, _⟩ := roundToNearestTick_exact_near x t ht
  rw [hk, roundToNearestTick_exact_of_pos _ t ht]
  have : (k : ℚ) * t / t = k := by field_simp
  rw [this, roundExact_intCast]

/-- A `float64` that is not NaN compares `==` to itself. -/
theorem F64.eq_self (y : F64) (h : y ≠ F64.nan) : F64.eq y y = true := by
  cases y with
  | nan => exact absurd rfl h
  | inf s => cases s <;> rfl
  | fin s m e => simp [F64.eq]

/-- C7, as amended: in `float64`, the arithmetic of the code, tick rounding is
idempotent as long as the number of ticks is below `2 ^ 51`. For every size `x` and
every tick `t` that does not compare `<= 0` (a finite tick having an exponent of at
least `-1074`, as every `float64` has), if the magnitude of the number of ticks
`math.Round(x / t)` is below `2 ^ 51`, then
`roundToNearestTick(roundToNearestTick(x, t), t)` is the same `float64` as
`roundToNearestTick(x, t)`, and the two compare `==` unless they are NaN. In exact
arithmetic the same holds for every size and every tick `t > 0`. -/
theorem C7_rounding_idempotent_below_2_51_ticks (x t : F64)
    (ht : F64.le t (F64.fin false 0 0) = false)
    (hexp : ∀ s m e, t = F64.fin s m e → -1074 ≤ e)
    (hticks : ∀ s m e, F64.round (F64.div x t) = F64.fin s m e → m * 2 ^ e.toNat < 2 ^ 51) :
    roundToNearestTick binary64 (roundToNearestTick binary64 x t) t =
        roundToNearestTick binary64 x t ∧
      (roundToNearestTick binary64 x t ≠ F64.nan →
        F64.eq (roundToNearestTick binary64 (roundToNearestTick binary64 x t) t)
          (roundToNearestTick binary64 x t) = true) ∧
      (∀ x2 t2 : ℚ, 0 < t2 →
        roundToNearestTick exact (roundToNearestTick exact x2 t2) t2 =
          roundToNearestTick exact x2 t2) := by
  have h := roundToNearestTick_binary64_idempotent x t ht hexp hticks
  refine ⟨h, ?_, roundToNearestTick_exact_idempotent⟩
  intro hn
  rw [h]
  exact F64.eq_self _ hn

/-- The theorem of C7 in `float64` at the size `0.37` and the tick `0.1`: the number
of ticks is `4`, the result is the `float64` nearest to `0.4`, and rounding it again
returns it. -/
theorem C7_witness :
    F64.le (binary64.ofDecimal (1 / 10)) (F64.fin false 0 0) = false ∧
      F64.round (F64.div (binary64.ofDecimal (37 / 100)) (binary64.ofDecimal (1 / 10))) =
        F64.fin false 4 0 ∧
      roundToNearestTick binary64 (binary64.ofDecimal (37 / 100)) (binary64.ofDecimal (1 / 10)) =
        F64.fin false 7205759403792794 (-54) ∧
      roundToNearestTick binary64
          (roundToNearestTick binary64 (binary64.ofDecimal (37 / 100))
            (binary64.ofDecimal (1 / 10)))
          (binary64.ofDecimal (1 / 10)) =
        roundToNearestTick binary64 (binary64.ofDecimal (37 / 100))
          (binary64.ofDecimal (1 / 10)) := by
  have ht : binary64.ofDecimal (1 / 10) = F64.fin false 7205759403792794 (-56) := by decide!
  have hr : F64.round (F64.div (binary64.ofDecimal (37 / 100)) (binary64.ofDecimal (1 / 10))) =
      F64.fin false 4 0 := by decide!
  refine ⟨by decide!, hr, by decide!, ?_⟩
  refine (C7_rounding_idempotent_below_2_51_ticks (binary64.ofDecimal (37 / 100))
    (binary64.ofDecimal (1 / 10)) (by decide!) ?_ ?_).1
  · intro s m e h
    rw [ht] at h
    injection h with _ _ he
    rw [← he]
    decide
  · intro s m e h
    rw [hr] at h
    injection h with _ hm he
    rw [← hm, ← he]
    decide

/-- C7 fails in `float64`: for `x = 9007199254740998` and `t = 3` (both exact
doubles, `t > 0`) the first rounding gives `9007199254741000` and rounding that
again gives `9007199254741002`, which `==` tells apart. -/
theorem C7_counterexample :
    binary64.le (F64.fin false 3 0) (binary64.ofDecimal 0) = false ∧
    roundToNearestTick binary64 (F64.fin false 9007199254740998 0) (F64.fin false 3 0) =
      F64.fin false 4503599627370500 1 ∧
    roundToNearestTick binary64
      (roundToNearestTick binary64 (F64.fin false 9007199254740998 0) (F64.fin false 3 0))
      (F64.fin false 3 0) = F64.fin false 4503599627370501 1 ∧
    F64.eq
      (roundToNearestTick binary64
        (roundToNearestTick binary64 (F64.fin false 9007199254740998 0) (F64.fin false 3 0))
        (F64.fin false 3 0))
      (roundToNearestTick binary64 (F64.fin false 9007199254740998 0) (F64.fin false 3 0)) =
      false := by
  decide!

theorem roundToNearestTick_of_le {α : Type} (A : Arith α) (size tick : α)
    (h : A.le tick (A.ofDecimal 0) = true) : roundToNearestTick A size tick = size := by
  unfold roundToNearestTick
  rw [if_pos h]

/-- C8: for every size and every tick with `tick <= 0`, `roundToNearestTick` returns
the size itself, in exact arithmetic and in `float64` (where the size may also be
NaN or infinite and the tick may be `-0`). -/
theorem C8_nonpositive_tick_returns_size :
    (∀ x t : ℚ, t ≤ 0 → roundToNearestTick exact x t = x) ∧
    (∀ x t : F64, F64.le t (F64.fin false 0 0) = true → roundToNearestTick binary64 x t = x) := by
  constructor
  · intro x t ht
    exact roundToNearestTick_of_le exact x t (by simpa [exact] using ht)
  · intro x t ht
    have h0 : binary64.ofDecimal 0 = F64.fin false 0 0 := by decide!
    exact roundToNearestTick_of_le binary64 x t (by rw [h0]; exact ht)

/-- C8 at the ticks `0` and `-1/10` in exact arithmetic, and at the ticks `0`, `-0`
and `-3` in `float64`. -/
theorem C8_witness :
    roundToNearestTick exact (37 / 100) 0 = 37 / 100 ∧
    roundToNearestTick exact (37 / 100) (-1 / 10) = 37 / 100 ∧
    roundToNearestTick binary64 (F64.fin false 5 (-1)) (F64.fin false 0 0) =
      F64.fin false 5 (-1) ∧
    roundToNearestTick binary64 (F64.fin false 5 (-1)) (F64.fin true 0 0) =
      F64.fin false 5 (-1) ∧
    roundToNearestTick binary64 F64.nan (F64.fin true 3 0) = F64.nan :=
  ⟨C8_nonpositive_tick_returns_size.1 _ _ (le_refl _),
    C8_nonpositive_tick_returns_size.1 _ _ (by norm_num),
    C8_nonpositive_tick_returns_size.2 _ _ (by decide),
    C8_nonpositive_tick_returns_size.2 _ _ (by decide),
    C8_nonpositive_tick_returns_size.2 _ _ (by decide)⟩

/-- C9: in exact rational arithmetic, for every size `x` and every tick `t > 0` the
result of `roundToNearestTick` is `k * t` for an integer `k`, lies at most `t / 2`
from `x`, and no integer multiple of `t` is nearer to `x`. -/
theorem C9_exact_nearest_multiple (x t : ℚ) (ht : 0 < t) :
    ∃ k : ℤ, roundToNearestTick exact x t = k * t ∧
      |roundToNearestTick exact x t - x| ≤ t / 2 ∧
      ∀ j : ℤ, |roundToNearestTick exact x t - x| ≤ |(j : ℚ) * t - x| := by
  obtain ⟨k, hk, hnear⟩ := roundToNearestTick_exact_near x t ht
  refine ⟨k, hk, by rw [hk]; exact hnear, fun j => ?_⟩
  rw [hk]
  by_cases hjk : j = k
  · rw [hjk]
  · have h1 : (1 : ℚ) ≤ |(j : ℚ) - k| := by
      have : (1 : ℤ) ≤ |j - k| := Int.one_le_abs (sub_ne_zero.mpr hjk)
      exact_mod_cast this
    have h2 : |((j : ℚ) - k) * t| = |(j : ℚ) - k| * t := by rw [abs_mul, abs_of_pos ht]
    have h3 : ((j : ℚ) - k) * t = ((j : ℚ) * t - x) - ((k : ℚ) * t - x) := by ring
    have h4 : |((j : ℚ) * t - x) - ((k : ℚ) * t - x)| ≤ |(j : ℚ) * t - x| + |(k : ℚ) * t - x| :=
      abs_sub _ _
    have h5 : t ≤ |(j : ℚ) - k| * t := by
      calc t = 1 * t := (one_mul t).symm
        _ ≤ |(j : ℚ) - k| * t := mul_le_mul_of_nonneg_right h1 ht.le
    rw [← h3, h2] at h4
    linarith

/-- C9 at `x = 0.37`, `t = 0.1`. -/
theorem C9_witness :
    ∃ k : ℤ, roundToNearestTick exact (37 / 100) (1 / 10) = k * (1 / 10) ∧
      |roundToNearestTick exact (37 / 100) (1 / 10) - 37 / 100| ≤ 1 / 10 / 2 ∧
      ∀ j : ℤ, |roundToNearestTick exact (37 / 100) (1 / 10) - 37 / 100| ≤
        |(j : ℚ) * (1 / 10) - 37 / 100| :=
  C9_exact_nearest_multiple (37 / 100) (1 / 10) (by norm_num)

/-- The function `math.Round` on a `float64` with value `k + 1/2`, of either sign:
the result has magnitude `k + 1`. -/
theorem F64_round_half (s : Bool) (m n k : Nat) (h : 2 * m = (2 * k + 1) * 2 ^ (n + 1)) :
    F64.round (F64.fin s m (Int.negSucc n)) = F64.fin s (k + 1) 0 := by
  have hm : m = 2 ^ (n + 1) * k + 2 ^ n := by
    have : 2 ^ (n + 1) = 2 * 2 ^ n := by ring
    rw [this] at h ⊢
    have h' : 2 * m = 2 * (2 * 2 ^ n * k + 2 ^ n) := by rw [h]; ring
    exact Nat.eq_of_mul_eq_mul_left (by norm_num) h'
  have hpos : 0 < 2 ^ (n + 1) := Nat.pow_pos (by norm_num)
  have hlt : 2 ^ n < 2 ^ (n + 1) := Nat.pow_lt_pow_right (by norm_num) (Nat.lt_succ_self n)
  have hdiv : m / 2 ^ (n + 1) = k := by
    rw [hm, Nat.mul_add_div hpos, Nat.div_eq_of_lt hlt, Nat.add_zero]
  have hmod : m % 2 ^ (n + 1) = 2 ^ n := by
    rw [hm, Nat.mul_add_mod, Nat.mod_eq_of_lt hlt]
  have hneg : ¬ (0 : Int) ≤ Int.negSucc n := by
    have := Int.negSucc_lt_zero n
    omega
  unfold F64.round
  simp only [hneg, if_false]
  have hn : (-Int.negSucc n).toNat = n + 1 := rfl
  rw [hn, hdiv, hmod]
  have : 2 ^ (n + 1) ≤ 2 * 2 ^ n := by
    have : 2 ^ (n + 1) = 2 * 2 ^ n := by ring
    omega
  rw [if_pos this]

/-- The function `math.Round` of the model on a value `j + 1/2` of either sign: the
result has magnitude `j + 1`. -/
theorem F64.round_half (s : Bool) (m : Nat) (e : Int) (j : Nat)
    (h : (m : ℚ) * (2 : ℚ) ^ e = j + 1 / 2) :
    F64.round (F64.fin s m e) = F64.fin s (j + 1) 0 := by
  by_cases he : 0 ≤ e
  · exfalso
    rw [← cast_two_pow_toNat e he] at h
    have h2 : ((2 * (m * 2 ^ e.toNat) : Nat) : ℚ) = ((2 * j + 1 : Nat) : ℚ) := by
      push_cast at h ⊢
      linarith
    have h3 : 2 * (m * 2 ^ e.toNat) = 2 * j + 1 := by exact_mod_cast h2
    omega
  · have hd : 0 < 2 ^ (-e).toNat := Nat.pow_pos (by norm_num)
    have hval : (m : ℚ) * (2 : ℚ) ^ e = (m : ℚ) / ((2 ^ (-e).toNat : Nat) : ℚ) := by
      rw [cast_two_pow_toNat (-e) (by omega), zpow_neg, div_eq_mul_inv, inv_inv]
    rw [hval] at h
    rw [F64.round_of_neg s m e (by omega), nearestAway_half m _ j hd h]

/-- C10: for every size `x` and every tick `t > 0`, `roundToNearestTick` returns
`r (x / t) * t` where `r` is `math.Round`, which rounds to a nearest integer and
takes a halfway case away from zero. In exact arithmetic a quotient `k + 1/2` gives
`(k + 1) * t` and a quotient `-(k + 1/2)` gives `-(k + 1) * t`. In `float64` the
result is the rounded product of the tick and `math.Round` of the rounded quotient;
`math.Round` keeps NaN, the infinities and the sign, returns an integer at most one
half from its argument, and sends a value `j + 1/2` of either sign to magnitude
`j + 1`, so that a quotient `j + 1/2` of either sign gives the rounded product of
`j + 1`, with that sign, and the tick. -/
theorem C10_round_half_away_from_zero :
    (∀ x t : ℚ, 0 < t →
      roundToNearestTick exact x t = roundExact (x / t) * t ∧
      (∃ n : ℤ, roundExact (x / t) = n ∧ |(n : ℚ) - x / t| ≤ 1 / 2) ∧
      (∀ k : ℕ, x / t = k + 1 / 2 → roundToNearestTick exact x t = (k + 1) * t) ∧
      (∀ k : ℕ, x / t = -(k + 1 / 2) → roundToNearestTick exact x t = -(k + 1) * t)) ∧
    (∀ x t : F64, F64.le t (F64.fin false 0 0) = false →
      roundToNearestTick binary64 x t = F64.mul (F64.round (F64.div x t)) t) ∧
    (∀ (s : Bool) (m n k : Nat), 2 * m = (2 * k + 1) * 2 ^ (n + 1) →
      F64.round (F64.fin s m (Int.negSucc n)) = F64.fin s (k + 1) 0) ∧
    (F64.round F64.nan = F64.nan ∧ ∀ s : Bool, F64.round (F64.inf s) = F64.inf s) ∧
    (∀ (s : Bool) (m : Nat) (e : Int),
      ∃ m2 e2, F64.round (F64.fin s m e) = F64.fin s m2 e2 ∧
        (∃ K : Nat, (m2 : ℚ) * (2 : ℚ) ^ e2 = K) ∧
        |(m2 : ℚ) * (2 : ℚ) ^ e2 - (m : ℚ) * (2 : ℚ) ^ e| ≤ 1 / 2 ∧
        (∀ j : Nat, (m : ℚ) * (2 : ℚ) ^ e = j + 1 / 2 →
          F64.round (F64.fin s m e) = F64.fin s (j + 1) 0)) ∧
    (∀ (x t : F64) (s : Bool) (m : Nat) (e : Int) (j : Nat),
      F64.le t (F64.fin false 0 0) = false → F64.div x t = F64.fin s m e →
      (m : ℚ) * (2 : ℚ) ^ e = j + 1 / 2 →
      roundToNearestTick binary64 x t = F64.mul (F64.fin s (j + 1) 0) t) := by
  refine ⟨fun x t ht => ⟨roundToNearestTick_exact_of_pos x t ht, roundExact_near (x / t),
    fun k hk => ?_, fun k hk => ?_⟩, roundToNearestTick_binary64_of_pos, F64_round_half,
    ⟨rfl, fun _ => rfl⟩, fun s m e => ?_, fun x t s m e j ht hdiv hj => ?_⟩
  · rw [roundToNearestTick_exact_of_pos x t ht, hk, roundExact_eq]
    have h0 : (0 : ℚ) ≤ (k : ℚ) + 1 / 2 := by positivity
    rw [if_pos h0]
    have : ⌊(k : ℚ) + 1 / 2 + 1 / 2⌋ = (k : ℤ) + 1 := by
      rw [Int.floor_eq_iff]
      push_cast
      constructor <;> linarith
    rw [this]; push_cast; ring
  · rw [roundToNearestTick_exact_of_pos x t ht, hk, roundExact_eq]
    have hk0 : (0 : ℚ) ≤ (k : ℚ) := Nat.cast_nonneg k
    have h0 : ¬ (0 : ℚ) ≤ -((k : ℚ) + 1 / 2) := by
      intro h; linarith
    rw [if_neg h0]
    have : ⌈-((k : ℚ) + 1 / 2) - 1 / 2⌉ = -((k : ℤ) + 1) := by
      rw [Int.ceil_eq_iff]
      push_cast
      constructor <;> linarith
    rw [this]; push_cast; ring
  · obtain ⟨m2, e2, hr, hK, hnear, _⟩ := F64.round_fin_nearest s m e
    exact ⟨m2, e2, hr, hK, hnear, fun j hj => F64.round_half s m e j hj⟩
  · rw [roundToNearestTick_binary64_of_pos x t ht, hdiv, F64.round_half s m e j hj]

/-- C10 at the sizes `2.5` and `-2.5` with tick `1`: the results are `3` and `-3`, in
exact arithmetic and in `float64` (`2.5 = 5 * 2 ^ (-1)`). -/
theorem C10_witness :
    roundToNearestTick exact (5 / 2) 1 = 3 ∧
    roundToNearestTick exact (-5 / 2) 1 = -3 ∧
    roundToNearestTick binary64 (F64.fin false 5 (-1)) (F64.fin false 1 0) =
      F64.fin false 6755399441055744 (-51) ∧
    F64.eq (F64.fin false 6755399441055744 (-51)) (F64.fin false 3 0) = true ∧
    roundToNearestTick binary64 (F64.fin true 5 (-1)) (F64.fin false 1 0) =
      F64.fin true 6755399441055744 (-51) ∧
    F64.eq (F64.fin true 6755399441055744 (-51)) (F64.fin true 3 0) = true := by
  refine ⟨?_, ?_, by decide!, by decide, by decide!, by decide⟩
  · have h := (C10_round_half_away_from_zero.1 (5 / 2) 1 (by norm_num)).2.2.1 2 (by norm_num)
    rw [h]; norm_num
  · have h := (C10_round_half_away_from_zero.1 (-5 / 2) 1 (by norm_num)).2.2.2 2 (by norm_num)
    rw [h]; norm_num

/-! ### The dispatcher -/

/-- The first piece of `strings.Split` is the part before the first separator. -/
theorem splitChars_head (sep : Char) (cs : List Char) :
    ∃ ps, splitChars sep cs = cs.takeWhile (fun c => c ≠ sep) :: ps := by
  induction cs with
  | nil => exact ⟨[], rfl⟩
  | cons c cs ih =>
    obtain ⟨ps, hps⟩ := ih
    by_cases hc : c = sep
    · exact ⟨splitChars sep cs, by simp [splitChars, hc]⟩
    · exact ⟨ps, by simp [splitChars, hc, hps]⟩

theorem stringsSplit_zero (ws : String) (sep : Char) :
    (stringsSplit ws sep)[0]? = some (String.mk (ws.data.takeWhile (fun c => c ≠ sep))) := by
  obtain ⟨ps, hps⟩ := splitChars_head sep ws.data
  simp [stringsSplit, hps]

/-- A list that contains `sep` is the part before the first `sep`, which is free of
`sep`, then `sep`, then a rest. -/
theorem takeWhile_ne_split (sep : Char) (cs : List Char) (h : sep ∈ cs) :
    ∃ rest, cs = cs.takeWhile (fun c => c ≠ sep) ++ sep :: rest ∧
      sep ∉ cs.takeWhile (fun c => c ≠ sep) := by
  induction cs with
  | nil => simp at h
  | cons c cs ih =>
    by_cases hc : c = sep
    · exact ⟨cs, by simp [hc]⟩
    · have hmem : sep ∈ cs := by
        rcases List.mem_cons.mp h with h1 | h1
        · exact absurd h1.symm hc
        · exact h1
      obtain ⟨rest, h1, h2⟩ := ih hmem
      refine ⟨rest, ?_, ?_⟩
      · simp only [List.takeWhile_cons, ne_eq, hc, not_false_eq_true, decide_True, if_true,
          List.cons_append]
        rw [← h1]
      · simp only [List.takeWhile_cons, ne_eq, hc, not_false_eq_true, decide_True, if_true,
          List.mem_cons, not_or]
        exact ⟨fun h3 => hc h3.symm, h2⟩

/-- The method `handleData` in terms of the routing key: a channel name without a
routing key is dropped, the others go to the `switch`. -/
theorem handleData_eq (dec : Decoders) (wd : WatchDog) (data : EventData)
    (display : List String) :
    handleData dec wd data display =
      match routingKey data.WsChannel with
      | none => ([], some wd)
      | some channel => dispatchChannel dec wd data display channel := by
  unfold handleData routingKey stringsContains
  by_cases hat : '@' ∈ data.WsChannel.data
  · simp [hat, stringsSplit_zero]
  · by_cases hcol : ':' ∈ data.WsChannel.data
    · simp [hat, hcol, stringsSplit_zero]
    · simp [hat, hcol]

/-- The part before the first `sep` of `pre ++ sep :: rest`, with `pre` free of `sep`,
is `pre`. -/
theorem takeWhile_ne_append (sep : Char) (pre rest : List Char) (h : sep ∉ pre) :
    (pre ++ sep :: rest).takeWhile (fun c => c ≠ sep) = pre := by
  induction pre with
  | nil => simp
  | cons c pre ih =>
    have hc : c ≠ sep := fun h1 => h (h1 ▸ List.mem_cons_self _ _)
    have hp : sep ∉ pre := fun h1 => h (List.mem_cons_of_mem _ h1)
    have ih2 := ih hp
    simp only [List.cons_append, List.takeWhile_cons, ne_eq, hc, not_false_eq_true,
      decide_True, if_true]
    rw [ih2]

/-- C11: for every channel name, when the name contains `@` the routing key of
`handleData` is the part before the first `@`, whether or not `:` occurs; otherwise,
when it contains `:`, the part before the first `:`; otherwise the envelope is
dropped: no handler or decoder is invoked and the watchdog is unchanged. A name that
contains the separator does split into a part free of it, the separator and a rest. -/
theorem C11_routing_key (dec : Decoders) (wd : WatchDog) (data : EventData)
    (display : List String) :
    (∀ pre rest, data.WsChannel.data = pre ++ '@' :: rest → '@' ∉ pre →
      handleData dec wd data display = dispatchChannel dec wd data display (String.mk pre)) ∧
    (∀ pre rest, '@' ∉ data.WsChannel.data → data.WsChannel.data = pre ++ ':' :: rest →
      ':' ∉ pre →
      handleData dec wd data display = dispatchChannel dec wd data display (String.mk pre)) ∧
    ('@' ∉ data.WsChannel.data → ':' ∉ data.WsChannel.data →
      handleData dec wd data display = ([], some wd)) ∧
    (∀ sep, sep ∈ data.WsChannel.data →
      ∃ pre rest, data.WsChannel.data = pre ++ sep :: rest ∧ sep ∉ pre) := by
  refine ⟨fun pre rest h1 h2 => ?_, fun pre rest hat h1 h2 => ?_, fun hat hcol => ?_,
    fun sep hsep => ?_⟩
  · have hat : '@' ∈ data.WsChannel.data := by rw [h1]; simp
    rw [handleData_eq]
    simp only [routingKey, hat, if_true]
    rw [h1, takeWhile_ne_append '@' pre rest h2]
  · have hcol : ':' ∈ data.WsChannel.data := by rw [h1]; simp
    rw [handleData_eq]
    simp only [routingKey, hat, hcol, if_true, if_false]
    rw [h1, takeWhile_ne_append ':' pre rest h2]
  · rw [handleData_eq]
    simp [routingKey, hat, hcol]
  · obtain ⟨rest, h1, h2⟩ := takeWhile_ne_split sep data.WsChannel.data hsep
    exact ⟨_, rest, h1, h2⟩

/-- C11 at the channel names `account@7:x` (key `account`, though `:` occurs),
`market:ETH-USD` (key `market`) and `heartbeat` (dropped). -/
theorem C11_witness :
    handleData sampleDecoders wdFive ⟨"account@7:x", scenarioPayload⟩ [] =
      dispatchChannel sampleDecoders wdFive ⟨"account@7:x", scenarioPayload⟩ [] "account" ∧
    handleData sampleDecoders wdFive ⟨"market:ETH-USD", zeroQuotePayload⟩ [] =
      dispatchChannel sampleDecoders wdFive ⟨"market:ETH-USD", zeroQuotePayload⟩ [] "market" ∧
    handleData sampleDecoders wdFive ⟨"heartbeat", []⟩ [] = ([], some wdFive) :=
  ⟨(C11_routing_key sampleDecoders wdFive ⟨"account@7:x", scenarioPayload⟩ []).1
      "account".data "7:x".data (by decide) (by decide),
    (C11_routing_key sampleDecoders wdFive ⟨"market:ETH-USD", zeroQuotePayload⟩ []).2.1
      "market".data "ETH-USD".data (by decide) (by decide) (by decide),
    (C11_routing_key sampleDecoders wdFive ⟨"heartbeat", []⟩ []).2.2.1
      (by decide) (by decide)⟩

theorem dispatchChannel_market (dec : Decoders) (wd : WatchDog) (data : EventData)
    (display : List String) :
    dispatchChannel dec wd data display "market" =
      ([Handler.market],
        some (handleMarketData dec.market wd data (decide ("market" ∈ display)))) := by
  simp [dispatchChannel]

theorem dispatchChannel_account (dec : Decoders) (wd : WatchDog) (data : EventData)
    (display : List String) :
    dispatchChannel dec wd data display "account" =
      ([Handler.account],
        handleAccountData dec.account wd data (decide ("account" ∈ display))) := by
  simp [dispatchChannel]

/-- A routing key other than `market` and `account` leaves the watchdog as it is. -/
theorem dispatchChannel_other (dec : Decoders) (wd : WatchDog) (data : EventData)
    (display : List String) (channel : String) (hm : channel ≠ "market")
    (ha : channel ≠ "account") : (dispatchChannel dec wd data display channel).2 = some wd := by
  unfold dispatchChannel
  simp only [hm, ha, if_false]
  split_ifs <;> rfl

/-- The loop of `handleAccountData` completes exactly when `accountLoop` does, in the
state that `accountLoop` reaches. -/
theorem foldlM_account_eq_loop (L : List (Option OrderData)) (wd : WatchDog) :
    L.foldlM
      (fun w o =>
        match o with
        | none => none
        | some order => some { w with orders := w.orders.insert order.OrderId order.Status })
      wd = if (accountLoop L wd).2 then some (accountLoop L wd).1 else none := by
  induction L generalizing wd with
  | nil => rfl
  | cons o rest ih =>
    cases o with
    | none => rfl
    | some order =>
      simp only [List.foldlM_cons, Option.some_bind, Option.bind_eq_bind]
      rw [ih]
      rfl

/-- The loop of `handleAccountData` stops at a nil order exactly when there is one. -/
theorem accountLoop_completes_iff (L : List (Option OrderData)) (wd : WatchDog) :
    (accountLoop L wd).2 = true ↔ none ∉ L := by
  induction L generalizing wd with
  | nil => simp [accountLoop]
  | cons o rest ih =>
    cases o with
    | none => simp [accountLoop]
    | some order =>
      have := ih (accountStep wd order)
      simp only [accountLoop, List.mem_cons, not_or]
      rw [this]
      simp

/-- Every state that the loop of `handleAccountData` reaches, the one at a panic
included, holds every id that was present before. -/
theorem mem_accountLoop (L : List (Option OrderData)) (wd : WatchDog) (id : String)
    (h : id ∈ wd.orders) : id ∈ (accountLoop L wd).1.orders := by
  induction L generalizing wd with
  | nil => exact h
  | cons o rest ih =>
    cases o with
    | none => exact h
    | some order =>
      apply ih
      unfold accountStep
      exact (AList.mem_insert _).mpr (Or.inr h)

theorem handleAccountData_decode_error (unmarshal : Unmarshal ProfileData) (wd : WatchDog)
    (data : EventData) (doShow : Bool) (h : unmarshal data.Data = none) :
    handleAccountData unmarshal wd data doShow = some wd := by
  unfold handleAccountData
  rw [decodeAndPrintData_eq, h]

theorem handleAccountData_decoded (unmarshal : Unmarshal ProfileData) (wd : WatchDog)
    (data : EventData) (doShow : Bool) (res : ProfileData) (h : unmarshal data.Data = some res) :
    handleAccountData unmarshal wd data doShow =
      if (accountLoop res.Orders wd).2 then some (accountLoop res.Orders wd).1 else none := by
  unfold handleAccountData
  rw [decodeAndPrintData_eq, h]
  exact foldlM_account_eq_loop res.Orders wd

theorem handleMarketData_decode_error (unmarshal : Unmarshal MarketData) (wd : WatchDog)
    (data : EventData) (doShow : Bool) (h : unmarshal data.Data = none) :
    handleMarketData unmarshal wd data doShow = wd := by
  unfold handleMarketData
  rw [decodeAndPrintData_eq, h]

/-- On an account event that decodes to orders none of which is nil,
`handleAccountData` completes; each id of the list then maps to the status of its
last occurrence, every other id keeps its entry or its absence, and the market
state is untouched. -/
theorem handleAccountData_of_orders (unmarshal : Unmarshal ProfileData) (wd : WatchDog)
    (data : EventData) (doShow : Bool) (L : List OrderData)
    (hdec : unmarshal data.Data = some { Orders := L.map some }) :
    ∃ wd2, handleAccountData unmarshal wd data doShow = some wd2 ∧
      (∀ id, wd2.orders.lookup id =
        match lastStatus L id with
        | some s => some s
        | none => wd.orders.lookup id) ∧
      wd2.bestBid = wd.bestBid ∧ wd2.bestAsk = wd.bestAsk := by
  have hfold : ∀ (L : List OrderData) (w : WatchDog),
      (L.foldl accountStep w).bestBid = w.bestBid ∧ (L.foldl accountStep w).bestAsk = w.bestAsk := by
    intro L
    induction L with
    | nil => intro w; exact ⟨rfl, rfl⟩
    | cons o rest ih => intro w; simpa [accountStep] using ih (accountStep w o)
  refine ⟨L.foldl accountStep wd, ?_, fun id => lookup_foldl_accountStep L wd id,
    (hfold L wd).1, (hfold L wd).2⟩
  unfold handleAccountData
  rw [decodeAndPrintData_eq, hdec]
  exact foldlM_account_some L wd

/-- C12 fails on a decodable account event whose order list holds `null`: with order
`1` tracked as `open`, `handleAccountData` reads `order.OrderId` through the nil
pointer and panics, so no order book results (the claim keeps `1: open`). -/
theorem C12_nil_order_panics :
    sampleAccountUnmarshal nullOrderPayload = some { Orders := [none] } ∧
    wdTracking.orders.lookup "1" = some OPEN ∧
    handleAccountData sampleAccountUnmarshal wdTracking ⟨"account@7", nullOrderPayload⟩ false =
      none :=
  ⟨by decide, by decide, by rfl⟩

/-- C13: for every envelope whose routing key is neither `market` nor `account`
(`orderbook`, `trade`, any other key, or no key at all) and every payload,
`handleData` completes and leaves the watchdog, order book and market state, as it
was. -/
theorem C13_other_channels_change_nothing (dec : Decoders) (wd : WatchDog) (data : EventData)
    (display : List String) (hm : routingKey data.WsChannel ≠ some "market")
    (ha : routingKey data.WsChannel ≠ some "account") :
    (handleData dec wd data display).2 = some wd := by
  rw [handleData_eq]
  cases hp : routingKey data.WsChannel with
  | none => rfl
  | some channel =>
    rw [hp] at hm ha
    exact dispatchChannel_other dec wd data display channel
      (fun h => hm (by rw [h])) (fun h => ha (by rw [h]))

/-- C13 at the channel names `orderbook:ETH-USD`, `trade:ETH-USD`, `funding:ETH-USD`
and `heartbeat`, each with the payload of an account event. -/
theorem C13_witness :
    (handleData sampleDecoders wdTracking ⟨"orderbook:ETH-USD", scenarioPayload⟩ ["account"]).2 =
      some wdTracking ∧
    (handleData sampleDecoders wdTracking ⟨"trade:ETH-USD", scenarioPayload⟩ ["account"]).2 =
      some wdTracking ∧
    (handleData sampleDecoders wdTracking ⟨"funding:ETH-USD", scenarioPayload⟩ ["account"]).2 =
      some wdTracking ∧
    (handleData sampleDecoders wdTracking ⟨"heartbeat", scenarioPayload⟩ ["account"]).2 =
      some wdTracking :=
  ⟨C13_other_channels_change_nothing _ _ _ _ (by decide) (by decide),
    C13_other_channels_change_nothing _ _ _ _ (by decide) (by decide),
    C13_other_channels_change_nothing _ _ _ _ (by decide) (by decide),
    C13_other_channels_change_nothing _ _ _ _ (by decide) (by decide)⟩

/-- C14: for every `market` or `account` envelope whose payload does not decode,
`handleData` invokes the handler, which discards the envelope: the call completes and
the watchdog, order book and market state, equals the one before. -/
theorem C14_decode_failure_discards (dec : Decoders) (wd : WatchDog) (data : EventData)
    (display : List String) :
    (routingKey data.WsChannel = some "market" → dec.market data.Data = none →
      handleData dec wd data display = ([Handler.market], some wd)) ∧
    (routingKey data.WsChannel = some "account" → dec.account data.Data = none →
      handleData dec wd data display = ([Handler.account], some wd)) := by
  constructor
  · intro hp hd
    rw [handleData_eq, hp]
    simp only
    rw [dispatchChannel_market, handleMarketData_decode_error _ _ _ _ hd]
  · intro hp hd
    rw [handleData_eq, hp]
    simp only
    rw [dispatchChannel_account, handleAccountData_decode_error _ _ _ _ hd]

/-- C14 at the channels `market:ETH-USD` and `account@7` with the payload `[0]`, which
the sample decoders reject. -/
theorem C14_witness :
    handleData sampleDecoders wdTracking ⟨"market:ETH-USD", [0]⟩ ["account"] =
      ([Handler.market], some wdTracking) ∧
    handleData sampleDecoders wdTracking ⟨"account@7", [0]⟩ ["account"] =
      ([Handler.account], some wdTracking) :=
  ⟨(C14_decode_failure_discards sampleDecoders wdTracking ⟨"market:ETH-USD", [0]⟩
      ["account"]).1 (by decide) (by decide),
    (C14_decode_failure_discards sampleDecoders wdTracking ⟨"account@7", [0]⟩
      ["account"]).2 (by decide) (by decide)⟩

/-- The dispatcher panics exactly on an `account` envelope that decodes to an order
list with a nil order. -/
theorem handleData_panics_iff (dec : Decoders) (wd : WatchDog) (data : EventData)
    (display : List String) :
    (handleData dec wd data display).2 = none ↔
      routingKey data.WsChannel = some "account" ∧
        ∃ res, dec.account data.Data = some res ∧ none ∈ res.Orders := by
  rw [handleData_eq]
  cases hp : routingKey data.WsChannel with
  | none => simp
  | some channel =>
    simp only
    by_cases ha : channel = "account"
    · subst ha
      rw [dispatchChannel_account]
      simp only [true_and]
      cases hd : dec.account data.Data with
      | none => simp [handleAccountData_decode_error _ _ _ _ hd]
      | some res =>
        rw [handleAccountData_decoded _ _ _ _ res hd]
        have hc := accountLoop_completes_iff res.Orders wd
        by_cases hl : (accountLoop res.Orders wd).2 = true
        · have : none ∉ res.Orders := hc.mp hl
          simp [hl, this]
        · have : none ∈ res.Orders := by
            by_contra h
            exact hl (hc.mpr h)
          simp [hl, this]
    · by_cases hm : channel = "market"
      · subst hm
        rw [dispatchChannel_market]
        simp [ha]
      · rw [dispatchChannel_other dec wd data display channel hm ha]
        simp [ha]

/-- C15 fails: on the channel `account@7` with the payload whose `orders` array
holds `null`, the payload decodes, `handleData` routes it to `handleAccountData`, and
the handler panics on the nil order. -/
theorem C15_dispatcher_panics :
    sampleDecoders.account nullOrderPayload = some { Orders := [none] } ∧
    handleData sampleDecoders wdTracking ⟨"account@7", nullOrderPayload⟩ ["account"] =
      ([Handler.account], none) :=
  ⟨by decide, by rfl⟩

/-! ### Startup, quoting and cancelling -/

theorem loadOrders_error (ListOrders : OrderListRequest → Except String (List OrderData))
    (wd : WatchDog) (err : String)
    (hlist : ListOrders { MarketId := wd.marketId } = .error err) :
    loadOrders ListOrders wd = .error err := by
  unfold loadOrders
  rw [hlist]

/-- C16: when the listing fails with an error, `loadOrders` returns that error and
`Run` returns the same error with the watchdog, order book included, unchanged and
no goroutine started; when the listing succeeds, `Run` returns no error, holds the
watchdog that `loadOrders` produced, and has started the listener, the strategy and
the monitor. -/
theorem C16_listing_failure_aborts_startup
    (ListOrders : OrderListRequest → Except String (List OrderData)) (wd : WatchDog) :
    (∀ err, ListOrders { MarketId := wd.marketId } = .error err →
      loadOrders ListOrders wd = .error err ∧
      (Run ListOrders wd).err = some err ∧ (Run ListOrders wd).wd = wd ∧
      (Run ListOrders wd).started = []) ∧
    (∀ snapshot, ListOrders { MarketId := wd.marketId } = .ok snapshot →
      (Run ListOrders wd).err = none ∧
      loadOrders ListOrders wd = .ok (Run ListOrders wd).wd ∧
      (Run ListOrders wd).started =
        [Activity.listener ["account"], Activity.strategy ⟨[], 10000⟩,
          Activity.monitorOrders ⟨[], 10000⟩]) := by
  constructor
  · intro err hlist
    have h := loadOrders_error ListOrders wd err hlist
    refine ⟨h, ?_, ?_, ?_⟩ <;> simp [Run, h]
  · intro snapshot hlist
    have h := loadOrders_ok ListOrders wd snapshot hlist
    refine ⟨?_, ?_, ?_⟩ <;> simp [Run, h]

/-- C16 at a listing that fails with `503 Service Unavailable` and at one that
returns the sample snapshot. -/
theorem C16_witness :
    (Run (fun _ => .error "503 Service Unavailable") wdTracking).err =
      some "503 Service Unavailable" ∧
    (Run (fun _ => .error "503 Service Unavailable") wdTracking).wd = wdTracking ∧
    (Run (fun _ => .error "503 Service Unavailable") wdTracking).started = [] ∧
    (Run (fun _ => .ok sampleSnapshot) wdTracking).err = none :=
  have h1 := (C16_listing_failure_aborts_startup (fun _ => .error "503 Service Unavailable")
    wdTracking).1 "503 Service Unavailable" rfl
  have h2 := (C16_listing_failure_aborts_startup (fun _ => .ok sampleSnapshot)
    wdTracking).2 sampleSnapshot rfl
  ⟨h1.2.1, h1.2.2.1, h1.2.2.2, h2.1⟩

theorem placeOrder_of_pos {α : Type} (A : Arith α)
    (CreateOrder : OrderCreateRequest α → CallResult OrderCreateResponse) (wd : WatchDog)
    (hpos : 0 < wd.bestBid * (94 / 100)) :
    placeOrder A CreateOrder wd =
      match CreateOrder (quoteRequest A wd) with
      | .panicked => ([quoteRequest A wd], none)
      | .failed _ => ([quoteRequest A wd], some wd)
      | .returned none => ([quoteRequest A wd], none)
      | .returned (some order) =>
        ([quoteRequest A wd],
          some { wd with orders := wd.orders.insert order.OrderId order.Status }) := by
  unfold placeOrder quoteRequest
  have h : ¬ wd.bestBid * (94 / 100) ≤ 0 := not_le.mpr hpos
  simp only [Decimal.LessThanOrEqual, Decimal.Mul, Decimal.Zero, quoteFactor, h, decide_False,
    Bool.false_eq_true, if_false, DEFAULT_PRICE_TICK, DEFAULT_SIZE_TICK]

theorem placeOrder_of_nonpos {α : Type} (A : Arith α)
    (CreateOrder : OrderCreateRequest α → CallResult OrderCreateResponse) (wd : WatchDog)
    (h : wd.bestBid * (94 / 100) ≤ 0) : placeOrder A CreateOrder wd = ([], some wd) := by
  unfold placeOrder
  simp [Decimal.LessThanOrEqual, Decimal.Mul, Decimal.Zero, quoteFactor, h]

/-- C17: for every market state with `bestBid * 0.94 > 0` and every order book,
`placeOrder` makes exactly one create call; when the call fails the watchdog, order
book included, is unchanged; when it returns the order `(id, status)`, the order book
afterwards maps `id` to `status` and every other id as before, and the market state
is unchanged. -/
theorem C17_placeOrder_one_call_then_upsert {α : Type} (A : Arith α)
    (CreateOrder : OrderCreateRequest α → CallResult OrderCreateResponse) (wd : WatchDog)
    (hpos : 0 < wd.bestBid * (94 / 100)) :
    ∃ req, (placeOrder A CreateOrder wd).1 = [req] ∧
      (∀ err, CreateOrder req = .failed err → (placeOrder A CreateOrder wd).2 = some wd) ∧
      (∀ id status, CreateOrder req = .returned (some ⟨id, status⟩) →
        ∃ wd2, (placeOrder A CreateOrder wd).2 = some wd2 ∧
          wd2.orders.lookup id = some status ∧
          (∀ id2, id2 ≠ id → wd2.orders.lookup id2 = wd.orders.lookup id2) ∧
          wd2.bestBid = wd.bestBid ∧ wd2.bestAsk = wd.bestAsk) := by
  rw [placeOrder_of_pos A CreateOrder wd hpos]
  refine ⟨quoteRequest A wd, ?_, ?_, ?_⟩
  · split <;> rfl
  · intro err herr
    rw [herr]
  · intro id status hret
    rw [hret]
    exact ⟨_, rfl, AList.lookup_insert _, fun id2 hne => AList.lookup_insert_ne hne, rfl, rfl⟩

/-- C17 at `bestBid = 5` with order `1` tracked: a venue that answers every request
with the order `(9, open)` gets one request, and afterwards `9` is `open` and `1` is
still `open`. -/
theorem C17_witness :
    ∃ req, (placeOrder binary64 (fun _ => .returned (some ⟨"9", OPEN⟩)) wdTracking).1 = [req] ∧
      ∃ wd2, (placeOrder binary64 (fun _ => .returned (some ⟨"9", OPEN⟩)) wdTracking).2 =
          some wd2 ∧
        wd2.orders.lookup "9" = some OPEN ∧ wd2.orders.lookup "1" = some OPEN := by
  obtain ⟨req, h1, _, h3⟩ := C17_placeOrder_one_call_then_upsert binary64
    (fun _ => .returned (some ⟨"9", OPEN⟩)) wdTracking (by norm_num [wdTracking])
  obtain ⟨wd2, h4, h5, h6, _⟩ := h3 "9" OPEN rfl
  exact ⟨req, h1, wd2, h4, h5, (h6 "1" (by decide)).trans (by decide)⟩

/-- C18: every create request that `placeOrder` issues carries the market id of the
watchdog, side `long`, type `limit`, the price
`roundToNearestTick(bestBid * 0.94, 0.1)` (the decimal product converted to the
arithmetic of the helper) and the size `roundToNearestTick(0.001, 0.001)`, with
`bestBid` the field of the watchdog at the call; that size is `0.001`, in exact
arithmetic and in `float64`. -/
theorem C18_create_request_fields :
    (∀ (α : Type) (A : Arith α)
      (CreateOrder : OrderCreateRequest α → CallResult OrderCreateResponse) (wd : WatchDog)
      (req : OrderCreateRequest α), req ∈ (placeOrder A CreateOrder wd).1 →
      req.MarketId = wd.marketId ∧ req.Side = LONG ∧ req.Type_ = LIMIT ∧
      req.Price = some (roundToNearestTick A (A.ofDecimal (wd.bestBid * (94 / 100)))
        (A.ofDecimal (1 / 10))) ∧
      req.Size = some (roundToNearestTick A (A.ofDecimal (1 / 1000)) (A.ofDecimal (1 / 1000)))) ∧
    roundToNearestTick exact (exact.ofDecimal (1 / 1000)) (exact.ofDecimal (1 / 1000)) =
      1 / 1000 ∧
    roundToNearestTick binary64 (binary64.ofDecimal (1 / 1000)) (binary64.ofDecimal (1 / 1000)) =
      F64.ofRat (1 / 1000) := by
  refine ⟨?_, ?_, by decide!⟩
  · intro α A CreateOrder wd req hreq
    by_cases h : wd.bestBid * (94 / 100) ≤ 0
    · rw [placeOrder_of_nonpos A CreateOrder wd h] at hreq
      simp at hreq
    · rw [placeOrder_of_pos A CreateOrder wd (not_le.mp h)] at hreq
      have hreq2 : req = quoteRequest A wd := by
        split at hreq <;> exact List.mem_singleton.mp hreq
      rw [hreq2]
      exact ⟨rfl, rfl, rfl, rfl, rfl⟩
  · have h : roundToNearestTick exact (1 / 1000) (1 / 1000) = roundExact (1 / 1000 / (1 / 1000)) *
        (1 / 1000) := roundToNearestTick_exact_of_pos _ _ (by norm_num)
    show roundToNearestTick exact (1 / 1000) (1 / 1000) = 1 / 1000
    rw [h]
    have h1 : (1 / 1000 / (1 / 1000) : ℚ) = ((1 : ℤ) : ℚ) := by norm_num
    rw [h1, roundExact_intCast]
    norm_num

/-- C18 at `bestBid = 5` in `float64`: the request of the call carries `ETH-USD`,
`long`, `limit`, the price `roundToNearestTick(4.7, 0.1)`, which is the double `4.7`,
and the size `0.001`. -/
theorem C18_witness :
    (placeOrder binary64 (fun _ => .failed "timeout") wdFive).1 = [quoteRequest binary64 wdFive] ∧
    (quoteRequest binary64 wdFive).MarketId = "ETH-USD" ∧
    (quoteRequest binary64 wdFive).Side = "long" ∧
    (quoteRequest binary64 wdFive).Type_ = "limit" ∧
    (quoteRequest binary64 wdFive).Price = some (F64.ofRat (47 / 10)) ∧
    (quoteRequest binary64 wdFive).Size = some (F64.ofRat (1 / 1000)) := by
  have hcalls : (placeOrder binary64 (fun _ => .failed "timeout") wdFive).1 =
      [quoteRequest binary64 wdFive] := by
    rw [placeOrder_of_pos binary64 _ wdFive (by norm_num [wdFive])]
  have h := C18_create_request_fields.1 F64 binary64 (fun _ => .failed "timeout") wdFive
    (quoteRequest binary64 wdFive) (by rw [hcalls]; exact List.mem_singleton.mpr rfl)
  refine ⟨hcalls, h.1, h.2.1, h.2.2.1, ?_, ?_⟩
  · rw [h.2.2.2.1]
    have hb : wdFive.bestBid * (94 / 100) = 47 / 10 := by norm_num [wdFive]
    rw [hb]
    exact congrArg some (by decide!)
  · rw [h.2.2.2.2]
    exact congrArg some C18_create_request_fields.2.2

/-- C19: for every order id `oid` and every order book, `cancelOrder` makes exactly
one cancel call, with `oid` and the market id of the watchdog; when the call fails
the watchdog, order book included, is unchanged; when it returns the order
`(id, status)`, the order book afterwards maps `id` to `status` and every other id as
before. The worker that received `oid` from the queue leaves the rest of the queue
as it was: `oid` is not enqueued again. -/
theorem C19_cancelOrder_one_call_then_upsert
    (CancelOrder : OrderCancelRequest → CallResult OrderCancelResponse) (wd : WatchDog)
    (oid : String) :
    (cancelOrder CancelOrder wd oid).1 = [{ OrderId := oid, MarketId := wd.marketId }] ∧
    (∀ err, CancelOrder { OrderId := oid, MarketId := wd.marketId } = .failed err →
      (cancelOrder CancelOrder wd oid).2 = some wd) ∧
    (∀ id status,
      CancelOrder { OrderId := oid, MarketId := wd.marketId } = .returned (some ⟨id, status⟩) →
      ∃ wd2, (cancelOrder CancelOrder wd oid).2 = some wd2 ∧
        wd2.orders.lookup id = some status ∧
        (∀ id2, id2 ≠ id → wd2.orders.lookup id2 = wd.orders.lookup id2) ∧
        wd2.bestBid = wd.bestBid ∧ wd2.bestAsk = wd.bestAsk) ∧
    (∀ rest cap, cancelOrdersStep CancelOrder wd ⟨oid :: rest, cap⟩ =
      some ((cancelOrder CancelOrder wd oid).1, (cancelOrder CancelOrder wd oid).2,
        ⟨rest, cap⟩)) := by
  refine ⟨?_, ?_, ?_, fun rest cap => rfl⟩
  · unfold cancelOrder
    simp only
    split <;> rfl
  · intro err herr
    unfold cancelOrder
    simp only [herr]
  · intro id status hret
    unfold cancelOrder
    simp only [hret]
    exact ⟨_, rfl, AList.lookup_insert _, fun id2 hne => AList.lookup_insert_ne hne, rfl, rfl⟩

/-- C19 with order `1` tracked as `open` and the queue `1, 2`: a venue that fails
leaves `1: open` and the queue `2`; a venue that answers `(1, canceling)` gives
`1: canceling`. -/
theorem C19_witness :
    cancelOrdersStep (fun _ => .failed "timeout") wdTracking ⟨["1", "2"], 10000⟩ =
      some ([{ OrderId := "1", MarketId := "ETH-USD" }], some wdTracking, ⟨["2"], 10000⟩) ∧
    ∃ wd2, (cancelOrder (fun _ => .returned (some ⟨"1", CANCELING⟩)) wdTracking "1").2 =
        some wd2 ∧ wd2.orders.lookup "1" = some CANCELING := by
  have h := C19_cancelOrder_one_call_then_upsert (fun _ => .failed "timeout") wdTracking "1"
  have h2 := C19_cancelOrder_one_call_then_upsert
    (fun _ => .returned (some ⟨"1", CANCELING⟩)) wdTracking "1"
  constructor
  · rw [h.2.2.2 ["2"] 10000, h.1, h.2.1 "timeout" rfl]
    rfl
  · obtain ⟨wd2, h3, h4, _⟩ := h2.2.2.1 "1" CANCELING rfl
    exact ⟨wd2, h3, h4⟩

/-! ### Deletion -/

/-- The loop of `loadOrders` keeps every id. -/
theorem mem_foldl_loadStep (snapshot : List OrderData) (wd : WatchDog) (id : String)
    (h : id ∈ wd.orders) : id ∈ (snapshot.foldl loadStep wd).orders := by
  induction snapshot generalizing wd with
  | nil => exact h
  | cons o rest ih =>
    apply ih
    unfold loadStep
    split_ifs
    · exact (AList.mem_insert _).mpr (Or.inr h)
    · exact h

theorem mem_of_loadOrders (ListOrders : OrderListRequest → Except String (List OrderData))
    (wd wd2 : WatchDog) (hok : loadOrders ListOrders wd = .ok wd2) (id : String)
    (h : id ∈ wd.orders) : id ∈ wd2.orders := by
  cases hl : ListOrders { MarketId := wd.marketId } with
  | error err =>
    rw [loadOrders_error ListOrders wd err hl] at hok
    cases hok
  | ok snapshot =>
    rw [loadOrders_ok ListOrders wd snapshot hl] at hok
    cases hok
    exact mem_foldl_loadStep snapshot wd id h

theorem mem_of_placeOrder {α : Type} (A : Arith α)
    (CreateOrder : OrderCreateRequest α → CallResult OrderCreateResponse) (wd wd2 : WatchDog)
    (hok : (placeOrder A CreateOrder wd).2 = some wd2) (id : String) (h : id ∈ wd.orders) :
    id ∈ wd2.orders := by
  by_cases hp : wd.bestBid * (94 / 100) ≤ 0
  · rw [placeOrder_of_nonpos A CreateOrder wd hp] at hok
    cases hok
    exact h
  · rw [placeOrder_of_pos A CreateOrder wd (not_le.mp hp)] at hok
    split at hok
    · cases hok
    · cases hok; exact h
    · cases hok
    · cases hok
      exact (AList.mem_insert _).mpr (Or.inr h)

theorem mem_of_cancelOrder (CancelOrder : OrderCancelRequest → CallResult OrderCancelResponse)
    (wd wd2 : WatchDog) (oid : String) (hok : (cancelOrder CancelOrder wd oid).2 = some wd2)
    (id : String) (h : id ∈ wd.orders) : id ∈ wd2.orders := by
  unfold cancelOrder at hok
  simp only at hok
  split at hok
  · cases hok
  · cases hok; exact h
  · cases hok
  · cases hok
    exact (AList.mem_insert _).mpr (Or.inr h)

theorem handleMarketData_orders (unmarshal : Unmarshal MarketData) (wd : WatchDog)
    (data : EventData) (doShow : Bool) :
    (handleMarketData unmarshal wd data doShow).orders = wd.orders := by
  unfold handleMarketData
  cases decodeAndPrintData unmarshal data.WsChannel data.Data doShow with
  | none => rfl
  | some res =>
    rcases res with ⟨bid, ask⟩
    cases bid <;> cases ask <;> simp only <;> split_ifs <;> rfl

theorem mem_of_handleData (dec : Decoders) (wd wd2 : WatchDog) (data : EventData)
    (display : List String) (hok : (handleData dec wd data display).2 = some wd2)
    (id : String) (h : id ∈ wd.orders) : id ∈ wd2.orders := by
  rw [handleData_eq] at hok
  cases hp : routingKey data.WsChannel with
  | none =>
    rw [hp] at hok
    cases hok
    exact h
  | some channel =>
    rw [hp] at hok
    simp only at hok
    by_cases ha : channel = "account"
    · subst ha
      rw [dispatchChannel_account] at hok
      simp only at hok
      cases hd : dec.account data.Data with
      | none =>
        rw [handleAccountData_decode_error _ _ _ _ hd] at hok
        cases hok
        exact h
      | some res =>
        rw [handleAccountData_decoded _ _ _ _ res hd] at hok
        split_ifs at hok
        cases hok
        exact mem_accountLoop res.Orders wd id h
    · by_cases hm : channel = "market"
      · subst hm
        rw [dispatchChannel_market] at hok
        cases hok
        rw [handleMarketData_orders]
        exact h
      · rw [dispatchChannel_other dec wd data display channel hm ha] at hok
        cases hok
        exact h

/-- C20: no operation other than the cleanup removes an id: whenever `loadOrders`,
`placeOrder`, `cancelOrder` or `handleData` yields a watchdog, for any outcome of the
collaborator and any envelope, every id present before is present in it;
`checkOrders` returns the watchdog itself; the state in which the loop of
`handleAccountData` stops, a panic included, also holds every earlier id; and an id
that `cleanOrders` removes was mapped to `canceled`. -/
theorem C20_only_cleanup_deletes :
    (∀ (ListOrders : OrderListRequest → Except String (List OrderData)) (wd wd2 : WatchDog),
      loadOrders ListOrders wd = .ok wd2 → ∀ id, id ∈ wd.orders → id ∈ wd2.orders) ∧
    (∀ (α : Type) (A : Arith α)
      (CreateOrder : OrderCreateRequest α → CallResult OrderCreateResponse) (wd wd2 : WatchDog),
      (placeOrder A CreateOrder wd).2 = some wd2 → ∀ id, id ∈ wd.orders → id ∈ wd2.orders) ∧
    (∀ (CancelOrder : OrderCancelRequest → CallResult OrderCancelResponse) (wd wd2 : WatchDog)
      (oid : String), (cancelOrder CancelOrder wd oid).2 = some wd2 →
      ∀ id, id ∈ wd.orders → id ∈ wd2.orders) ∧
    (∀ (wd : WatchDog) (cancelCh : Chan), (checkOrders wd cancelCh).1 = wd) ∧
    (∀ (dec : Decoders) (wd wd2 : WatchDog) (data : EventData) (display : List String),
      (handleData dec wd data display).2 = some wd2 →
      ∀ id, id ∈ wd.orders → id ∈ wd2.orders) ∧
    (∀ (L : List (Option OrderData)) (wd : WatchDog) (id : String),
      id ∈ wd.orders → id ∈ (accountLoop L wd).1.orders) ∧
    (∀ (wd : WatchDog) (id : String), id ∈ wd.orders → id ∉ (cleanOrders wd).orders →
      wd.orders.lookup id = some CANCELED) := by
  refine ⟨fun L wd wd2 hok id h => mem_of_loadOrders L wd wd2 hok id h,
    fun α A C wd wd2 hok id h => mem_of_placeOrder A C wd wd2 hok id h,
    fun C wd wd2 oid hok id h => mem_of_cancelOrder C wd wd2 oid hok id h,
    fun wd ch => rfl,
    fun dec wd wd2 data display hok id h => mem_of_handleData dec wd wd2 data display hok id h,
    fun L wd id h => mem_accountLoop L wd id h, ?_⟩
  intro wd id hin hout
  rw [← AList.lookup_eq_none, lookup_cleanOrders] at hout
  by_contra hne
  rw [if_neg hne] at hout
  exact (AList.lookup_eq_none.mp hout) hin

/-- C20 with order `1` tracked as `open`: an account event that reports `1` as
`canceled` keeps the id `1` in the order book, and only the cleanup that follows
removes it. -/
theorem C20_witness :
    ∃ wd2, (handleData sampleDecoders wdTracking ⟨"account@7", scenarioPayload⟩ []).2 =
        some wd2 ∧ "1" ∈ wd2.orders ∧ "1" ∉ (cleanOrders wd2).orders ∧
      wd2.orders.lookup "1" = some CANCELED := by
  have hrun : (handleData sampleDecoders wdTracking ⟨"account@7", scenarioPayload⟩ []).2 =
      some (accountStep (accountStep wdTracking ⟨"1", CANCELED⟩) ⟨"2", OPEN⟩) := by rfl
  have hmem := C20_only_cleanup_deletes.2.2.2.2.1 sampleDecoders wdTracking _
    ⟨"account@7", scenarioPayload⟩ [] hrun "1" (by decide)
  have hout : "1" ∉ (cleanOrders
      (accountStep (accountStep wdTracking ⟨"1", CANCELED⟩) ⟨"2", OPEN⟩)).orders := by decide
  exact ⟨_, hrun, hmem, hout, C20_only_cleanup_deletes.2.2.2.2.2.2 _ "1" hmem hout⟩

/-! ### The market state -/

/-- C26: for every market state and every decodable market event, after
`handleMarketData` the field `bestBid` is the reported `best_bid` when that field is
present and its absolute value is greater than zero, and the previous `bestBid`
otherwise; the same holds for `bestAsk` and `best_ask`, each field depending only on
its own reported value, so that an event without `best_ask` leaves `bestAsk` as it was
and an event without `best_bid` leaves `bestBid` as it was. -/
theorem C26_market_fields_update_independently (unmarshal : Unmarshal MarketData)
    (wd : WatchDog) (data : EventData) (doShow : Bool) (res : MarketData)
    (hdec : unmarshal data.Data = some res) :
    ((handleMarketData unmarshal wd data doShow).bestBid =
      match res.BestBid with
      | some bid => if 0 < |bid| then bid else wd.bestBid
      | none => wd.bestBid) ∧
    ((handleMarketData unmarshal wd data doShow).bestAsk =
      match res.BestAsk with
      | some ask => if 0 < |ask| then ask else wd.bestAsk
      | none => wd.bestAsk) ∧
    (res.BestBid = none → (handleMarketData unmarshal wd data doShow).bestBid = wd.bestBid) ∧
    (res.BestAsk = none → (handleMarketData unmarshal wd data doShow).bestAsk = wd.bestAsk) := by
  have hb := handleMarketData_bestBid unmarshal wd data doShow res hdec
  have ha := handleMarketData_bestAsk unmarshal wd data doShow res hdec
  refine ⟨?_, ?_, ?_, ?_⟩
  · rw [hb]
    cases res.BestBid with
    | none => rfl
    | some bid =>
      by_cases h0 : bid = 0
      · simp [h0]
      · simp [h0]
  · rw [ha]
    cases res.BestAsk with
    | none => rfl
    | some ask =>
      by_cases h0 : ask = 0
      · simp [h0]
      · simp [h0]
  · intro hn
    rw [hb, hn]
  · intro hn
    rw [ha, hn]

/-- The theorem of C26 on the watchdog with `bestBid = 5` and `bestAsk = 6` and the
event with `best_bid = -1` and no `best_ask`: `bestBid` becomes `-1`, `bestAsk` stays
`6`. -/
theorem C26_witness :
    sampleMarketUnmarshal (EventData.mk "market:ETH-USD" negativeBidPayload).Data =
        some { BestBid := some (-1), BestAsk := none } ∧
      (handleMarketData sampleMarketUnmarshal wdFive
        (EventData.mk "market:ETH-USD" negativeBidPayload) false).bestBid = -1 ∧
      (handleMarketData sampleMarketUnmarshal wdFive
        (EventData.mk "market:ETH-USD" negativeBidPayload) false).bestAsk = 6 := by
  have h := C26_market_fields_update_independently sampleMarketUnmarshal wdFive
    (EventData.mk "market:ETH-USD" negativeBidPayload) false
    { BestBid := some (-1), BestAsk := none } (by decide)
  refine ⟨by decide, ?_, ?_⟩
  · rw [h.1]
    simp
  · rw [h.2.1]
    rfl

/-! ### The price of a quote -/

/-- The exact rounding of a positive price to the tick `0.1` is never negative, and it
is positive exactly from `0.05` on. -/
theorem roundToNearestTick_exact_tenth (x : ℚ) (hx : 0 < x) :
    0 ≤ roundToNearestTick exact x (1 / 10) ∧
      (0 < roundToNearestTick exact x (1 / 10) ↔ 1 / 20 ≤ x) := by
  rw [roundToNearestTick_exact_of_pos x (1 / 10) (by norm_num), roundExact_eq]
  have hy : (0 : ℚ) ≤ x / (1 / 10) := by positivity
  rw [if_pos hy]
  have hfl : (0 : ℤ) ≤ ⌊x / (1 / 10) + 1 / 2⌋ := Int.floor_nonneg.mpr (by linarith)
  constructor
  · have : (0 : ℚ) ≤ ((⌊x / (1 / 10) + 1 / 2⌋ : ℤ) : ℚ) := by exact_mod_cast hfl
    positivity
  · constructor
    · intro hp
      have h1 : (0 : ℚ) < ((⌊x / (1 / 10) + 1 / 2⌋ : ℤ) : ℚ) := by
        by_contra hc
        have : ((⌊x / (1 / 10) + 1 / 2⌋ : ℤ) : ℚ) * (1 / 10) ≤ 0 :=
          mul_nonpos_of_nonpos_of_nonneg (not_lt.mp hc) (by norm_num)
        linarith
      have h2 : (0 : ℤ) < ⌊x / (1 / 10) + 1 / 2⌋ := by exact_mod_cast h1
      have h3 : (1 : ℤ) ≤ ⌊x / (1 / 10) + 1 / 2⌋ := h2
      have h4 := Int.le_floor.mp h3
      have h5 : x / (1 / 10) = 10 * x := by ring
      rw [h5] at h4
      push_cast at h4
      linarith
    · intro hp
      have h3 : (1 : ℤ) ≤ ⌊x / (1 / 10) + 1 / 2⌋ := by
        apply Int.le_floor.mpr
        have h5 : x / (1 / 10) = 10 * x := by ring
        rw [h5]
        push_cast
        linarith
      have h1 : (1 : ℚ) ≤ ((⌊x / (1 / 10) + 1 / 2⌋ : ℤ) : ℚ) := by exact_mod_cast h3
      have : (0 : ℚ) < ((⌊x / (1 / 10) + 1 / 2⌋ : ℤ) : ℚ) := by linarith
      positivity

/-- C28, the counterexample: on `bestBid = 0.01` the target `0.0094` is greater than
zero, `placeOrder` issues a create request, and the price sent is zero, in exact
arithmetic and in `float64` (where the rounded price is the float `+0`, which is
`<= 0`). -/
theorem C28_counterexample :
    (0 : ℚ) < wdCent.bestBid * (94 / 100) ∧
      (placeOrder exact (fun _ => CallResult.failed "") wdCent).1.map
          (fun req => req.Price) = [some 0] ∧
      (placeOrder binary64 (fun _ => CallResult.failed "") wdCent).1.map
          (fun req => req.Price) = [some (F64.fin false 0 0)] ∧
      binary64.le (F64.fin false 0 0) (binary64.ofDecimal 0) = true ∧
      roundToNearestTick exact (wdCent.bestBid * (94 / 100)) (1 / 10) = 0 := by
  refine ⟨by decide!, by decide!, by decide!, by decide!, by decide!⟩

/-- C28, as amended: whenever `bestBid * 0.94 >= 0.05`, half a price tick, the method
`placeOrder` issues one create request, whose price is
`roundToNearestTick(bestBid * 0.94, 0.1)`, and that price is strictly positive. In
`float64`, the arithmetic of the code, the price does not compare `<= 0`: it is a
finite value that is not zero with the sign bit clear, or the positive infinity. In
exact arithmetic the price is greater than zero as well. -/
theorem C28_price_positive_from_half_tick (wd : WatchDog)
    (hpos : 1 / 20 ≤ wd.bestBid * (94 / 100)) :
    (∀ CreateOrder : OrderCreateRequest F64 → CallResult OrderCreateResponse,
      ∃ price : F64,
        (placeOrder binary64 CreateOrder wd).1.map (fun req => req.Price) = [some price] ∧
        price = roundToNearestTick binary64 (binary64.ofDecimal (wd.bestBid * (94 / 100)))
          (binary64.ofDecimal (1 / 10)) ∧
        binary64.le price (binary64.ofDecimal 0) = false ∧
        (price = F64.inf false ∨ ∃ m e, price = F64.fin false m e ∧ 0 < m)) ∧
    (∀ CreateOrder : OrderCreateRequest ℚ → CallResult OrderCreateResponse,
      ∃ p : ℚ, (placeOrder exact CreateOrder wd).1.map (fun req => req.Price) = [some p] ∧
        p = roundToNearestTick exact (wd.bestBid * (94 / 100)) (1 / 10) ∧ 0 < p) := by
  have hpos0 : 0 < wd.bestBid * (94 / 100) := by linarith
  have hcalls : ∀ {α : Type} (A : Arith α)
      (CreateOrder : OrderCreateRequest α → CallResult OrderCreateResponse),
      (placeOrder A CreateOrder wd).1.map (fun req => req.Price) =
        [some (roundToNearestTick A (A.ofDecimal (wd.bestBid * (94 / 100)))
          (A.ofDecimal (1 / 10)))] := by
    intro α A CreateOrder
    rw [placeOrder_of_pos A CreateOrder wd hpos0]
    cases hC : CreateOrder (quoteRequest A wd) with
    | panicked => rfl
    | failed err => rfl
    | returned res =>
      cases res with
      | none => rfl
      | some order => rfl
  have h0 : binary64.ofDecimal 0 = F64.fin false 0 0 := by decide!
  constructor
  · intro CreateOrder
    refine ⟨_, hcalls binary64 CreateOrder, rfl, ?_, roundToNearestTick_binary64_tenth _ hpos⟩
    rw [h0]
    rcases roundToNearestTick_binary64_tenth _ hpos with h | ⟨m, e, h, hm⟩
    · rw [h]
      rfl
    · rw [h]
      exact (F64.le_zero_of_pos m e hm).1
  · intro CreateOrder
    exact ⟨_, hcalls exact CreateOrder, rfl, (roundToNearestTick_exact_tenth _ hpos0).2.mpr hpos⟩

/-- The theorem of C28 on `bestBid = 5`: the target is `4.7`, and the price sent is the
`float64` nearest to `4.7`, which is positive. -/
theorem C28_witness :
    (1 : ℚ) / 20 ≤ wdFive.bestBid * (94 / 100) ∧
      (placeOrder binary64 (fun _ => CallResult.failed "") wdFive).1.map
          (fun req => req.Price) = [some (F64.fin false 5291729562160333 (-50))] ∧
      ∃ price : F64,
        (placeOrder binary64 (fun _ => CallResult.failed "") wdFive).1.map
          (fun req => req.Price) = [some price] ∧
        price = roundToNearestTick binary64 (binary64.ofDecimal (wdFive.bestBid * (94 / 100)))
          (binary64.ofDecimal (1 / 10)) ∧
        binary64.le price (binary64.ofDecimal 0) = false ∧
        (price = F64.inf false ∨ ∃ m e, price = F64.fin false m e ∧ 0 < m) :=
  ⟨by decide!, by decide!,
    (C28_price_positive_from_half_tick wdFive (by decide!)).1 (fun _ => CallResult.failed "")⟩

/-! ### Subscriptions -/

/-- The routing key of a name whose first `@` follows `pre`. -/
theorem routingKey_at (ws : String) (pre rest : List Char) (hws : ws.data = pre ++ '@' :: rest)
    (hpre : '@' ∉ pre) : routingKey ws = some (String.mk pre) := by
  unfold routingKey
  have hmem : '@' ∈ ws.data := by rw [hws]; simp
  rw [if_pos hmem, hws, takeWhile_ne_append '@' pre rest hpre]

/-- The routing key of a name without `@` whose first `:` follows `pre`. -/
theorem routingKey_colon (ws : String) (pre rest : List Char)
    (hws : ws.data = pre ++ ':' :: rest) (hat : '@' ∉ ws.data) (hpre : ':' ∉ pre) :
    routingKey ws = some (String.mk pre) := by
  unfold routingKey
  have hmem : ':' ∈ ws.data := by rw [hws]; simp
  rw [if_neg hat, if_pos hmem, hws, takeWhile_ne_append ':' pre rest hpre]

/-- The names that `DummyBot.Run` subscribes to. -/
theorem subscriptionChannels_eq (marketId : String) (profileID : Nat) :
    subscriptionChannels marketId profileID =
      ["market:" ++ marketId, "orderbook:" ++ marketId, "trade:" ++ marketId,
        "account@" ++ strconvFormatInt (int64OfUint profileID)] := by
  rfl

/-- C30, the counterexample: on the market id `ETH@USD` the bot subscribes to
`market:ETH@USD`, and `handleData` routes an event of that channel on the key
`market:ETH`: no handler is invoked and the market state stays as it was, although the
payload reports `best_bid = -1`. -/
theorem C30_counterexample :
    "market:ETH@USD" ∈ subscriptionChannels "ETH@USD" 7 ∧
      routingKey "market:ETH@USD" = some "market:ETH" ∧
      (handleData sampleDecoders wdFive ⟨"market:ETH@USD", negativeBidPayload⟩ []).1 = [] ∧
      ((handleData sampleDecoders wdFive ⟨"market:ETH@USD", negativeBidPayload⟩ []).2.map
        fun w => w.bestBid) = some 5 ∧
      (handleData sampleDecoders wdFive ⟨"market:ETH-USD", negativeBidPayload⟩ []).1 =
        [Handler.market] := by
  refine ⟨by decide, by decide, by decide, by decide!, by decide⟩

/-- C30, as amended: for every market id that does not contain `@` and every profile
id, the four channel names that `DummyBot.Run` subscribes to are `market:` + marketId,
`orderbook:` + marketId, `trade:` + marketId and `account@` + profileId, and
`handleData` routes an event of each of them to the handler of its own kind: market,
orderbook, trade, account. -/
theorem C30_subscriptions_route_to_own_handler (dec : Decoders) (wd : WatchDog)
    (display : List String) (payload : List UInt8) (marketId : String) (profileID : Nat)
    (hat : '@' ∉ marketId.data) :
    subscriptionChannels marketId profileID =
        ["market:" ++ marketId, "orderbook:" ++ marketId, "trade:" ++ marketId,
          "account@" ++ strconvFormatInt (int64OfUint profileID)] ∧
      (subscriptionChannels marketId profileID).map
          (fun ch => (handleData dec wd ⟨ch, payload⟩ display).1) =
        [[Handler.market], [Handler.orderbook], [Handler.trade], [Handler.account]] := by
  refine ⟨subscriptionChannels_eq marketId profileID, ?_⟩
  rw [subscriptionChannels_eq]
  have hm : routingKey ("market:" ++ marketId) = some "market" :=
    routingKey_colon _ "market".data marketId.data rfl
      (by
        show '@' ∉ "market:".data ++ marketId.data
        intro h
        rcases List.mem_append.mp h with h | h
        · exact absurd h (by decide)
        · exact hat h)
      (by decide)
  have ho : routingKey ("orderbook:" ++ marketId) = some "orderbook" :=
    routingKey_colon _ "orderbook".data marketId.data rfl
      (by
        show '@' ∉ "orderbook:".data ++ marketId.data
        intro h
        rcases List.mem_append.mp h with h | h
        · exact absurd h (by decide)
        · exact hat h)
      (by decide)
  have ht : routingKey ("trade:" ++ marketId) = some "trade" :=
    routingKey_colon _ "trade".data marketId.data rfl
      (by
        show '@' ∉ "trade:".data ++ marketId.data
        intro h
        rcases List.mem_append.mp h with h | h
        · exact absurd h (by decide)
        · exact hat h)
      (by decide)
  have ha : routingKey ("account@" ++ strconvFormatInt (int64OfUint profileID)) =
      some "account" :=
    routingKey_at _ "account".data (strconvFormatInt (int64OfUint profileID)).data rfl
      (by decide)
  simp only [List.map_cons, List.map_nil, handleData_eq, hm, ho, ht, ha]
  simp [dispatchChannel]

/-- The theorem of C30 on the market id `ETH-USD` and the profile id `7`. -/
theorem C30_witness :
    '@' ∉ "ETH-USD".data ∧
      subscriptionChannels "ETH-USD" 7 =
        ["market:ETH-USD", "orderbook:ETH-USD", "trade:ETH-USD", "account@7"] ∧
      (subscriptionChannels "ETH-USD" 7).map
          (fun ch => (handleData sampleDecoders wdFive ⟨ch, scenarioPayload⟩ []).1) =
        [[Handler.market], [Handler.orderbook], [Handler.trade], [Handler.account]] :=
  ⟨by decide, by decide,
    (C30_subscriptions_route_to_own_handler sampleDecoders wdFive [] scenarioPayload
      "ETH-USD" 7 (by decide)).2⟩

/-! ### The statuses of the order book -/

/-- Writing a status that satisfies `V` keeps every stored status in `V`. -/
theorem statuses_insert (V : String → Prop) (m : OrderBook) (oid st : String)
    (hinv : ∀ id s, m.lookup id = some s → V s) (hst : V st) :
    ∀ id s, (m.insert oid st).lookup id = some s → V s := by
  intro id s hl
  by_cases hid : id = oid
  · subst hid
    rw [AList.lookup_insert] at hl
    cases hl
    exact hst
  · rw [AList.lookup_insert_ne hid] at hl
    exact hinv id s hl

/-- The loop of `handleAccountData` keeps every stored status in `V` when the
statuses of the payload are in `V`. -/
theorem statuses_accountLoop (V : String → Prop) (L : List (Option OrderData)) (wd : WatchDog)
    (hL : ∀ order, some order ∈ L → V order.Status)
    (hinv : ∀ id s, wd.orders.lookup id = some s → V s) :
    ∀ id s, (accountLoop L wd).1.orders.lookup id = some s → V s := by
  induction L generalizing wd with
  | nil => exact hinv
  | cons o rest ih =>
    cases o with
    | none => exact hinv
    | some order =>
      show ∀ id s, (accountLoop rest (accountStep wd order)).1.orders.lookup id = some s → V s
      apply ih
      · intro o2 ho2
        exact hL o2 (List.mem_cons_of_mem _ ho2)
      · exact statuses_insert V wd.orders order.OrderId order.Status hinv
          (hL order (List.mem_cons_self _ _))

/-- In every state reachable with venue statuses in `V`, where `V` holds of `open`,
every stored status is in `V`. -/
theorem statuses_of_reachable (V : String → Prop) (hopen : V OPEN) (wd : WatchDog)
    (h : Reachable V wd) : ∀ id s, wd.orders.lookup id = some s → V s := by
  induction h with
  | start wd hempty =>
    intro id s hl
    rw [hempty] at hl
    simp at hl
  | load ListOrders wd wd2 _ hok ih =>
    intro id s hl
    cases hlist : ListOrders { MarketId := wd.marketId } with
    | error err =>
      rw [loadOrders_error ListOrders wd err hlist] at hok
      cases hok
    | ok snapshot =>
      rw [loadOrders_ok ListOrders wd snapshot hlist] at hok
      cases hok
      rw [lookup_foldl_loadStep] at hl
      split at hl
      · cases hl
        exact hopen
      · exact ih id s hl
  | place A CreateOrder wd wd2 _ hvenue hok ih =>
    by_cases hpos : 0 < wd.bestBid * (94 / 100)
    · rw [placeOrder_of_pos A CreateOrder wd hpos] at hok
      cases hC : CreateOrder (quoteRequest A wd) with
      | panicked => rw [hC] at hok; cases hok
      | failed err => rw [hC] at hok; cases hok; exact ih
      | returned res =>
        cases res with
        | none => rw [hC] at hok; cases hok
        | some order =>
          rw [hC] at hok
          cases hok
          exact statuses_insert V wd.orders order.OrderId order.Status ih
            (hvenue _ order hC)
    · rw [placeOrder_of_nonpos A CreateOrder wd (not_lt.mp hpos)] at hok
      cases hok
      exact ih
  | cancel CancelOrder wd wd2 oid _ hvenue hok ih =>
    unfold cancelOrder at hok
    cases hC : CancelOrder { OrderId := oid, MarketId := wd.marketId } with
    | panicked => simp [hC] at hok
    | failed err =>
      simp [hC] at hok
      rw [← hok]
      exact ih
    | returned res =>
      cases res with
      | none => simp [hC] at hok
      | some order =>
        simp [hC] at hok
        rw [← hok]
        exact statuses_insert V wd.orders order.OrderId order.Status ih (hvenue _ order hC)
  | handle dec wd wd2 data display _ hvenue hok ih =>
    rw [handleData_eq] at hok
    cases hk : routingKey data.WsChannel with
    | none =>
      rw [hk] at hok
      cases hok
      exact ih
    | some channel =>
      rw [hk] at hok
      replace hok : (dispatchChannel dec wd data display channel).2 = some wd2 := hok
      by_cases hm : channel = "market"
      · subst hm
        rw [dispatchChannel_market] at hok
        cases hok
        intro id s hl
        rw [handleMarketData_orders] at hl
        exact ih id s hl
      · by_cases ha : channel = "account"
        · subst ha
          rw [dispatchChannel_account] at hok
          cases hdec : dec.account data.Data with
          | none =>
            rw [show (([Handler.account], handleAccountData dec.account wd data
              (decide ("account" ∈ display))) : List Handler × Option WatchDog).2 =
              handleAccountData dec.account wd data (decide ("account" ∈ display)) from rfl,
              handleAccountData_decode_error _ _ _ _ hdec] at hok
            cases hok
            exact ih
          | some res =>
            rw [show (([Handler.account], handleAccountData dec.account wd data
              (decide ("account" ∈ display))) : List Handler × Option WatchDog).2 =
              handleAccountData dec.account wd data (decide ("account" ∈ display)) from rfl,
              handleAccountData_decoded _ _ _ _ res hdec] at hok
            split at hok
            · cases hok
              exact statuses_accountLoop V res.Orders wd
                (fun order ho => hvenue res order hdec ho) ih
            · cases hok
        · rw [dispatchChannel_other dec wd data display channel hm ha] at hok
          cases hok
          exact ih
  | clean wd _ ih =>
    intro id s hl
    rw [lookup_cleanOrders] at hl
    split at hl
    · cases hl
    · exact ih id s hl

/-- The watchdog with the status `filled` is reached by one account event. -/
theorem reachable_wdFilled : Reachable (fun _ => True) wdFilled :=
  Reachable.handle filledDecoders (NewWatchDog "ETH-USD") wdFilled
    ⟨"account@7", filledPayload⟩ [] (Reachable.start _ rfl) (fun _ _ _ _ => trivial)
    (by rfl)

/-- C21, the counterexample: nothing restricts the statuses that the venue reports.
From the empty order book, the account event whose payload holds the order with id `1`
and status `filled` is handled without a panic and leaves the status `filled` stored
under `1`, which is none of the ten order statuses. -/
theorem C21_counterexample :
    (NewWatchDog "ETH-USD").orders = ∅ ∧
      filledDecoders.account filledPayload = some { Orders := [some ⟨"1", "filled"⟩] } ∧
      ((handleData filledDecoders (NewWatchDog "ETH-USD") ⟨"account@7", filledPayload⟩ []).2.map
        fun w => w.orders.lookup "1") = some (some "filled") ∧
      Reachable (fun _ => True) wdFilled ∧
      wdFilled.orders.lookup "1" = some "filled" ∧
      "filled" ∉ orderStatuses :=
  ⟨rfl, by decide, by decide, reachable_wdFilled, by decide, by decide⟩

/-- C21, as amended: in every state of the watchdog reachable from an empty order book
by `loadOrders`, `placeOrder`, `cancelOrder`, `handleData` and `cleanOrders`, for every
output of the collaborators and every streamed payload in which each reported status
is one of the ten order statuses, each status stored in the order book is one of the
ten order statuses. -/
theorem C21_statuses_stay_among_reported (wd : WatchDog)
    (h : Reachable (fun s => s ∈ orderStatuses) wd) (id s : String)
    (hl : wd.orders.lookup id = some s) : s ∈ orderStatuses :=
  statuses_of_reachable (fun s => s ∈ orderStatuses) (by decide) wd h id s hl

/-- The watchdog of the scenario is reached by one account event whose statuses are
among the ten. -/
theorem reachable_wdScenario : Reachable (fun s => s ∈ orderStatuses) wdScenario := by
  refine Reachable.handle sampleDecoders (NewWatchDog "ETH-USD") wdScenario
    ⟨"account@7", scenarioPayload⟩ [] (Reachable.start _ rfl) ?_ (by rfl)
  intro res order hdec hmem
  have hres : sampleDecoders.account scenarioPayload =
      some { Orders := [some ⟨"1", CANCELED⟩, some ⟨"2", OPEN⟩] } := by decide
  rw [show (EventData.mk "account@7" scenarioPayload).Data = scenarioPayload from rfl,
    hres] at hdec
  cases hdec
  simp only [List.mem_cons, Option.some.injEq, List.mem_singleton, List.not_mem_nil,
    or_false] at hmem
  rcases hmem with h | h
  · rw [h]
    decide
  · rw [h]
    decide

/-- The theorem of C21 on the state reached by the account event of the scenario: the
status stored under `2` is `open`, one of the ten. -/
theorem C21_witness :
    Reachable (fun s => s ∈ orderStatuses) wdScenario ∧
      wdScenario.orders.lookup "2" = some OPEN ∧ OPEN ∈ orderStatuses :=
  ⟨reachable_wdScenario, by decide,
    C21_statuses_stay_among_reported wdScenario reachable_wdScenario "2" OPEN (by decide)⟩

/-! ### The REST client -/

/-- The method `CreateOrder` panics exactly when `GetSecrets` panics, or on a response
with `success` true and an empty result list. -/
theorem CreateOrder_panicked_iff {α : Type} (GetSecrets : SecretsResult)
    (venue : OrderCreateRequest α → Exchange)
    (unmarshal : Unmarshal (Response (Option OrderCreateResponse)))
    (data : OrderCreateRequest α) :
    RbClient.CreateOrder GetSecrets venue unmarshal data = .panicked ↔
      GetSecrets = .panicked ∨
      ∃ apiKey apiSecret jwtPrivate respBody resp,
        GetSecrets = .returned apiKey apiSecret jwtPrivate ∧
        RbClient.post (venue data) = .ok respBody ∧
        unmarshal respBody = some resp ∧ resp.Success = true ∧ resp.Result = [] := by
  unfold RbClient.CreateOrder
  cases hs : GetSecrets with
  | panicked => simp
  | failed err => simp
  | returned apiKey apiSecret jwtPrivate =>
    cases hp : RbClient.post (venue data) with
    | error err => simp
    | ok respBody =>
      cases hu : unmarshal respBody with
      | none => simp [hu]
      | some resp =>
        cases hsucc : resp.Success with
        | false => simp [hu, hsucc]
        | true =>
          cases hr : resp.Result with
          | nil => simp [hu, hsucc, hr]
          | cons r rest => simp [hu, hsucc, hr]

/-- The method `CancelOrder` panics exactly when `GetSecrets` panics, or on a response
with `success` true and an empty result list. -/
theorem CancelOrder_panicked_iff (GetSecrets : SecretsResult)
    (venue : OrderCancelRequest → Exchange)
    (unmarshal : Unmarshal (Response (Option OrderCancelResponse)))
    (data : OrderCancelRequest) :
    RbClient.CancelOrder GetSecrets venue unmarshal data = .panicked ↔
      GetSecrets = .panicked ∨
      ∃ apiKey apiSecret jwtPrivate respBody resp,
        GetSecrets = .returned apiKey apiSecret jwtPrivate ∧
        RbClient.delete (venue data) = .ok respBody ∧
        unmarshal respBody = some resp ∧ resp.Success = true ∧ resp.Result = [] := by
  unfold RbClient.CancelOrder
  cases hs : GetSecrets with
  | panicked => simp
  | failed err => simp
  | returned apiKey apiSecret jwtPrivate =>
    cases hp : RbClient.delete (venue data) with
    | error err => simp
    | ok respBody =>
      cases hu : unmarshal respBody with
      | none => simp [hu]
      | some resp =>
        cases hsucc : resp.Success with
        | false => simp [hu, hsucc]
        | true =>
          cases hr : resp.Result with
          | nil => simp [hu, hsucc, hr]
          | cons r rest => simp [hu, hsucc, hr]

/-- C22: the claim fails on the HTTP 200 response whose body is the JSON object with
`"success":true` and `"result":[]`: `CreateOrder` and `CancelOrder` index
`resp.Result[0]` on the empty list and panic, so `placeOrder` and `cancelOrder` do not
complete. On the body with `"result":[null]` they return a nil result with a nil
error, which `placeOrder` and `cancelOrder` dereference. -/
theorem C22_empty_result_panics :
    RbClient.CreateOrder sampleSecrets (fun _ => okExchange emptyResultBody)
        (sampleResponseUnmarshal OrderCreateResponse) (quoteRequest exact wdFive) =
        CallResult.panicked ∧
      (placeOrder exact
        (RbClient.CreateOrder sampleSecrets (fun _ => okExchange emptyResultBody)
          (sampleResponseUnmarshal OrderCreateResponse)) wdFive).2 = none ∧
      RbClient.CancelOrder sampleSecrets (fun _ => okExchange emptyResultBody)
        (sampleResponseUnmarshal OrderCancelResponse) ⟨"1", "ETH-USD", ""⟩ =
        CallResult.panicked ∧
      (cancelOrder
        (RbClient.CancelOrder sampleSecrets (fun _ => okExchange emptyResultBody)
          (sampleResponseUnmarshal OrderCancelResponse)) wdTracking "1").2 = none ∧
      RbClient.CreateOrder sampleSecrets (fun _ => okExchange nullResultBody)
        (sampleResponseUnmarshal OrderCreateResponse) (quoteRequest exact wdFive) =
        CallResult.returned none ∧
      (placeOrder exact
        (RbClient.CreateOrder sampleSecrets (fun _ => okExchange nullResultBody)
          (sampleResponseUnmarshal OrderCreateResponse)) wdFive).2 = none ∧
      RbClient.CancelOrder sampleSecrets (fun _ => okExchange nullResultBody)
        (sampleResponseUnmarshal OrderCancelResponse) ⟨"1", "ETH-USD", ""⟩ =
        CallResult.returned none ∧
      (cancelOrder
        (RbClient.CancelOrder sampleSecrets (fun _ => okExchange nullResultBody)
          (sampleResponseUnmarshal OrderCancelResponse)) wdTracking "1").2 = none := by
  have hpos : (0 : ℚ) < wdFive.bestBid * (94 / 100) := by decide!
  refine ⟨by rfl, ?_, by rfl, by rfl, by rfl, ?_, by rfl, by rfl⟩
  · rw [placeOrder_of_pos _ _ _ hpos]
    rfl
  · rw [placeOrder_of_pos _ _ _ hpos]
    rfl

/-- C25: transport failures, statuses other than 200, bodies that do not decode, and
responses with `success` false and a result list that is not empty make
`RefreshSecrets` return an error. A response with an empty result list makes it panic,
whatever `success` is, because the length of the list is tested first: on the HTTP 200
response whose body is the JSON object with `"success":false`,
`"error":"invalid refresh token"` and `"result":[]`, `RefreshSecrets` panics. -/
theorem C25_refresh_panics_on_empty_result :
    (∀ (x : Exchange) (unmarshal : Unmarshal (Response (Option Secret))) (err : String),
      x.reply = .transportError err →
        ∃ e, RbClient.RefreshSecrets x unmarshal = CallResult.failed e) ∧
    (∀ (x : Exchange) (unmarshal : Unmarshal (Response (Option Secret))) (code : Nat)
      (status : String) (data : List UInt8) (readErr : Option String),
      x.reply = .response code status data readErr → code ≠ 200 →
        ∃ e, RbClient.RefreshSecrets x unmarshal = CallResult.failed e) ∧
    (∀ (x : Exchange) (unmarshal : Unmarshal (Response (Option Secret)))
      (respBody : List UInt8) (resp : Response (Option Secret)),
      RbClient.post x = .ok respBody → unmarshal respBody = some resp →
        resp.Success = false → resp.Result ≠ [] →
        RbClient.RefreshSecrets x unmarshal = CallResult.failed resp.Error) ∧
    (∀ (x : Exchange) (unmarshal : Unmarshal (Response (Option Secret)))
      (respBody : List UInt8) (resp : Response (Option Secret)),
      RbClient.post x = .ok respBody → unmarshal respBody = some resp →
        resp.Result = [] → RbClient.RefreshSecrets x unmarshal = CallResult.panicked) ∧
    sampleResponseUnmarshal Secret refusedBody =
      some { Success := false, Error := "invalid refresh token", Result := [] } ∧
    RbClient.RefreshSecrets (okExchange refusedBody) (sampleResponseUnmarshal Secret) =
      CallResult.panicked := by
  refine ⟨?_, ?_, ?_, ?_, by rfl, by rfl⟩
  · intro x unmarshal err hr
    unfold RbClient.RefreshSecrets RbClient.post RbClient.doRequest
    rw [hr]
    cases x.request with
    | error e => exact ⟨e, rfl⟩
    | ok _ =>
      cases x.signature with
      | error e => exact ⟨e, rfl⟩
      | ok _ => exact ⟨err, rfl⟩
  · intro x unmarshal code status data readErr hr hcode
    unfold RbClient.RefreshSecrets RbClient.post RbClient.doRequest
    rw [hr]
    cases x.request with
    | error e => exact ⟨e, rfl⟩
    | ok _ =>
      cases x.signature with
      | error e => exact ⟨e, rfl⟩
      | ok _ =>
        refine ⟨status, ?_⟩
        have hne : code ≠ StatusOK := hcode
        simp [hne]
  · intro x unmarshal respBody resp hp hu hs hr
    unfold RbClient.RefreshSecrets
    rw [hp]
    simp only [hu]
    have hlen : ¬ resp.Result.length ≤ 0 := by
      cases hres : resp.Result with
      | nil => exact absurd hres hr
      | cons r rest => simp
    rw [if_neg hlen, hs]
    rfl
  · intro x unmarshal respBody resp hp hu hr
    unfold RbClient.RefreshSecrets
    rw [hp]
    simp only [hu]
    rw [if_pos (by rw [hr]; exact Nat.le_refl 0)]

/-- The conversion `int64(u)` keeps the words below `2^63`. -/
theorem int64OfUint_of_lt (u : Nat) (h : u < 2 ^ 63) : int64OfUint u = (u : Int) := by
  unfold int64OfUint
  have h64 : u % 2 ^ 64 = u := Nat.mod_eq_of_lt (by omega)
  rw [h64, if_pos h]

/-- The conversion `int64(u)` of a word from `2^63` on is negative. -/
theorem int64OfUint_of_ge (u : Nat) (h : 2 ^ 63 ≤ u) (h64 : u < 2 ^ 64) :
    int64OfUint u = (u : Int) - 2 ^ 64 ∧ int64OfUint u < 0 := by
  unfold int64OfUint
  have hm : u % 2 ^ 64 = u := Nat.mod_eq_of_lt h64
  rw [hm, if_neg (by omega)]
  refine ⟨rfl, ?_⟩
  have : (u : Int) < 2 ^ 64 := by exact_mod_cast h64
  omega

/-- C27: a nil secret is expired; for an `Expiration` below `2^63` the function
returns true exactly when `Expiration <= now`. From `2^63` on, `int64(Expiration)` is
negative and the function returns true at every `now >= 0`: the secret that is not nil
with `Expiration = 2^63 = 9223372036854775808` is reported expired at
`now = 1700000000`, although its `Expiration` is greater than `now`. -/
theorem C27_expiration_above_int64_reported_expired :
    (∀ now : Int, isApiSecretExpired none now = true) ∧
    (∀ (s : APISecret) (now : Int), s.Expiration < 2 ^ 63 →
      (isApiSecretExpired (some s) now = true ↔ (s.Expiration : Int) ≤ now)) ∧
    (∀ (s : APISecret) (now : Int), 2 ^ 63 ≤ s.Expiration → s.Expiration < 2 ^ 64 →
      0 ≤ now → isApiSecretExpired (some s) now = true) ∧
    ((1700000000 : Int) < (farSecret.Expiration : Int)) ∧
    isApiSecretExpired (some farSecret) 1700000000 = true := by
  refine ⟨fun _ => rfl, ?_, ?_, by decide, by decide⟩
  · intro s now h
    unfold isApiSecretExpired
    simp only [int64OfUint_of_lt s.Expiration h]
    by_cases hle : (s.Expiration : Int) ≤ now
    · simp [hle]
    · simp [hle]
  · intro s now h h64 hnow
    unfold isApiSecretExpired
    have hneg := (int64OfUint_of_ge s.Expiration h h64).2
    have hle : int64OfUint s.Expiration ≤ now := by omega
    simp [hle]

/-! ### The signature of a payload -/

/-- Characters with the same code are equal. -/
theorem char_eq_of_toNat (x y : Char) (h : x.toNat = y.toNat) : x = y := by
  rw [← Char.ofNat_toNat x, ← Char.ofNat_toNat y, h]

/-- The order of strings is total. -/
theorem lexLE_total (a b : List Char) : lexLE a b = true ∨ lexLE b a = true := by
  induction a generalizing b with
  | nil => left; rfl
  | cons x xs ih =>
    cases b with
    | nil => right; rfl
    | cons y ys =>
      simp only [lexLE]
      rcases Nat.lt_trichotomy x.toNat y.toNat with h | h | h
      · simp [h]
      · simp [h]; exact ih ys
      · simp [h]

/-- The order of strings is antisymmetric. -/
theorem lexLE_antisymm (a b : List Char) (h1 : lexLE a b = true) (h2 : lexLE b a = true) :
    a = b := by
  induction a generalizing b with
  | nil =>
    cases b with
    | nil => rfl
    | cons y ys => simp [lexLE] at h2
  | cons x xs ih =>
    cases b with
    | nil => simp [lexLE] at h1
    | cons y ys =>
      simp only [lexLE] at h1 h2
      rcases Nat.lt_trichotomy x.toNat y.toNat with h | h | h
      · simp [h, Nat.lt_asymm h] at h2
      · simp [h] at h1 h2
        rw [char_eq_of_toNat x y h, ih ys h1 h2]
      · simp [h, Nat.lt_asymm h] at h1

/-- The order of strings is transitive. -/
theorem lexLE_trans (a b c : List Char) (h1 : lexLE a b = true) (h2 : lexLE b c = true) :
    lexLE a c = true := by
  induction a generalizing b c with
  | nil => rfl
  | cons x xs ih =>
    cases b with
    | nil => simp [lexLE] at h1
    | cons y ys =>
      cases c with
      | nil => simp [lexLE] at h2
      | cons z zs =>
        simp only [lexLE] at h1 h2 ⊢
        rcases Nat.lt_trichotomy x.toNat y.toNat with h | h | h
        · rcases Nat.lt_trichotomy y.toNat z.toNat with g | g | g
          · simp [Nat.lt_trans h g]
          · simp [g ▸ h]
          · simp [g, Nat.lt_asymm g] at h2
        · rcases Nat.lt_trichotomy y.toNat z.toNat with g | g | g
          · simp [h ▸ g]
          · simp [h, g] at h1 h2 ⊢
            exact ih ys zs h1 h2
          · simp [g, Nat.lt_asymm g] at h2
        · simp [h, Nat.lt_asymm h] at h1

/-- The result of `sort.Strings` is the one increasing arrangement of its input. -/
theorem sortStrings_eq_of_sorted (a ks : List String) (hperm : ks.Perm a)
    (hsorted : ks.Sorted stringLE) : sortStrings a = ks := by
  haveI : IsTotal String stringLE := ⟨fun x y => lexLE_total x.data y.data⟩
  haveI : IsTrans String stringLE := ⟨fun x y z => lexLE_trans x.data y.data z.data⟩
  haveI : IsAntisymm String stringLE :=
    ⟨fun x y h1 h2 => String.ext (lexLE_antisymm x.data y.data h1 h2)⟩
  exact List.eq_of_perm_of_sorted ((List.perm_insertionSort stringLE a).trans hperm.symm)
    (List.sorted_insertionSort stringLE a) hsorted

/-- The result of `sort.Strings` is increasing and holds the strings of its input. -/
theorem sortStrings_sorted (a : List String) :
    (sortStrings a).Perm a ∧ (sortStrings a).Sorted stringLE := by
  haveI : IsTotal String stringLE := ⟨fun x y => lexLE_total x.data y.data⟩
  haveI : IsTrans String stringLE := ⟨fun x y z => lexLE_trans x.data y.data z.data⟩
  exact ⟨List.perm_insertionSort stringLE a, List.sorted_insertionSort stringLE a⟩

/-- The loop that appends to `message` builds the concatenation of the pieces. -/
theorem foldl_append_pairs (f : String → String) (ks : List String) (acc : String) :
    ks.foldl (fun message k => message ++ f k) acc =
      acc ++ (ks.map f).foldr (fun s t => s ++ t) "" := by
  induction ks generalizing acc with
  | nil => simp
  | cons k rest ih =>
    simp only [List.foldl_cons, List.map_cons, List.foldr_cons]
    rw [ih, String.append_assoc]

/-- The bytes of a concatenation. -/
theorem bytesOf_append (a b : String) : bytesOf (a ++ b) = bytesOf a ++ bytesOf b := by
  unfold bytesOf
  rw [String.data_append, List.flatMap_append]

/-- The bytes that `PayloadSignature` hashes are the bytes of the canonical message. -/
theorem signedInput_eq (payload : Payload) (timestamp : Int) :
    signedInput payload timestamp = bytesOf (canonicalMessage payload timestamp) := by
  have h : (sortStrings payload.keys).foldl
      (fun message k => message ++ (k ++ "=" ++ (payload.lookup k).getD "")) "" =
      "" ++ ((sortStrings payload.keys).map (keyValue payload)).foldr (fun s t => s ++ t) "" :=
    foldl_append_pairs (keyValue payload) (sortStrings payload.keys) ""
  unfold signedInput canonicalMessage concatPairs
  simp only []
  rw [bytesOf_append, h, String.empty_append]

/-- Two payloads with the same entries have the same canonical message. -/
theorem canonicalMessage_of_perm (p1 p2 : Payload) (timestamp : Int)
    (hperm : p1.entries.Perm p2.entries) :
    canonicalMessage p1 timestamp = canonicalMessage p2 timestamp := by
  have hkeys : p1.keys.Perm p2.keys := hperm.map _
  have hsort : sortStrings p1.keys = sortStrings p2.keys :=
    sortStrings_eq_of_sorted p1.keys (sortStrings p2.keys)
      ((sortStrings_sorted p2.keys).1.trans hkeys.symm) (sortStrings_sorted p2.keys).2
  have hkv : keyValue p1 = keyValue p2 := by
    funext k
    unfold keyValue
    rw [AList.perm_lookup hperm]
  unfold canonicalMessage concatPairs
  rw [hsort, hkv]

/-- The value of the digits that `Nat.toDigitsCore` puts in front of `ds`. -/
theorem foldl_toDigitsCore (fuel n : Nat) (ds : List Char) (h : n < fuel) :
    (Nat.toDigitsCore 10 fuel n ds).foldl (fun a c => 10 * a + (c.toNat - 48)) 0 =
      ds.foldl (fun a c => 10 * a + (c.toNat - 48)) n := by
  induction fuel generalizing n ds with
  | zero => omega
  | succ fuel ih =>
    have hd : (Nat.digitChar (n % 10)).toNat - 48 = n % 10 := by
      have h10 : n % 10 < 10 := Nat.mod_lt _ (by norm_num)
      interval_cases (n % 10) <;> rfl
    unfold Nat.toDigitsCore
    simp only []
    by_cases h0 : n / 10 = 0
    · rw [if_pos h0]
      simp only [List.foldl_cons, hd]
      have : 10 * 0 + n % 10 = n := by omega
      rw [this]
    · rw [if_neg h0, ih (n / 10) _ (by omega)]
      simp only [List.foldl_cons, hd]
      have : 10 * (n / 10) + n % 10 = n := by omega
      rw [this]

/-- The digits that `Nat.toDigitsCore` puts in front of `ds` are not the minus sign. -/
theorem mem_toDigitsCore (fuel n : Nat) (ds : List Char) (c : Char)
    (h : c ∈ Nat.toDigitsCore 10 fuel n ds) : c ∈ ds ∨ c ≠ '-' := by
  induction fuel generalizing n ds with
  | zero => left; exact h
  | succ fuel ih =>
    have hd : Nat.digitChar (n % 10) ≠ '-' := by
      have h10 : n % 10 < 10 := Nat.mod_lt _ (by norm_num)
      interval_cases (n % 10) <;> decide
    unfold Nat.toDigitsCore at h
    simp only [] at h
    by_cases h0 : n / 10 = 0
    · rw [if_pos h0] at h
      rcases List.mem_cons.mp h with h | h
      · right; rw [h]; exact hd
      · left; exact h
    · rw [if_neg h0] at h
      rcases ih (n / 10) _ h with h | h
      · rcases List.mem_cons.mp h with h | h
        · right; rw [h]; exact hd
        · left; exact h
      · right; exact h

/-- The decimal rendering of a natural number denotes that number. -/
theorem digitsValue_repr (n : Nat) : digitsValue (Nat.repr n).data = n := by
  unfold digitsValue
  show (Nat.toDigitsCore 10 (n + 1) n []).foldl _ 0 = n
  rw [foldl_toDigitsCore (n + 1) n [] (by omega)]
  rfl

/-- The function `strconv.FormatInt` is injective. -/
theorem strconvFormatInt_injective (i j : Int) (h : strconvFormatInt i = strconvFormatInt j) :
    i = j := by
  have hnat : ∀ n m : Nat, Nat.repr n = Nat.repr m → n = m := by
    intro n m hnm
    rw [← digitsValue_repr n, ← digitsValue_repr m, hnm]
  have hsign : ∀ n m : Nat, Nat.repr n ≠ "-" ++ Nat.repr m := by
    intro n m hnm
    have hmem : '-' ∈ (Nat.repr n).data := by
      rw [hnm]
      show '-' ∈ '-' :: (Nat.repr m).data
      exact List.mem_cons_self _ _
    rcases mem_toDigitsCore (n + 1) n [] '-' hmem with h | h
    · cases h
    · exact h rfl
  cases i with
  | ofNat n =>
    cases j with
    | ofNat m =>
      have := hnat n m h
      rw [this]
    | negSucc m => exact absurd h (hsign n (m + 1))
  | negSucc n =>
    cases j with
    | ofNat m => exact absurd h.symm (hsign m (n + 1))
    | negSucc m =>
      have h2 : (Nat.repr (n + 1)).data = (Nat.repr (m + 1)).data := by
        have := congrArg String.data h
        exact List.cons_injective this
      have := hnat (n + 1) (m + 1) (String.ext h2)
      have hnm : n = m := by omega
      rw [hnm]

/-- C24: for every payload map, every secret that `hexutil.Decode` accepts and every
timestamp, `PayloadSignature` returns the hex encoding of the HMAC-SHA256, under the
bytes of the secret, of the SHA-256 hash of the bytes of `m`, where `m` is the
concatenation of `key=value` over the keys of the payload in increasing order,
followed by the decimal rendering of the timestamp; there is exactly such an
arrangement of the keys, and two payloads with the same entries, whatever the order
in which the map is visited, have the same signature. -/
theorem C24_signature_of_sorted_pairs (C : Crypto) (payload : Payload) (secret : String)
    (timestamp : Int) (secretBytes : List UInt8)
    (hsecret : C.hexutilDecode secret = .ok secretBytes) :
    (∀ ks : List String, ks.Perm payload.keys → ks.Sorted stringLE →
      PayloadSignature C payload secret timestamp =
        .ok (C.hexutilEncode (C.hmacSha256 secretBytes (C.sha256Sum256
          (bytesOf (concatPairs ks payload ++ strconvFormatInt timestamp)))))) ∧
    (∃ ks : List String, ks.Perm payload.keys ∧ ks.Sorted stringLE) ∧
    (∀ payload2 : Payload, payload2.entries.Perm payload.entries →
      PayloadSignature C payload2 secret timestamp =
        PayloadSignature C payload secret timestamp) := by
  refine ⟨?_, ⟨sortStrings payload.keys, sortStrings_sorted payload.keys⟩, ?_⟩
  · intro ks hperm hsorted
    unfold PayloadSignature
    rw [hsecret]
    simp only []
    rw [signedInput_eq]
    unfold canonicalMessage
    rw [sortStrings_eq_of_sorted payload.keys ks hperm hsorted]
  · intro payload2 hperm
    unfold PayloadSignature
    rw [signedInput_eq, signedInput_eq, canonicalMessage_of_perm payload2 payload timestamp hperm]

/-- The theorem of C24 on the payload `a = 1`, `b = 2`, `method = POST`,
`path = /orders` and the timestamp `1700000000`: the message is
`a=1b=2method=POSTpath=/orders1700000000`, and the payload visited in the opposite
order has the same signature. -/
theorem C24_witness :
    toyCrypto.hexutilDecode "0x01" = .ok [1] ∧
      concatPairs ["a", "b", "method", "path"] payloadSplit ++ strconvFormatInt 1700000000 =
        "a=1b=2method=POSTpath=/orders1700000000" ∧
      PayloadSignature toyCrypto payloadSplit "0x01" 1700000000 =
        .ok (toyCrypto.hexutilEncode (toyCrypto.hmacSha256 [1] (toyCrypto.sha256Sum256
          (bytesOf (concatPairs ["a", "b", "method", "path"] payloadSplit ++
            strconvFormatInt 1700000000))))) ∧
      PayloadSignature toyCrypto payloadSplitOther "0x01" 1700000000 =
        PayloadSignature toyCrypto payloadSplit "0x01" 1700000000 :=
  ⟨rfl, by decide,
    (C24_signature_of_sorted_pairs toyCrypto payloadSplit "0x01" 1700000000 [1] rfl).1
      ["a", "b", "method", "path"] (by decide) (by decide),
    (C24_signature_of_sorted_pairs toyCrypto payloadSplit "0x01" 1700000000 [1] rfl).2.2
      payloadSplitOther (by decide)⟩

/-- C29, the counterexample: the pieces `key=value` are joined without a separator and
without escaping. The payloads `a = 1`, `b = 2` and `a = 1b=2` (each with
`method = POST` and `path = /orders`) have the canonical message
`a=1b=2method=POSTpath=/orders5` at the timestamp `5`, although the maps differ at the
key `b`; the payload `a = 1` at the timestamp `23` and the payload `a = 12` at the
timestamp `3` have the canonical message `a=123`, although the timestamps differ. The
bytes that are hashed are then equal too. -/
theorem C29_counterexample :
    canonicalMessage payloadSplit 5 = "a=1b=2method=POSTpath=/orders5" ∧
      canonicalMessage payloadJoined 5 = "a=1b=2method=POSTpath=/orders5" ∧
      payloadSplit.lookup "b" = some "2" ∧ payloadJoined.lookup "b" = none ∧
      signedInput payloadSplit 5 = signedInput payloadJoined 5 ∧
      canonicalMessage payloadOne 23 = "a=123" ∧
      canonicalMessage payloadTwelve 3 = "a=123" ∧
      signedInput payloadOne 23 = signedInput payloadTwelve 3 := by
  refine ⟨by decide, by decide, by decide, by decide, by decide, by decide, by decide,
    by decide⟩

/-- C29, as amended: the canonical message is determined by the payload map and the
timestamp, and for one payload map it identifies the timestamp. For every two payloads
with the same entries, the canonical messages at equal timestamps are equal, and if
the canonical messages at two timestamps are equal, then the timestamps are equal. -/
theorem C29_message_of_map_identifies_timestamp (p1 p2 : Payload)
    (hmap : p1.entries.Perm p2.entries) :
    (∀ t : Int, canonicalMessage p1 t = canonicalMessage p2 t) ∧
      (∀ t1 t2 : Int, canonicalMessage p1 t1 = canonicalMessage p2 t2 → t1 = t2) ∧
      (∀ t : Int, signedInput p1 t = bytesOf (canonicalMessage p1 t)) := by
  refine ⟨fun t => canonicalMessage_of_perm p1 p2 t hmap, ?_, fun t => signedInput_eq p1 t⟩
  intro t1 t2 h
  rw [canonicalMessage_of_perm p1 p2 t1 hmap] at h
  unfold canonicalMessage at h
  have hd := congrArg String.data h
  rw [String.data_append, String.data_append] at hd
  exact strconvFormatInt_injective t1 t2 (String.ext (List.append_cancel_left hd))

/-- The theorem of C29 on the payload `a = 1`, `b = 2`, `method = POST`,
`path = /orders`, visited in two orders. -/
theorem C29_witness :
    payloadSplit.entries.Perm payloadSplitOther.entries ∧
      canonicalMessage payloadSplit 5 = canonicalMessage payloadSplitOther 5 ∧
      (∀ t1 t2 : Int,
        canonicalMessage payloadSplit t1 = canonicalMessage payloadSplitOther t2 → t1 = t2) :=
  ⟨by decide,
    (C29_message_of_map_identifies_timestamp payloadSplit payloadSplitOther (by decide)).1 5,
    (C29_message_of_map_identifies_timestamp payloadSplit payloadSplitOther (by decide)).2.1⟩

/-! ### Locks -/

/-- The loop of `checkOrders` performs no collaborator call. -/
theorem quietUnderLock_scanEvents (entries : List (Sigma fun _ : String => String))
    (ch : Chan) (held : List Mutex) :
    quietUnderLock Event.isCall held (scanEvents entries ch) = true := by
  induction entries generalizing ch held with
  | nil => rfl
  | cons e rest ih =>
    unfold scanEvents
    by_cases hc : e.2 = OPEN ∨ e.2 = CANCELING
    · rw [if_pos hc]
      cases hs : ch.send e.1 with
      | none => simp [quietUnderLock, Event.isCall]
      | some ch2 =>
        simp only [quietUnderLock, Event.isCall]
        simp [ih]
    · rw [if_neg hc]
      exact ih ch held

/-- The loop of `checkOrders` waits exactly when a send blocks, that is, when
`checkOrders` does not complete. -/
theorem wait_mem_scanEvents_iff (entries : List (Sigma fun _ : String => String))
    (ch : Chan) :
    (∃ oid, Event.wait oid ∈ scanEvents entries ch) ↔
      entries.foldlM
        (fun ch e => if e.2 = OPEN ∨ e.2 = CANCELING then ch.send e.1 else some ch) ch =
        none := by
  induction entries generalizing ch with
  | nil => simp [scanEvents]
  | cons e rest ih =>
    unfold scanEvents
    rw [List.foldlM_cons]
    by_cases hc : e.2 = OPEN ∨ e.2 = CANCELING
    · rw [if_pos hc, if_pos hc]
      cases hs : ch.send e.1 with
      | none => simp
      | some ch2 =>
        simp only [Option.some_bind, Option.bind_eq_bind]
        rw [← ih ch2]
        simp
    · rw [if_neg hc, if_neg hc]
      simp only [Option.some_bind, Option.bind_eq_bind]
      exact ih ch

/-- When the loop of `checkOrders` waits, it does so while `muOrder` is held. -/
theorem quietUnderLock_scanEvents_wait (entries : List (Sigma fun _ : String => String))
    (ch : Chan) (held : List Mutex) (hheld : held.isEmpty = false) :
    quietUnderLock Event.isWait held (scanEvents entries ch) = true ↔
      ¬ ∃ oid, Event.wait oid ∈ scanEvents entries ch := by
  induction entries generalizing ch with
  | nil => simp [scanEvents, quietUnderLock]
  | cons e rest ih =>
    unfold scanEvents
    by_cases hc : e.2 = OPEN ∨ e.2 = CANCELING
    · rw [if_pos hc]
      cases hs : ch.send e.1 with
      | none => simp [quietUnderLock, Event.isWait, hheld]
      | some ch2 =>
        simp only [quietUnderLock, Event.isWait]
        have := ih ch2
        simp only [Bool.not_false, Bool.or_true, Bool.true_and]
        rw [this]
        simp
    · rw [if_neg hc]
      exact ih ch

/-- C23, the counterexample: the scanner enqueues with a send on the cancel channel,
whose capacity is 10000, and a send on a full channel waits. On the order book
`1: open` and a full channel, `checkOrders` takes the read lock of the order book and
then waits at the send of `1`, without releasing the lock. -/
theorem C23_counterexample :
    fullChan.buf.length = 10000 ∧ fullChan.cap = 10000 ∧
      checkOrdersEvents wdTracking fullChan =
        [Event.RLock Mutex.muOrder, Event.wait "1"] ∧
      (checkOrders wdTracking fullChan).2 = none ∧
      quietUnderLock Event.isWait [] (checkOrdersEvents wdTracking fullChan) = false := by
  have hlen : fullChan.buf.length = 10000 := List.length_replicate 10000 "0"
  have hsend : fullChan.send "1" = none := by
    unfold Chan.send
    rw [if_neg]
    rw [hlen]
    exact Nat.lt_irrefl 10000
  have hentries : wdTracking.orders.entries = [⟨"1", OPEN⟩] := by rfl
  have hscan : scanEvents wdTracking.orders.entries fullChan = [Event.wait "1"] := by
    rw [hentries]
    unfold scanEvents
    rw [if_pos (Or.inl rfl)]
    simp only [hsend]
  have hev : checkOrdersEvents wdTracking fullChan =
      [Event.RLock Mutex.muOrder, Event.wait "1"] := by
    unfold checkOrdersEvents
    rw [hscan]
  refine ⟨hlen, rfl, hev, ?_, ?_⟩
  · unfold checkOrders
    exact (wait_mem_scanEvents_iff wdTracking.orders.entries fullChan).mp
      ⟨"1", by rw [hscan]; exact List.mem_singleton.mpr rfl⟩
  · rw [hev]
    rfl

/-- C23, as amended: no operation of the watchdog performs an external collaborator
call (list, create, cancel) while it holds the lock of the order book or the lock of
the market state: `loadOrders`, `placeOrder` and `cancelOrder` take the lock of the
order book only after their call has returned, and `checkOrders` only enqueues under
the read lock of the order book. An enqueue is a send on the cancel channel: under the
read lock `checkOrders` waits exactly when a send finds the channel full, that is,
exactly when `checkOrders` does not complete. -/
theorem C23_no_call_under_lock :
    (∀ (ListOrders : OrderListRequest → Except String (List OrderData)) (wd : WatchDog),
      quietUnderLock Event.isCall [] (loadOrdersEvents ListOrders wd) = true) ∧
    (∀ (α : Type) (A : Arith α)
      (CreateOrder : OrderCreateRequest α → CallResult OrderCreateResponse) (wd : WatchDog),
      quietUnderLock Event.isCall [] (placeOrderEvents A CreateOrder wd) = true) ∧
    (∀ (CancelOrder : OrderCancelRequest → CallResult OrderCancelResponse) (wd : WatchDog)
      (oid : String),
      quietUnderLock Event.isCall [] (cancelOrderEvents CancelOrder wd oid) = true) ∧
    (∀ (wd : WatchDog) (cancelCh : Chan),
      quietUnderLock Event.isCall [] (checkOrdersEvents wd cancelCh) = true) ∧
    (∀ wd : WatchDog, quietUnderLock Event.isCall [] (cleanOrdersEvents wd) = true) ∧
    (∀ (unmarshal : Unmarshal MarketData) (data : EventData),
      quietUnderLock Event.isCall [] (handleMarketDataEvents unmarshal data) = true) ∧
    (∀ (unmarshal : Unmarshal ProfileData) (data : EventData),
      quietUnderLock Event.isCall [] (handleAccountDataEvents unmarshal data) = true) ∧
    (∀ (wd : WatchDog) (cancelCh : Chan),
      (quietUnderLock Event.isWait [] (checkOrdersEvents wd cancelCh) = false ↔
        (checkOrders wd cancelCh).2 = none)) := by
  refine ⟨?_, ?_, ?_, ?_, ?_, ?_, ?_, ?_⟩
  · intro ListOrders wd
    unfold loadOrdersEvents
    cases ListOrders { MarketId := wd.marketId } with
    | error err => rfl
    | ok orders => rfl
  · intro α A CreateOrder wd
    unfold placeOrderEvents
    simp only []
    split
    · rfl
    · split <;> rfl
  · intro CancelOrder wd oid
    unfold cancelOrderEvents
    split <;> rfl
  · intro wd cancelCh
    unfold checkOrdersEvents
    exact quietUnderLock_scanEvents wd.orders.entries cancelCh [Mutex.muOrder]
  · intro wd
    rfl
  · intro unmarshal data
    unfold handleMarketDataEvents
    split <;> rfl
  · intro unmarshal data
    unfold handleAccountDataEvents
    split
    · rfl
    · split <;> rfl
  · intro wd cancelCh
    unfold checkOrdersEvents checkOrders
    show quietUnderLock Event.isWait [Mutex.muOrder] (scanEvents wd.orders.entries cancelCh) =
      false ↔ _
    rw [← wait_mem_scanEvents_iff]
    have h := quietUnderLock_scanEvents_wait wd.orders.entries cancelCh [Mutex.muOrder] rfl
    constructor
    · intro hf
      by_contra hn
      rw [h.mpr hn] at hf
      cases hf
    · intro hw
      cases hq : quietUnderLock Event.isWait [Mutex.muOrder]
        (scanEvents wd.orders.entries cancelCh) with
      | false => rfl
      | true => exact absurd hw (h.mp hq)

end RabbitX
